import Mathlib

/-!
Broker and client of nymea-mqtt: topic matching, routing, retained messages, sessions
and packet acknowledgement

A shallow embedding of `libnymea-mqtt/mqttserver.cpp` (class `MqttServerPrivate`) and of
the packet handling of `libnymea-mqtt/mqttclient.cpp` (class `MqttClientPrivate`).

* `QString` / `QByteArray` values are lists of characters; a literal is written
  `"sport/#".toList`.
* `QList::at(i)` has the precondition `0 <= i < size()`; a call outside that range
  is modelled by the result `none` of the enclosing function.
* `QHash` containers are association lists; their order stands for the (unspecified)
  iteration order of `keys()`.
-/

namespace NymeaMqtt

/-! ## Strings -/

/-- A `QString` (and, for topics and payloads, a `QByteArray`): a sequence of characters. -/
abbrev QString := List Char

/-- Source: `QString::split(sep)` with the default `KeepEmptyParts` behaviour: the empty string
splits into one empty part, and `n` separators give `n + 1` parts. -/
def split (sep : Char) : QString → List QString
  | [] => [[]]
  | c :: cs =>
    if c = sep then [] :: split sep cs
    else
      match split sep cs with
      | [] => [[c]]
      | p :: ps => (c :: p) :: ps

/-- Source: `QString::contains(QChar)`. -/
def contains (s : QString) (c : Char) : Bool := s.elem c

/-- Source: `QString::startsWith(QChar)`. -/
def startsWith (s : QString) (c : Char) : Bool := s.head? == some c

/-- Source: `QString::endsWith(QChar)`. -/
def endsWith (s : QString) (c : Char) : Bool := s.getLast? == some c

/-! ## Topic filters -/

/-- The `for` loop of `MqttServerPrivate::validateTopicFilter`, entered at index `i` with
the parts from `i` on still to visit; `count` is `parts.count()`. -/
def validateTopicFilterLoop (count : Nat) : Nat → List QString → Bool
  | _, [] => true
  | i, part :: rest =>
    if contains part '#' && (part != ['#'] || i != count - 1) then false
    else if contains part '+' && part != ['+'] then false
    else validateTopicFilterLoop count (i + 1) rest

/-- Source: `MqttServerPrivate::validateTopicFilter`. -/
def validateTopicFilter (topicFilter : QString) : Bool :=
  if topicFilter.length < 1 then false
  else
    let parts := split '/' topicFilter
    validateTopicFilterLoop parts.length 0 parts

/-- The `for` loop of `MqttServerPrivate::matchTopic`, entered at index `i` with the filter
parts from `i` on still to visit. `some true`: the loop ran to its end; `some false`: it
hit `return false`; `none`: `topicParts.at(i)` was called with `i` out of range. -/
def matchTopicLoop (topicParts : List QString) : Nat → List QString → Option Bool
  | _, [] => some true
  | i, filterPart :: rest =>
    if filterPart = ['+'] then matchTopicLoop topicParts (i + 1) rest
    else if filterPart = ['#'] then matchTopicLoop topicParts (i + 1) rest
    else
      match topicParts[i]? with
      | none => none
      | some topicPart =>
        if topicPart = filterPart then matchTopicLoop topicParts (i + 1) rest
        else some false

/-- Source: `MqttServerPrivate::matchTopic`; `none` when the loop reads `topicParts` out of range. -/
def matchTopic (topicFilter topic : QString) : Option Bool :=
  if startsWith topic '$' then some false
  else
    let filterParts := split '/' topicFilter
    let topicParts := split '/' topic
    if (topicParts.length : Int) < (filterParts.length : Int) - 1 then some false
    else
      match matchTopicLoop topicParts 0 filterParts with
      | none => none
      | some false => some false
      | some true => some (filterParts.length == topicParts.length || endsWith topicFilter '#')

/-- The indices `i` at which the `for` loop of `MqttServerPrivate::matchTopic`, entered
at index `i` with the filter parts from `i` on still to visit, calls `topicParts.at(i)`, in
the order of the calls. The parts `+` and `#` are skipped without a call; after a call out
of range, or a call whose comparison fails, no call follows. -/
def matchTopicReadsLoop (topicParts : List QString) : Nat → List QString → List Nat
  | _, [] => []
  | i, filterPart :: rest =>
    if filterPart = ['+'] then matchTopicReadsLoop topicParts (i + 1) rest
    else if filterPart = ['#'] then matchTopicReadsLoop topicParts (i + 1) rest
    else if topicParts[i]? = some filterPart then
      i :: matchTopicReadsLoop topicParts (i + 1) rest
    else [i]

/-- The indices at which `MqttServerPrivate::matchTopic` calls `topicParts.at(i)`: none
when the function returns before the loop. -/
def matchTopicReads (topicFilter topic : QString) : List Nat :=
  if startsWith topic '$' then []
  else
    let filterParts := split '/' topicFilter
    let topicParts := split '/' topic
    if (topicParts.length : Int) < (filterParts.length : Int) - 1 then []
    else matchTopicReadsLoop topicParts 0 filterParts

/-! ## Packets

`mqtt.h` and `mqttpacket.h` are not among the sources at hand; the types below carry the
attributes that `mqttserver.cpp` reads and writes. -/

/-- Modelled from the spec: `Mqtt::QoS`, the quality-of-service levels 0, 1 and 2. -/
inductive QoS where
  | QoS0
  | QoS1
  | QoS2
  deriving DecidableEq

/-- The numeric value of a `Mqtt::QoS` enumerator. -/
def QoS.toNat : QoS → Nat
  | QoS.QoS0 => 0
  | QoS.QoS1 => 1
  | QoS.QoS2 => 2

instance : LT QoS := ⟨fun a b => a.toNat < b.toNat⟩

instance : LE QoS := ⟨fun a b => a.toNat ≤ b.toNat⟩

instance (a b : QoS) : Decidable (a < b) := inferInstanceAs (Decidable (a.toNat < b.toNat))

instance (a b : QoS) : Decidable (a ≤ b) := inferInstanceAs (Decidable (a.toNat ≤ b.toNat))

/-- The Qt function `qMin(a, b)`, which is `(a < b) ? a : b`. -/
def qMin (a b : QoS) : QoS := if a < b then a else b

/-- Modelled from the spec: `MqttPacket::Type`, the 14 kinds of control packet. -/
inductive PacketType where
  | TypeConnect
  | TypeConnack
  | TypePublish
  | TypePuback
  | TypePubrec
  | TypePubrel
  | TypePubcomp
  | TypeSubscribe
  | TypeSuback
  | TypeUnsubscribe
  | TypeUnsuback
  | TypePingreq
  | TypePingresp
  | TypeDisconnect
  deriving DecidableEq

/-- Modelled from the spec: `Mqtt::SubscribeReturnCode`. -/
inductive SubscribeReturnCode where
  | SubscribeReturnCodeSuccessQoS0
  | SubscribeReturnCodeSuccessQoS1
  | SubscribeReturnCodeSuccessQoS2
  | SubscribeReturnCodeFailure
  deriving DecidableEq

/-- Modelled from the spec: `Mqtt::ConnectReturnCode`. -/
inductive ConnectReturnCode where
  | ConnectReturnCodeAccepted
  | ConnectReturnCodeUnacceptableProtocolVersion
  | ConnectReturnCodeIdentifierRejected
  | ConnectReturnCodeServerUnavailable
  | ConnectReturnCodeBadUsernameOrPassword
  | ConnectReturnCodeNotAuthorized
  deriving DecidableEq

/-- Modelled from the spec: `Mqtt::ConnectFlags`, the connect-flags bitset; each field is
the result of `testFlag` on the flag of that name. -/
structure ConnectFlags where
  ConnectFlagCleanSession : Bool
  ConnectFlagWill : Bool
  ConnectFlagWillQoS1 : Bool
  ConnectFlagWillQoS2 : Bool
  ConnectFlagWillRetain : Bool
  ConnectFlagPassword : Bool
  ConnectFlagUsername : Bool
  deriving DecidableEq

/-- Modelled from the spec: `MqttSubscription`, a topic filter with a QoS. -/
structure MqttSubscription where
  topicFilter : QString
  qoS : QoS
  deriving DecidableEq

/-- Modelled from the spec: the value of `Mqtt::Protocol311`, protocol level 4. -/
def Protocol311 : Nat := 4

/-- Modelled from the spec: `MqttPacket`, a tagged record with the attributes common to
all packets and the per-kind payload. `connackFlags` is true when
`Mqtt::ConnackFlagSessionPresent` is set; `cleanSession()` and `willRetain()` read the
connect flags. -/
structure MqttPacket where
  type : PacketType
  packetId : Nat
  qos : QoS
  retain : Bool
  dup : Bool
  topic : QString
  payload : QString
  subscriptions : List MqttSubscription
  subscribeReturnCodes : List SubscribeReturnCode
  connectReturnCode : ConnectReturnCode
  connackFlags : Bool
  protocolLevel : Nat
  connectFlags : ConnectFlags
  keepAlive : Nat
  clientId : QString
  willTopic : QString
  willMessage : QString
  username : QString
  password : QString
  deriving DecidableEq

/-- Modelled from the spec: the constructor `MqttPacket(type, packetId, qos, retain, dup)`
as the sources call it; the remaining attributes are empty. -/
def MqttPacket.new (type : PacketType) (packetId : Nat) (qos : QoS) (retain dup : Bool) :
    MqttPacket :=
  { type := type, packetId := packetId, qos := qos, retain := retain, dup := dup,
    topic := [], payload := [], subscriptions := [], subscribeReturnCodes := [],
    connectReturnCode := ConnectReturnCode.ConnectReturnCodeAccepted, connackFlags := false,
    protocolLevel := 0,
    connectFlags := ⟨false, false, false, false, false, false, false⟩,
    keepAlive := 0, clientId := [], willTopic := [], willMessage := [], username := [],
    password := [] }

/-- Modelled from the spec: a default-constructed `MqttPacket()`, as `QHash::value` and
`QHash::take` return for a key that is absent; only its empty topic and payload are ever
read. -/
def MqttPacket.empty : MqttPacket :=
  MqttPacket.new PacketType.TypeConnect 0 QoS.QoS0 false false

/-- Modelled from the spec: `MqttPacket::cleanSession()`, the clean-session connect flag. -/
def MqttPacket.cleanSession (packet : MqttPacket) : Bool :=
  packet.connectFlags.ConnectFlagCleanSession

/-- Modelled from the spec: `MqttPacket::willRetain()`, the will-retain connect flag. -/
def MqttPacket.willRetain (packet : MqttPacket) : Bool :=
  packet.connectFlags.ConnectFlagWillRetain

/-! ## Broker state (mqttserver_p.h) -/

/-- The class `ClientContext`; the keep-alive timer and the unused `inputBuffer` are left out. -/
structure ClientContext where
  version : Nat
  keepAlive : Nat
  clientId : QString
  username : QString
  willTopic : QString
  willMessage : QString
  willQoS : QoS
  willRetain : Bool
  subscriptions : List MqttSubscription
  unackedPacketList : List Nat
  unackedPackets : List (Nat × MqttPacket)
  deriving DecidableEq

/-- The state of `new ClientContext()` with its `clientId` set. -/
def ClientContext.new (clientId : QString) : ClientContext :=
  { version := 0, keepAlive := 0, clientId := clientId, username := [], willTopic := [],
    willMessage := [], willQoS := QoS.QoS0, willRetain := false, subscriptions := [],
    unackedPacketList := [], unackedPackets := [] }

/-- Modelled from the spec: the signals of `MqttServer` (declared in `mqttserver.h`), with
the arguments of the `emit` statements; the peer address of `clientConnected` is left
out. -/
inductive Signal where
  | clientConnected (clientId username : QString)
  | clientDisconnected (clientId : QString)
  | clientAlive (clientId : QString)
  | clientSubscribed (clientId topicFilter : QString) (qos : QoS)
  | clientUnsubscribed (clientId topicFilter : QString)
  | publishReceived (clientId : QString) (packetId : Nat) (topic payload : QString)
      (dup : Bool)
  | published (clientId : QString) (packetId : Nat) (topic payload : QString)
  deriving DecidableEq

/-- Modelled from the spec: `MqttUserValidator` (declared in `mqttserver.h`), the
authenticator capability supplied by the host; the socket handle stands for the peer
address. -/
structure MqttUserValidator where
  validateConnect : QString → QString → QString → Nat → ConnectReturnCode
  validateSubscribe : QString → QString → QString → Bool

/-- The class `MqttServerPrivate`. A `QTcpSocket*` is a natural number. Besides the members of the
class the state holds `packetId`, the function-static counter of `newPacketId`, and four
logs: `written` (every `socket->write(packet.serialize())`, oldest first), `emitted` (the
signals emitted), `deferred` (signals queued with `QTimer::singleShot(0, ...)`) and
`closed` (sockets closed or scheduled for deletion). Timers and receive buffers are left
out. -/
structure MqttServerPrivate where
  maximumSubscriptionQoS : QoS
  clientList : List (Nat × ClientContext)
  retainedMessages : List (QString × List MqttPacket)
  packetId : Nat
  written : List (Nat × MqttPacket)
  emitted : List Signal
  deferred : List Signal
  closed : List Nat
  deriving DecidableEq

/-! ### `QHash` operations on association lists -/

/-- Source: `QHash::remove(key)`. -/
def hashRemove {κ ν : Type} [DecidableEq κ] (h : List (κ × ν)) (key : κ) : List (κ × ν) :=
  h.filter (fun e => e.1 ≠ key)

/-- Source: `QHash::insert(key, value)`: the value of an existing key is replaced. -/
def hashInsert {κ ν : Type} [DecidableEq κ] (h : List (κ × ν)) (key : κ) (value : ν) :
    List (κ × ν) :=
  if h.any (fun e => e.1 = key) then h.map (fun e => if e.1 = key then (key, value) else e)
  else h ++ [(key, value)]

/-- Source: `QHash::value(key)` for packets: a default-constructed packet when the key is absent. -/
def packetValue (h : List (Nat × MqttPacket)) (key : Nat) : MqttPacket :=
  (h.lookup key).getD MqttPacket.empty

/-- Source: `QVector::removeAll(value)`. -/
def removeAll (l : List Nat) (value : Nat) : List Nat :=
  l.filter (fun x => x ≠ value)

/-- Writes `packet` to `client`. -/
def MqttServerPrivate.write (d : MqttServerPrivate) (client : Nat) (packet : MqttPacket) :
    MqttServerPrivate :=
  { d with written := d.written ++ [(client, packet)] }

/-- Emits `signal`. -/
def MqttServerPrivate.emit (d : MqttServerPrivate) (signal : Signal) : MqttServerPrivate :=
  { d with emitted := d.emitted ++ [signal] }

/-- Stores the context `ctx` of `client` back into the client table (the source mutates
the context through a pointer). -/
def MqttServerPrivate.setContext (d : MqttServerPrivate) (client : Nat)
    (ctx : ClientContext) : MqttServerPrivate :=
  { d with clientList := d.clientList.map (fun e => if e.1 = client then (client, ctx) else e) }

/-! ## Packet identifiers -/

/-- The loop `do { packetId++; } while (unackedPacketList.contains(packetId));` of
`newPacketId` on a `quint16` counter. `fuel` bounds the number of increments; `none`
stands for a loop that has not ended within `fuel` increments. -/
def newPacketIdLoop (unackedPacketList : List Nat) : Nat → Nat → Option Nat
  | 0, _ => none
  | fuel + 1, packetId =>
    let next := (packetId + 1) % 65536
    if unackedPacketList.contains next then newPacketIdLoop unackedPacketList fuel next
    else some next

/-- Source: `MqttServerPrivate::newPacketId`: returns the new id and the state with the static
counter advanced. After 65536 increments the counter has taken every 16-bit value, so the
loop ends within that many increments or never: `none` is a loop that does not end. -/
def newPacketId (d : MqttServerPrivate) (ctx : ClientContext) :
    Option (Nat × MqttServerPrivate) :=
  match newPacketIdLoop ctx.unackedPacketList 65536 d.packetId with
  | none => none
  | some packetId => some (packetId, { d with packetId := packetId })

/-! ## Routing -/

/-- The statement `if (!receivers.contains(c) || receivers.value(c) < subscription.qoS())
receivers[c] = subscription.qoS();` on the entry `receiver` of client `c`. -/
def updateReceiver (receiver : Option QoS) (qos : QoS) : Option QoS :=
  match receiver with
  | none => some qos
  | some current => if current < qos then some qos else some current

/-- The inner `foreach` of the first loop of `publish`, over the subscriptions of one
client: `receiver` is the entry of `receivers` for that client so far. -/
def receiverQoS (topic : QString) : Option QoS → List MqttSubscription → Option (Option QoS)
  | receiver, [] => some receiver
  | receiver, subscription :: rest =>
    match matchTopic subscription.topicFilter topic with
    | none => none
    | some true => receiverQoS topic (updateReceiver receiver subscription.qoS) rest
    | some false => receiverQoS topic receiver rest

/-- The first loop of `publish`: the hash `receivers`, in the order of the client table. -/
def collectReceivers (topic : QString) : List (Nat × ClientContext) → Option (List (Nat × QoS))
  | [] => some []
  | (c, ctx) :: rest =>
    match receiverQoS topic none ctx.subscriptions with
    | none => none
    | some receiver =>
      match collectReceivers topic rest with
      | none => none
      | some receivers =>
        match receiver with
        | none => some receivers
        | some qos => some ((c, qos) :: receivers)

/-- The body of the second loop of `publish` for one receiver. The condition
`qos >= Mqtt::QoS0` holds for every `qos`, so a packet id is always allocated. -/
def publishTo (topic payload : QString) (d : MqttServerPrivate)
    (packets : List (QString × Nat)) (receiver : Nat) (qos : QoS) :
    Option (MqttServerPrivate × List (QString × Nat)) :=
  match d.clientList.lookup receiver with
  | none => none
  | some ctx =>
    match (if QoS.QoS0 ≤ qos then newPacketId d ctx else some (0, d)) with
    | none => none
    | some (packetId, d1) =>
      let packet : MqttPacket :=
        { MqttPacket.new PacketType.TypePublish packetId qos false false with
          topic := topic, payload := payload }
      let d2 := d1.write receiver packet
      let packets1 := hashInsert packets ctx.clientId packet.packetId
      if packet.qos = QoS.QoS0 then
        some ({ d2 with deferred := d2.deferred ++
          [Signal.published ctx.clientId packet.packetId packet.topic packet.payload] },
          packets1)
      else
        some (d2.setContext receiver
          { ctx with
            unackedPackets := hashInsert ctx.unackedPackets packet.packetId packet,
            unackedPacketList := ctx.unackedPacketList ++ [packet.packetId] },
          packets1)

/-- The second loop of `publish`, over `receivers.keys()`. -/
def publishLoop (topic payload : QString) :
    MqttServerPrivate → List (QString × Nat) → List (Nat × QoS) →
      Option (MqttServerPrivate × List (QString × Nat))
  | d, packets, [] => some (d, packets)
  | d, packets, (receiver, qos) :: rest =>
    match publishTo topic payload d packets receiver qos with
    | none => none
    | some (d1, packets1) => publishLoop topic payload d1 packets1 rest

/-- Source: `MqttServerPrivate::publish`: the new state and the returned hash from client id to
packet id. -/
def publish (d : MqttServerPrivate) (topic payload : QString) :
    Option (MqttServerPrivate × List (QString × Nat)) :=
  match collectReceivers topic d.clientList with
  | none => none
  | some receivers => publishLoop topic payload d [] receivers

/-! ## Packet handling -/

/-- How the handling of a packet from a connected client ends: `done` is a plain `return`,
`dropClient` is `cleanupClient(client); return;`. -/
inductive Handled where
  | done (d : MqttServerPrivate)
  | dropClient (d : MqttServerPrivate)
  deriving DecidableEq

/-- The outcome of the `switch (packet.qos())` of the PUBLISH branch: `proceed` leaves the
switch with `break`, `resent` is the `return` after a stored packet was written again,
`reject` is the branch that drops the client. -/
inductive Acked where
  | proceed (d : MqttServerPrivate)
  | resent (d : MqttServerPrivate)
  | reject (d : MqttServerPrivate)
  deriving DecidableEq

/-- The `switch (packet.qos())` of the PUBLISH branch of `processPacket`. -/
def ackPublish (d : MqttServerPrivate) (packet : MqttPacket) (client : Nat)
    (ctx : ClientContext) : Acked :=
  match packet.qos with
  | QoS.QoS0 => Acked.proceed d
  | QoS.QoS1 =>
    Acked.proceed
      (d.write client (MqttPacket.new PacketType.TypePuback packet.packetId QoS.QoS0 false false))
  | QoS.QoS2 =>
    if packet.dup && ctx.unackedPacketList.contains packet.packetId then
      Acked.resent (d.write client (packetValue ctx.unackedPackets packet.packetId))
    else if ctx.unackedPacketList.contains packet.packetId then Acked.reject d
    else
      let response := MqttPacket.new PacketType.TypePubrec packet.packetId QoS.QoS0 false false
      let ctx1 : ClientContext :=
        { ctx with
          unackedPackets := hashInsert ctx.unackedPackets response.packetId response,
          unackedPacketList := ctx.unackedPacketList ++ [packet.packetId] }
      Acked.proceed ((d.setContext client ctx1).write client response)

/-- Source: `retainedMessages[topic].append(packet)`: the list of an absent topic starts empty. -/
def appendRetained (retainedMessages : List (QString × List MqttPacket)) (topic : QString)
    (packet : MqttPacket) : List (QString × List MqttPacket) :=
  if retainedMessages.any (fun e => e.1 = topic) then
    retainedMessages.map (fun e => if e.1 = topic then (e.1, e.2 ++ [packet]) else e)
  else retainedMessages ++ [(topic, [packet])]

/-- The block `if (packet.retain()) { ... }` of the PUBLISH branch of `processPacket`. -/
def storeRetained (retainedMessages : List (QString × List MqttPacket))
    (packet : MqttPacket) : List (QString × List MqttPacket) :=
  if packet.retain then
    if packet.payload.isEmpty then hashRemove retainedMessages packet.topic
    else
      appendRetained
        (if packet.qos = QoS.QoS0 then hashRemove retainedMessages packet.topic
          else retainedMessages)
        packet.topic packet
  else retainedMessages

/-- The PUBLISH branch of `processPacket`. -/
def processPublish (d : MqttServerPrivate) (packet : MqttPacket) (client : Nat)
    (ctx : ClientContext) : Option Handled :=
  let d0 := d.emit
    (Signal.publishReceived ctx.clientId packet.packetId packet.topic packet.payload packet.dup)
  match ackPublish d0 packet client ctx with
  | Acked.resent d1 => some (Handled.done d1)
  | Acked.reject d1 => some (Handled.dropClient d1)
  | Acked.proceed d1 =>
    match publish { d1 with retainedMessages := storeRetained d1.retainedMessages packet }
        packet.topic packet.payload with
    | none => none
    | some (d2, _) => some (Handled.done d2)

/-- The loop over `ctx->subscriptions` that replaces the subscriptions with the filter of
`subscription`; the flag is `updated`. -/
def replaceSubscription (subscription : MqttSubscription) :
    List MqttSubscription → List MqttSubscription × Bool
  | [] => ([], false)
  | existing :: rest =>
    let r := replaceSubscription subscription rest
    if existing.topicFilter = subscription.topicFilter then (subscription :: r.1, true)
    else (existing :: r.1, r.2)

/-- The return code added for an accepted subscription of the given QoS. -/
def successCode : QoS → SubscribeReturnCode
  | QoS.QoS0 => SubscribeReturnCode.SubscribeReturnCodeSuccessQoS0
  | QoS.QoS1 => SubscribeReturnCode.SubscribeReturnCodeSuccessQoS1
  | QoS.QoS2 => SubscribeReturnCode.SubscribeReturnCodeSuccessQoS2

/-- The first `foreach` of the SUBSCRIBE branch, over `packet.subscriptions()`: the
subscriptions of the session, the return codes of `response` and the signals emitted. -/
def subscribeLoop (userValidator : Option MqttUserValidator) (maximumSubscriptionQoS : QoS)
    (clientId username : QString) :
    List MqttSubscription → List MqttSubscription → List SubscribeReturnCode → List Signal →
      List MqttSubscription × List SubscribeReturnCode × List Signal
  | [], subscriptions, codes, signals => (subscriptions, codes, signals)
  | subscription :: rest, subscriptions, codes, signals =>
    if (match userValidator with
        | none => false
        | some v => !v.validateSubscribe subscription.topicFilter clientId username) then
      subscribeLoop userValidator maximumSubscriptionQoS clientId username rest subscriptions
        (codes ++ [SubscribeReturnCode.SubscribeReturnCodeFailure]) signals
    else if !validateTopicFilter subscription.topicFilter then
      subscribeLoop userValidator maximumSubscriptionQoS clientId username rest subscriptions
        (codes ++ [SubscribeReturnCode.SubscribeReturnCodeFailure]) signals
    else
      let subscription1 : MqttSubscription :=
        { subscription with qoS := qMin subscription.qoS maximumSubscriptionQoS }
      let r := replaceSubscription subscription1 subscriptions
      subscribeLoop userValidator maximumSubscriptionQoS clientId username rest
        (if r.2 then r.1 else r.1 ++ [subscription1])
        (codes ++ [successCode subscription1.qoS])
        (signals ++
          [Signal.clientSubscribed clientId subscription1.topicFilter subscription1.qoS])

/-- The `foreach` over `retainedMessages.keys()` for one requested filter: the packets
written, each with the retain flag set. -/
def replayFilter (client : Nat) (topicFilter : QString) :
    List (QString × List MqttPacket) → Option (List (Nat × MqttPacket))
  | [] => some []
  | (topic, packets) :: rest =>
    match matchTopic topicFilter topic with
    | none => none
    | some matched =>
      match replayFilter client topicFilter rest with
      | none => none
      | some more =>
        if matched then
          some (packets.map (fun packet => (client, { packet with retain := true })) ++ more)
        else some more

/-- The second `foreach` of the SUBSCRIBE branch, over `packet.subscriptions()`. -/
def replayRetained (client : Nat) (retainedMessages : List (QString × List MqttPacket)) :
    List MqttSubscription → Option (List (Nat × MqttPacket))
  | [] => some []
  | subscription :: rest =>
    match replayFilter client subscription.topicFilter retainedMessages with
    | none => none
    | some first =>
      match replayRetained client retainedMessages rest with
      | none => none
      | some more => some (first ++ more)

/-- The SUBACK built by the SUBSCRIBE branch. -/
def subackResponse (userValidator : Option MqttUserValidator) (d : MqttServerPrivate)
    (packet : MqttPacket) (ctx : ClientContext) : MqttPacket :=
  { MqttPacket.new PacketType.TypeSuback packet.packetId QoS.QoS0 false false with
    subscribeReturnCodes :=
      (subscribeLoop userValidator d.maximumSubscriptionQoS ctx.clientId ctx.username
        packet.subscriptions ctx.subscriptions [] []).2.1 }

/-- The SUBSCRIBE branch of `processPacket`. -/
def processSubscribe (userValidator : Option MqttUserValidator) (d : MqttServerPrivate)
    (packet : MqttPacket) (client : Nat) (ctx : ClientContext) : Option Handled :=
  let r := subscribeLoop userValidator d.maximumSubscriptionQoS ctx.clientId ctx.username
    packet.subscriptions ctx.subscriptions [] []
  let d1 := d.setContext client { ctx with subscriptions := r.1 }
  let d2 := { d1 with emitted := d1.emitted ++ r.2.2 }
  let d3 := d2.write client (subackResponse userValidator d packet ctx)
  match replayRetained client d3.retainedMessages packet.subscriptions with
  | none => none
  | some replayed => some (Handled.done { d3 with written := d3.written ++ replayed })

/-- The outer `foreach` of the UNSUBSCRIBE branch: the subscriptions kept and the signals
emitted. -/
def unsubscribeLoop (clientId : QString) (unsubs : List MqttSubscription) :
    List MqttSubscription → List MqttSubscription × List Signal
  | [] => ([], [])
  | existing :: rest =>
    let r := unsubscribeLoop clientId unsubs rest
    if unsubs.any (fun unsub => existing.topicFilter = unsub.topicFilter) then
      (r.1, Signal.clientUnsubscribed clientId existing.topicFilter :: r.2)
    else (existing :: r.1, r.2)

/-- The part of `processPacket` after the CONNECT branch, for a packet that is not a
CONNECT. A client without a session is closed. For a packet of any other type the source
runs `Q_ASSERT(false)`, which is empty in a release build, and then drops the client. -/
def processPacketConnected (userValidator : Option MqttUserValidator) (d : MqttServerPrivate)
    (packet : MqttPacket) (client : Nat) : Option Handled :=
  match d.clientList.lookup client with
  | none => some (Handled.done { d with closed := d.closed ++ [client] })
  | some ctx =>
    let d0 := d.emit (Signal.clientAlive ctx.clientId)
    match packet.type with
    | PacketType.TypePublish => processPublish d0 packet client ctx
    | PacketType.TypePuback =>
      let publishedPacket := packetValue ctx.unackedPackets packet.packetId
      let ctx1 : ClientContext :=
        { ctx with
          unackedPacketList := removeAll ctx.unackedPacketList packet.packetId,
          unackedPackets := hashRemove ctx.unackedPackets packet.packetId }
      some (Handled.done ((d0.setContext client ctx1).emit
        (Signal.published ctx.clientId packet.packetId publishedPacket.topic
          publishedPacket.payload)))
    | PacketType.TypePubrec =>
      let publishedPacket := packetValue ctx.unackedPackets packet.packetId
      let pubrel := MqttPacket.new PacketType.TypePubrel packet.packetId QoS.QoS0 false false
      let ctx1 : ClientContext :=
        { ctx with
          unackedPackets :=
            hashInsert (hashRemove ctx.unackedPackets packet.packetId) packet.packetId pubrel }
      some (Handled.done (((d0.emit
        (Signal.published ctx.clientId packet.packetId publishedPacket.topic
          publishedPacket.payload)).setContext client ctx1).write client pubrel))
    | PacketType.TypePubrel =>
      let ctx1 : ClientContext :=
        { ctx with
          unackedPackets := hashRemove ctx.unackedPackets packet.packetId,
          unackedPacketList := removeAll ctx.unackedPacketList packet.packetId }
      some (Handled.done ((d0.setContext client ctx1).write client
        (MqttPacket.new PacketType.TypePubcomp packet.packetId QoS.QoS0 false false)))
    | PacketType.TypePubcomp =>
      let ctx1 : ClientContext :=
        { ctx with
          unackedPackets := hashRemove ctx.unackedPackets packet.packetId,
          unackedPacketList := removeAll ctx.unackedPacketList packet.packetId }
      some (Handled.done (d0.setContext client ctx1))
    | PacketType.TypeSubscribe => processSubscribe userValidator d0 packet client ctx
    | PacketType.TypeUnsubscribe =>
      let r := unsubscribeLoop ctx.clientId packet.subscriptions ctx.subscriptions
      let d1 := d0.setContext client { ctx with subscriptions := r.1 }
      let d2 := { d1 with emitted := d1.emitted ++ r.2 }
      some (Handled.done (d2.write client
        (MqttPacket.new PacketType.TypeUnsuback packet.packetId QoS.QoS0 false false)))
    | PacketType.TypePingreq =>
      some (Handled.done (d0.write client
        (MqttPacket.new PacketType.TypePingresp packet.packetId QoS.QoS0 false false)))
    | PacketType.TypeDisconnect =>
      some (Handled.done (d0.setContext client { ctx with willMessage := [], willTopic := [] }))
    | _ => some (Handled.dropClient d0)

/-- Source: `MqttServerPrivate::cleanupClient`. The will is handled by `processPacket(willPacket,
client)`, which for a PUBLISH is `processPacketConnected`; were that call to end in
`cleanupClient(client)` itself, the context would be deleted twice, hence `none`. -/
def cleanupClient (userValidator : Option MqttUserValidator) (d : MqttServerPrivate)
    (client : Nat) : Option MqttServerPrivate :=
  match d.clientList.lookup client with
  | none => some { d with closed := d.closed ++ [client] }
  | some ctx =>
    let afterWill : Option MqttServerPrivate :=
      if ctx.willTopic.isEmpty then some d
      else
        match (if QoS.QoS1 ≤ ctx.willQoS then newPacketId d ctx else some (0, d)) with
        | none => none
        | some (packetId, d1) =>
          let willPacket : MqttPacket :=
            { MqttPacket.new PacketType.TypePublish packetId ctx.willQoS ctx.willRetain false
              with topic := ctx.willTopic, payload := ctx.willMessage }
          match processPacketConnected userValidator d1 willPacket client with
          | some (Handled.done d2) => some d2
          | _ => none
    match afterWill with
    | none => none
    | some d3 =>
      let d4 := d3.emit (Signal.clientDisconnected ctx.clientId)
      some { d4 with
        clientList := hashRemove d4.clientList client, closed := d4.closed ++ [client] }

/-- The `foreach` over `ctx->unackedPacketList` at the end of the CONNECT branch: the
stored packets, each written with DUP set. -/
def resendUnacked (client : Nat) (ctx : ClientContext) : List (Nat × MqttPacket) :=
  ctx.unackedPacketList.map
    (fun retryPacketId => (client, { packetValue ctx.unackedPackets retryPacketId with dup := true }))

/-- The CONNECT branch of `processPacket`, after the protocol level, the client id and the
credentials were accepted: session lookup, context set-up, CONNACK and retransmission. -/
def acceptConnect (userValidator : Option MqttUserValidator) (d : MqttServerPrivate)
    (packet : MqttPacket) (client : Nat) (clientId : QString) (response : MqttPacket) :
    Option MqttServerPrivate :=
  let found : Option (MqttServerPrivate × Option ClientContext × MqttPacket) :=
    match d.clientList.find? (fun e => clientId = e.2.clientId) with
    | none => some (d, none, response)
    | some (existingClient, existingCtx) =>
      if !packet.connectFlags.ConnectFlagCleanSession then
        some ({ d with
            clientList := hashRemove d.clientList existingClient,
            closed := d.closed ++ [existingClient] },
          some existingCtx, { response with connackFlags := true })
      else
        match cleanupClient userValidator d existingClient with
        | none => none
        | some d1 => some (d1, none, response)
  match found with
  | none => none
  | some (d1, adopted, response1) =>
    let ctx0 : ClientContext :=
      match adopted with
      | some ctx => ctx
      | none => ClientContext.new clientId
    let ctx1 : ClientContext :=
      { ctx0 with keepAlive := packet.keepAlive, version := packet.protocolLevel }
    let ctx2 : ClientContext :=
      if packet.connectFlags.ConnectFlagWill then
        { ctx1 with
          willTopic := packet.willTopic, willMessage := packet.willMessage,
          willRetain := packet.willRetain,
          willQoS :=
            if packet.connectFlags.ConnectFlagWillQoS2 then QoS.QoS2
            else if packet.connectFlags.ConnectFlagWillQoS1 then QoS.QoS1
            else ctx1.willQoS }
      else ctx1
    let ctx3 : ClientContext :=
      if packet.connectFlags.ConnectFlagUsername then { ctx2 with username := packet.username }
      else ctx2
    let d2 := { d1 with clientList := hashInsert d1.clientList client ctx3 }
    let d3 := d2.write client
      { response1 with connectReturnCode := ConnectReturnCode.ConnectReturnCodeAccepted }
    let d4 := d3.emit (Signal.clientConnected ctx3.clientId ctx3.username)
    some { d4 with written := d4.written ++ resendUnacked client ctx3 }

/-- The CONNECT branch of `processPacket`; `uuid` is the client id that
`QUuid::createUuid()` yields when the packet has none. -/
def processConnect (userValidator : Option MqttUserValidator) (uuid : QString)
    (d : MqttServerPrivate) (packet : MqttPacket) (client : Nat) : Option MqttServerPrivate :=
  if (d.clientList.lookup client).isSome then cleanupClient userValidator d client
  else
    let response := MqttPacket.new PacketType.TypeConnack packet.packetId QoS.QoS0 false false
    if packet.protocolLevel ≠ Protocol311 then
      cleanupClient userValidator
        (d.write client { response with
          connectReturnCode := ConnectReturnCode.ConnectReturnCodeUnacceptableProtocolVersion })
        client
    else if packet.clientId.isEmpty && !packet.cleanSession then
      cleanupClient userValidator
        (d.write client { response with
          connectReturnCode := ConnectReturnCode.ConnectReturnCodeIdentifierRejected })
        client
    else
      let clientId := if packet.clientId.isEmpty then uuid else packet.clientId
      let userValidationReturnCode : ConnectReturnCode :=
        match userValidator with
        | none => ConnectReturnCode.ConnectReturnCodeAccepted
        | some v =>
          v.validateConnect clientId
            (if packet.connectFlags.ConnectFlagUsername then packet.username else [])
            (if packet.connectFlags.ConnectFlagPassword then packet.password else [])
            client
      if userValidationReturnCode ≠ ConnectReturnCode.ConnectReturnCodeAccepted then
        cleanupClient userValidator
          (d.write client { response with connectReturnCode := userValidationReturnCode })
          client
      else acceptConnect userValidator d packet client clientId response

/-- Source: `MqttServerPrivate::processPacket`. -/
def processPacket (userValidator : Option MqttUserValidator) (uuid : QString)
    (d : MqttServerPrivate) (packet : MqttPacket) (client : Nat) : Option MqttServerPrivate :=
  if packet.type = PacketType.TypeConnect then processConnect userValidator uuid d packet client
  else
    match processPacketConnected userValidator d packet client with
    | none => none
    | some (Handled.done d1) => some d1
    | some (Handled.dropClient d1) => cleanupClient userValidator d1 client

/-! ## Client (mqttclient.cpp)

`mqttclient_p.h` is not among the sources at hand; the state below carries the members of
`MqttClientPrivate` that `mqttclient.cpp` reads and writes. -/

/-- The signals of `MqttClient` declared in `mqttclient.h`; `stateChanged` and `error` are
left out. -/
inductive ClientSignal where
  | connected (connectReturnCode : ConnectReturnCode) (connackFlags : Bool)
  | disconnected
  | subscribed (packetId : Nat) (subscribeReturnCodes : List SubscribeReturnCode)
  | unsubscribed (packetId : Nat)
  | published (packetId : Nat)
  | publishReceived (topic payload : QString) (retained : Bool)
  deriving DecidableEq

/-- The calls on the socket of the client that end the connection. -/
inductive SocketCall where
  | abort
  | disconnectFromHost
  deriving DecidableEq

/-- Modelled from the spec: `MqttClientPrivate`, with the in-flight list and map that the
sources use, `packetId`, the function-static counter of `newPacketId` (initially 1), and
four logs: `written` (every `socket->write(packet.serialize())`, oldest first), `emitted`
(the signals emitted), `deferred` (signals queued with `QTimer::singleShot(0, ...)`) and
`socketCalls`. Timers, the receive buffer and the connection parameters are left out. -/
structure MqttClientPrivate where
  unackedPacketList : List Nat
  unackedPackets : List (Nat × MqttPacket)
  packetId : Nat
  written : List MqttPacket
  emitted : List ClientSignal
  deferred : List ClientSignal
  socketCalls : List SocketCall
  deriving DecidableEq

/-- Writes `packet` to the socket of the client. -/
def MqttClientPrivate.write (c : MqttClientPrivate) (packet : MqttPacket) :
    MqttClientPrivate :=
  { c with written := c.written ++ [packet] }

/-- Emits `signal` from the client. -/
def MqttClientPrivate.emit (c : MqttClientPrivate) (signal : ClientSignal) :
    MqttClientPrivate :=
  { c with emitted := c.emitted ++ [signal] }

/-- Removes `packetId` from the in-flight map and list of the client. -/
def MqttClientPrivate.release (c : MqttClientPrivate) (packetId : Nat) : MqttClientPrivate :=
  { c with
    unackedPackets := hashRemove c.unackedPackets packetId,
    unackedPacketList := removeAll c.unackedPacketList packetId }

/-- The `foreach` over `unackedPacketList` of the CONNACK case: the stored packets, each
written with DUP set. -/
def MqttClientPrivate.resendUnacked (c : MqttClientPrivate) : List MqttPacket :=
  c.unackedPacketList.map
    (fun retryPacketId => { packetValue c.unackedPackets retryPacketId with dup := true })

/-- The QoS 2 case of the PUBLISH case of `MqttClientPrivate::onReadyRead`. -/
def MqttClientPrivate.onPublishQoS2 (c : MqttClientPrivate) (packet : MqttPacket) :
    MqttClientPrivate :=
  if !packet.dup && c.unackedPacketList.contains packet.packetId then
    { c with socketCalls := c.socketCalls ++ [SocketCall.disconnectFromHost] }
  else
    let response := MqttPacket.new PacketType.TypePubrec packet.packetId QoS.QoS0 false false
    if !c.unackedPacketList.contains packet.packetId then
      ({ c with
          unackedPackets := hashInsert c.unackedPackets packet.packetId response,
          unackedPacketList := c.unackedPacketList ++ [packet.packetId] }.emit
        (ClientSignal.publishReceived packet.topic packet.payload packet.retain)).write response
    else c.write response

/-- The `switch (packet.type())` of `MqttClientPrivate::onReadyRead`, for a packet that
`parse` has read from the receive buffer. The `default` case runs `Q_ASSERT(false)`, which
is empty in a release build. -/
def MqttClientPrivate.onReadyRead (c : MqttClientPrivate) (packet : MqttPacket) :
    MqttClientPrivate :=
  match packet.type with
  | PacketType.TypeConnack =>
    let c1 := c.emit (ClientSignal.connected packet.connectReturnCode packet.connackFlags)
    if packet.connectReturnCode ≠ ConnectReturnCode.ConnectReturnCodeAccepted then
      { c1 with socketCalls := c1.socketCalls ++ [SocketCall.abort] }.emit
        ClientSignal.disconnected
    else { c1 with written := c1.written ++ c1.resendUnacked }
  | PacketType.TypePublish =>
    match packet.qos with
    | QoS.QoS0 => c.emit (ClientSignal.publishReceived packet.topic packet.payload packet.retain)
    | QoS.QoS1 =>
      (c.emit (ClientSignal.publishReceived packet.topic packet.payload packet.retain)).write
        (MqttPacket.new PacketType.TypePuback packet.packetId QoS.QoS0 false false)
    | QoS.QoS2 => c.onPublishQoS2 packet
  | PacketType.TypePuback =>
    (c.release packet.packetId).emit (ClientSignal.published packet.packetId)
  | PacketType.TypePubrec =>
    let response := MqttPacket.new PacketType.TypePubrel packet.packetId QoS.QoS0 false false
    { c with unackedPackets := hashInsert c.unackedPackets packet.packetId response }.write
      response
  | PacketType.TypePubrel =>
    let response := MqttPacket.new PacketType.TypePubcomp packet.packetId QoS.QoS0 false false
    { c with unackedPackets := hashInsert c.unackedPackets packet.packetId response }.write
      response
  | PacketType.TypePubcomp =>
    (c.release packet.packetId).emit (ClientSignal.published packet.packetId)
  | PacketType.TypeSuback =>
    (c.release packet.packetId).emit
      (ClientSignal.subscribed packet.packetId packet.subscribeReturnCodes)
  | PacketType.TypeUnsuback =>
    if !c.unackedPackets.any (fun e => e.1 = packet.packetId) then
      { c with socketCalls := c.socketCalls ++ [SocketCall.abort] }
    else (c.release packet.packetId).emit (ClientSignal.unsubscribed packet.packetId)
  | PacketType.TypePingresp => c
  | _ => c

/-- Source: `MqttClientPrivate::newPacketId`, with the loop of the broker's function on the
counter of the client; `none` is a loop that does not end. -/
def MqttClientPrivate.newPacketId (c : MqttClientPrivate) : Option (Nat × MqttClientPrivate) :=
  match newPacketIdLoop c.unackedPacketList 65536 c.packetId with
  | none => none
  | some packetId => some (packetId, { c with packetId := packetId })

/-- The body shared by `MqttClient::subscribe` and `MqttClient::unsubscribe`: a packet of
the given type with a new packet id is stored as in flight and written. -/
def MqttClientPrivate.request (c : MqttClientPrivate) (type : PacketType)
    (subscriptions : List MqttSubscription) : Option (Nat × MqttClientPrivate) :=
  match c.newPacketId with
  | none => none
  | some (packetId, c1) =>
    let packet : MqttPacket :=
      { MqttPacket.new type packetId QoS.QoS0 false false with subscriptions := subscriptions }
    some (packet.packetId,
      { c1 with
          unackedPackets := hashInsert c1.unackedPackets packet.packetId packet,
          unackedPacketList := c1.unackedPacketList ++ [packet.packetId] }.write packet)

/-- Source: `MqttClient::subscribe(const MqttSubscriptions &)`. -/
def MqttClientPrivate.subscribe (c : MqttClientPrivate) (subscriptions : List MqttSubscription) :
    Option (Nat × MqttClientPrivate) :=
  c.request PacketType.TypeSubscribe subscriptions

/-- Source: `MqttClient::unsubscribe(const MqttSubscriptions &)`. -/
def MqttClientPrivate.unsubscribe (c : MqttClientPrivate)
    (subscriptions : List MqttSubscription) : Option (Nat × MqttClientPrivate) :=
  c.request PacketType.TypeUnsubscribe subscriptions

/-- Source: `MqttClient::publish`. -/
def MqttClientPrivate.publish (c : MqttClientPrivate) (topic payload : QString) (qos : QoS)
    (retain : Bool) : Option (Nat × MqttClientPrivate) :=
  match (if QoS.QoS1 ≤ qos then c.newPacketId else some (0, c)) with
  | none => none
  | some (packetId, c1) =>
    let packet : MqttPacket :=
      { MqttPacket.new PacketType.TypePublish packetId qos retain false with
        topic := topic, payload := payload }
    let c2 := c1.write packet
    if qos = QoS.QoS0 then
      some (packetId, { c2 with deferred := c2.deferred ++ [ClientSignal.published packetId] })
    else
      some (packetId,
        { c2 with
          unackedPackets := hashInsert c2.unackedPackets packet.packetId packet,
          unackedPacketList := c2.unackedPacketList ++ [packetId] })

/-! ## Vocabulary of the statements -/

/-- The level `q` is the highest QoS among the subscriptions of `subs` whose filter matches `topic`. -/
def IsBestQoS (topic : QString) (subs : List MqttSubscription) (q : QoS) : Prop :=
  (∃ s ∈ subs, matchTopic s.topicFilter topic = some true ∧ s.qoS = q) ∧
    ∀ s ∈ subs, matchTopic s.topicFilter topic = some true → s.qoS ≤ q

/-- The test "some subscription of the session matches `topic`". -/
def hasMatch (topic : QString) (ctx : ClientContext) : Bool :=
  ctx.subscriptions.any (fun s => matchTopic s.topicFilter topic = some true)

/-- The packet `w` is a PUBLISH with the given topic and payload, DUP and RETAIN clear,
written to `receiver` with QoS `qos`. -/
def IsCopy (topic payload : QString) (w : Nat × MqttPacket) (receiver : Nat) (qos : QoS) :
    Prop :=
  w.1 = receiver ∧ w.2.type = PacketType.TypePublish ∧ w.2.qos = qos ∧ w.2.topic = topic ∧
    w.2.payload = payload ∧ w.2.retain = false ∧ w.2.dup = false

/-- The return code that one pass of the first loop of the SUBSCRIBE branch adds for the
requested subscription `s`. -/
def returnCodeFor (userValidator : Option MqttUserValidator) (max : QoS)
    (clientId username : QString) (s : MqttSubscription) : SubscribeReturnCode :=
  if (match userValidator with
      | none => false
      | some v => !v.validateSubscribe s.topicFilter clientId username) then
    SubscribeReturnCode.SubscribeReturnCodeFailure
  else if !validateTopicFilter s.topicFilter then SubscribeReturnCode.SubscribeReturnCodeFailure
  else successCode (qMin s.qoS max)

/-- The state in which the handling of a packet of a connected client ends. -/
def Handled.state : Handled → MqttServerPrivate
  | Handled.done d => d
  | Handled.dropClient d => d

/-- The state in which the `switch (packet.qos())` of the PUBLISH branch ends. -/
def Acked.state : Acked → MqttServerPrivate
  | Acked.proceed d => d
  | Acked.resent d => d
  | Acked.reject d => d

/-- The will packet that `cleanupClient` builds for the session `ctx` with the packet id
`packetId`. -/
def willPacketOf (ctx : ClientContext) (packetId : Nat) : MqttPacket :=
  { MqttPacket.new PacketType.TypePublish packetId ctx.willQoS ctx.willRetain false with
    topic := ctx.willTopic, payload := ctx.willMessage }

/-- The context that the CONNECT branch stores for the new transport, from the context
`ctx0` it starts with (adopted or new): keep-alive and protocol level are set, the will
fields if `ConnectFlagWill` is set, the user name if `ConnectFlagUsername` is set. -/
def connectContext (packet : MqttPacket) (ctx0 : ClientContext) : ClientContext :=
  let ctx1 : ClientContext :=
    { ctx0 with keepAlive := packet.keepAlive, version := packet.protocolLevel }
  let ctx2 : ClientContext :=
    if packet.connectFlags.ConnectFlagWill then
      { ctx1 with
        willTopic := packet.willTopic, willMessage := packet.willMessage,
        willRetain := packet.willRetain,
        willQoS :=
          if packet.connectFlags.ConnectFlagWillQoS2 then QoS.QoS2
          else if packet.connectFlags.ConnectFlagWillQoS1 then QoS.QoS1
          else ctx1.willQoS }
    else ctx1
  if packet.connectFlags.ConnectFlagUsername then { ctx2 with username := packet.username }
  else ctx2

/-- The CONNACK that the CONNECT branch starts from. -/
def connackOf (packet : MqttPacket) : MqttPacket :=
  MqttPacket.new PacketType.TypeConnack packet.packetId QoS.QoS0 false false

/-- The client id that the CONNECT branch uses: the one of the packet, or `uuid` when the
packet has none. -/
def connectClientId (uuid : QString) (packet : MqttPacket) : QString :=
  if packet.clientId.isEmpty then uuid else packet.clientId

/-- The authenticator, if one is attached, accepts the CONNECT `packet` from `client`. -/
def ValidatorAccepts (userValidator : Option MqttUserValidator) (uuid : QString)
    (packet : MqttPacket) (client : Nat) : Prop :=
  ∀ v, userValidator = some v →
    v.validateConnect (connectClientId uuid packet)
      (if packet.connectFlags.ConnectFlagUsername then packet.username else [])
      (if packet.connectFlags.ConnectFlagPassword then packet.password else [])
      client = ConnectReturnCode.ConnectReturnCodeAccepted

/-- The state after a CONNECT was refused with the return code `code`: the CONNACK is
written and the socket is closed; nothing else changes. -/
def rejectedConnect (d : MqttServerPrivate) (packet : MqttPacket) (client : Nat)
    (code : ConnectReturnCode) : MqttServerPrivate :=
  { d with
    written := d.written ++ [(client, { connackOf packet with connectReturnCode := code })],
    closed := d.closed ++ [client] }

/-- The socket and the client id of every entry of the client table, in table order. -/
def idTable (d : MqttServerPrivate) : List (Nat × QString) :=
  d.clientList.map (fun e => (e.1, e.2.clientId))

/-- The client table is a hash (no socket occurs twice) and no two of its entries have the
same client id. -/
def UniqueClients (d : MqttServerPrivate) : Prop :=
  (d.clientList.map Prod.fst).Nodup ∧ (d.clientList.map (fun e => e.2.clientId)).Nodup

/-- The broker states that can be reached from a broker without clients: by a packet
handled by `processPacket`, by `cleanupClient` (transport closed, keep-alive timeout, bad
data), by a server-originated `publish`, and by `setMaximumSubscriptionsQoS`. -/
inductive Reachable : MqttServerPrivate → Prop where
  | init (maximumSubscriptionQoS : QoS) :
    Reachable
      { maximumSubscriptionQoS := maximumSubscriptionQoS, clientList := [],
        retainedMessages := [], packetId := 0, written := [], emitted := [], deferred := [],
        closed := [] }
  | packet {d d1 : MqttServerPrivate} (userValidator : Option MqttUserValidator)
      (uuid : QString) (packet : MqttPacket) (client : Nat) :
    Reachable d → processPacket userValidator uuid d packet client = some d1 → Reachable d1
  | cleanup {d d1 : MqttServerPrivate} (userValidator : Option MqttUserValidator)
      (client : Nat) :
    Reachable d → cleanupClient userValidator d client = some d1 → Reachable d1
  | publish {d d1 : MqttServerPrivate} (topic payload : QString)
      (packets : List (QString × Nat)) :
    Reachable d → publish d topic payload = some (d1, packets) → Reachable d1
  | setMaximum {d : MqttServerPrivate} (maximumSubscriptionQoS : QoS) :
    Reachable d → Reachable { d with maximumSubscriptionQoS := maximumSubscriptionQoS }

/-- A property `P` of session contexts that holds for a new context and is kept by every
update that the handlers of the broker make to a context: the set-up of the CONNECT
branch, storing an in-flight packet under an id that is not in the in-flight list,
releasing an id, the replacement of the PUBREC branch, the loops of the SUBSCRIBE and
UNSUBSCRIBE branches, and the clearing of the will. -/
structure SessionInvariant (P : ClientContext → Prop) : Prop where
  new : ∀ clientId : QString, P (ClientContext.new clientId)
  connect : ∀ (packet : MqttPacket) (ctx : ClientContext), P ctx → P (connectContext packet ctx)
  append : ∀ (ctx : ClientContext) (id : Nat) (packet : MqttPacket), P ctx →
    id ∉ ctx.unackedPacketList →
    P { ctx with
      unackedPackets := hashInsert ctx.unackedPackets id packet,
      unackedPacketList := ctx.unackedPacketList ++ [id] }
  release : ∀ (ctx : ClientContext) (id : Nat), P ctx →
    P { ctx with
      unackedPackets := hashRemove ctx.unackedPackets id,
      unackedPacketList := removeAll ctx.unackedPacketList id }
  pubrec : ∀ (ctx : ClientContext) (id : Nat) (packet : MqttPacket), P ctx →
    P { ctx with unackedPackets := hashInsert (hashRemove ctx.unackedPackets id) id packet }
  subscribe : ∀ (userValidator : Option MqttUserValidator) (maximumSubscriptionQoS : QoS)
    (requested : List MqttSubscription) (ctx : ClientContext), P ctx →
    P { ctx with
      subscriptions :=
        (subscribeLoop userValidator maximumSubscriptionQoS ctx.clientId ctx.username requested
          ctx.subscriptions [] []).1 }
  unsubscribe : ∀ (unsubs : List MqttSubscription) (ctx : ClientContext), P ctx →
    P { ctx with subscriptions := (unsubscribeLoop ctx.clientId unsubs ctx.subscriptions).1 }
  disconnect : ∀ ctx : ClientContext, P ctx → P { ctx with willMessage := [], willTopic := [] }

/-- The client states that can be reached from a client with nothing in flight by packets
read in `onReadyRead` and by calls of `publish`, `subscribe` and `unsubscribe`. -/
inductive ClientReachable : MqttClientPrivate → Prop where
  | init :
    ClientReachable
      { unackedPacketList := [], unackedPackets := [], packetId := 1, written := [],
        emitted := [], deferred := [], socketCalls := [] }
  | received {c : MqttClientPrivate} (packet : MqttPacket) :
    ClientReachable c → ClientReachable (c.onReadyRead packet)
  | publish {c c1 : MqttClientPrivate} (topic payload : QString) (qos : QoS) (retain : Bool)
      (packetId : Nat) :
    ClientReachable c → c.publish topic payload qos retain = some (packetId, c1) →
      ClientReachable c1
  | subscribe {c c1 : MqttClientPrivate} (subscriptions : List MqttSubscription)
      (packetId : Nat) :
    ClientReachable c → c.subscribe subscriptions = some (packetId, c1) → ClientReachable c1
  | unsubscribe {c c1 : MqttClientPrivate} (subscriptions : List MqttSubscription)
      (packetId : Nat) :
    ClientReachable c → c.unsubscribe subscriptions = some (packetId, c1) → ClientReachable c1

/-! ## Example states and packets -/

/-- A session with the given client id and subscriptions and nothing in flight. -/
def sessionOf (clientId : String) (subscriptions : List (String × QoS)) : ClientContext :=
  { ClientContext.new clientId.toList with
    subscriptions := subscriptions.map (fun s => ⟨s.1.toList, s.2⟩) }

/-- A broker with the given client table and retained store, `maximumSubscriptionQoS` at
its initial value `QoS2`, the packet id counter at 0 and empty logs. -/
def brokerOf (clientList : List (Nat × ClientContext))
    (retainedMessages : List (QString × List MqttPacket)) : MqttServerPrivate :=
  { maximumSubscriptionQoS := QoS.QoS2, clientList := clientList,
    retainedMessages := retainedMessages, packetId := 0, written := [], emitted := [],
    deferred := [], closed := [] }

/-- A PUBLISH packet. -/
def publishOf (packetId : Nat) (qos : QoS) (retain dup : Bool) (topic payload : String) :
    MqttPacket :=
  { MqttPacket.new PacketType.TypePublish packetId qos retain dup with
    topic := topic.toList, payload := payload.toList }

/-- A SUBSCRIBE packet. -/
def subscribeOf (packetId : Nat) (subscriptions : List (String × QoS)) : MqttPacket :=
  { MqttPacket.new PacketType.TypeSubscribe packetId QoS.QoS0 false false with
    subscriptions := subscriptions.map (fun s => ⟨s.1.toList, s.2⟩) }

/-- A CONNECT packet of protocol level 4 with the given client id and clean-session flag,
without will and credentials. -/
def connectOf (clientId : String) (cleanSession : Bool) : MqttPacket :=
  { MqttPacket.new PacketType.TypeConnect 0 QoS.QoS0 false false with
    protocolLevel := 4, clientId := clientId.toList,
    connectFlags := ⟨cleanSession, false, false, false, false, false, false⟩ }

/-- A client with nothing in flight and empty logs. -/
def clientOf : MqttClientPrivate :=
  { unackedPacketList := [], unackedPackets := [], packetId := 1, written := [],
    emitted := [], deferred := [], socketCalls := [] }

/-! ## Lemmas on strings and topic filters -/

theorem split_ne_nil (sep : Char) (s : QString) : split sep s ≠ [] := by
  cases s with
  | nil => simp [split]
  | cons c cs =>
    simp only [split]
    split_ifs
    · simp
    · split <;> simp

theorem validateTopicFilterLoop_iff (count : Nat) (parts : List QString) (i : Nat) :
    validateTopicFilterLoop count i parts = true ↔
      ∀ (j : Nat) (part : QString), parts[j]? = some part →
        (('#' ∈ part → part = ['#'] ∧ i + j = count - 1) ∧ ('+' ∈ part → part = ['+'])) := by
  induction parts generalizing i with
  | nil => simp [validateTopicFilterLoop]
  | cons p rest ih =>
    simp only [validateTopicFilterLoop]
    constructor
    · intro h j part hj
      split_ifs at h with h1 h2
      have ih1 := (ih (i + 1)).1 h
      cases j with
      | zero =>
        simp only [List.getElem?_cons_zero, Option.some.injEq] at hj
        subst hj
        simp only [contains, List.elem_eq_mem, decide_eq_true_eq, Bool.and_eq_true,
          Bool.or_eq_true, bne_iff_ne, ne_eq, not_and, not_or, not_not] at h1 h2
        exact ⟨fun hm => ⟨(h1 hm).1, by simpa using (h1 hm).2⟩, fun hm => h2 hm⟩
      | succ j =>
        simp only [List.getElem?_cons_succ] at hj
        have := ih1 j part hj
        refine ⟨fun hm => ⟨(this.1 hm).1, ?_⟩, this.2⟩
        have := (this.1 hm).2
        omega
    · intro h
      have h0 := h 0 p (by simp)
      have hrest : validateTopicFilterLoop count (i + 1) rest = true := by
        apply (ih (i + 1)).2
        intro j part hj
        have := h (j + 1) part (by simpa using hj)
        refine ⟨fun hm => ⟨(this.1 hm).1, ?_⟩, this.2⟩
        have := (this.1 hm).2
        omega
      have c1 : ¬ ((contains p '#' && (p != ['#'] || i != count - 1)) = true) := by
        simp only [contains, List.elem_eq_mem, decide_eq_true_eq, Bool.and_eq_true,
          Bool.or_eq_true, bne_iff_ne, ne_eq, not_and, not_or, not_not]
        intro hm
        exact ⟨(h0.1 hm).1, by simpa using (h0.1 hm).2⟩
      have c2 : ¬ ((contains p '+' && p != ['+']) = true) := by
        simp only [contains, List.elem_eq_mem, decide_eq_true_eq, Bool.and_eq_true,
          bne_iff_ne, ne_eq, not_and, not_not]
        exact h0.2
      rw [if_neg c1, if_neg c2]
      exact hrest

theorem split_eq_singleton_nil (sep : Char) (s : QString) (h : split sep s = [[]]) : s = [] := by
  cases s with
  | nil => rfl
  | cons c cs =>
    exfalso
    simp only [split] at h
    split_ifs at h
    · simp only [List.cons.injEq, true_and] at h
      exact split_ne_nil sep cs h
    · split at h <;> simp at h

theorem getLast_cons_of_ne_nil {α : Type} (a : α) (l : List α) (h : l ≠ []) :
    (a :: l).getLast? = l.getLast? := by
  cases l with
  | nil => exact absurd rfl h
  | cons b l => simp [List.getLast?_cons_cons]

/-- The last character of a string is the last character of its last part, when that part
is not empty. -/
theorem getLast_of_split (sep : Char) (s p : QString)
    (h : (split sep s).getLast? = some p) (hp : p ≠ []) : s.getLast? = p.getLast? := by
  induction s generalizing p with
  | nil =>
    simp only [split, List.getLast?_singleton, Option.some.injEq] at h
    exact absurd h.symm hp
  | cons c cs ih =>
    have hcs : cs ≠ [] → (c :: cs).getLast? = cs.getLast? := getLast_cons_of_ne_nil c cs
    simp only [split] at h
    split_ifs at h with hc
    · rw [getLast_cons_of_ne_nil _ _ (split_ne_nil sep cs)] at h
      have hne : cs ≠ [] := by
        rintro rfl
        simp only [split, List.getLast?_singleton, Option.some.injEq] at h
        exact hp h.symm
      rw [hcs hne]
      exact ih p h hp
    · cases hs : split sep cs with
      | nil => exact absurd hs (split_ne_nil sep cs)
      | cons q ps =>
        rw [hs] at h
        simp only at h
        cases ps with
        | nil =>
          simp only [List.getLast?_singleton, Option.some.injEq] at h
          subst h
          by_cases hq : q = []
          · subst hq
            have := split_eq_singleton_nil sep cs hs
            subst this
            rfl
          · have hne : cs ≠ [] := by
              rintro rfl
              simp only [split, List.cons.injEq, and_true] at hs
              exact hq hs.symm
            rw [hcs hne, getLast_cons_of_ne_nil c q hq]
            exact ih q (by rw [hs]; rfl) hq
        | cons r rs =>
          rw [List.getLast?_cons_cons] at h
          have hne : cs ≠ [] := by
            rintro rfl
            simp [split] at hs
          rw [hcs hne]
          exact ih p (by rw [hs, List.getLast?_cons_cons]; exact h) hp

/-- Every character of a part occurs in the string that was split. -/
theorem mem_of_mem_split (sep : Char) (s p : QString) (c : Char)
    (hp : p ∈ split sep s) (hc : c ∈ p) : c ∈ s := by
  induction s generalizing p with
  | nil =>
    simp only [split, List.mem_singleton] at hp
    subst hp
    exact hc
  | cons d ds ih =>
    simp only [split] at hp
    split_ifs at hp with hd
    · rcases List.mem_cons.1 hp with rfl | hp
      · exact absurd hc (List.not_mem_nil c)
      · exact List.mem_cons_of_mem _ (ih p hp hc)
    · cases hs : split sep ds with
      | nil => exact absurd hs (split_ne_nil sep ds)
      | cons q ps =>
        rw [hs] at hp
        simp only at hp
        rcases List.mem_cons.1 hp with rfl | hp
        · rcases List.mem_cons.1 hc with rfl | hc
          · exact List.mem_cons_self _ _
          · exact List.mem_cons_of_mem _ (ih q (by rw [hs]; exact List.mem_cons_self _ _) hc)
        · exact List.mem_cons_of_mem _ (ih p (by rw [hs]; exact List.mem_cons_of_mem _ hp) hc)

/-- The loop of `matchTopic` runs to its end exactly when every filter part is `+`, `#` or
the topic part at the same index. -/
theorem matchTopicLoop_eq_true_iff (topicParts filterParts : List QString) (i : Nat) :
    matchTopicLoop topicParts i filterParts = some true ↔
      ∀ (j : Nat) (fp : QString), filterParts[j]? = some fp →
        fp = ['+'] ∨ fp = ['#'] ∨ topicParts[i + j]? = some fp := by
  induction filterParts generalizing i with
  | nil => simp [matchTopicLoop]
  | cons p rest ih =>
    have step : (∀ (j : Nat) (fp : QString), (p :: rest)[j]? = some fp →
          fp = ['+'] ∨ fp = ['#'] ∨ topicParts[i + j]? = some fp) ↔
        ((p = ['+'] ∨ p = ['#'] ∨ topicParts[i]? = some p) ∧
          ∀ (j : Nat) (fp : QString), rest[j]? = some fp →
            fp = ['+'] ∨ fp = ['#'] ∨ topicParts[i + 1 + j]? = some fp) := by
      constructor
      · intro h
        refine ⟨by simpa using h 0 p (by simp), fun j fp hj => ?_⟩
        have := h (j + 1) fp (by simpa using hj)
        rwa [show i + (j + 1) = i + 1 + j by omega] at this
      · rintro ⟨h0, hr⟩ j fp hj
        cases j with
        | zero =>
          simp only [List.getElem?_cons_zero, Option.some.injEq] at hj
          subst hj
          simpa using h0
        | succ j =>
          have := hr j fp (by simpa using hj)
          rwa [show i + 1 + j = i + (j + 1) by omega] at this
    rw [step, ← ih (i + 1)]
    simp only [matchTopicLoop]
    by_cases h1 : p = ['+']
    · simp [h1]
    · by_cases h2 : p = ['#']
      · simp [h2]
      · rw [if_neg h1, if_neg h2]
        cases ht : topicParts[i]? with
        | none => simp [h1, h2]
        | some tp =>
          by_cases h3 : tp = p
          · simp [h1, h2, h3]
          · simp [h1, h2, h3]

/-- The loop of `matchTopic` stays in range when every filter part that is compared with a
topic part has an index below the number of topic parts. -/
theorem matchTopicLoop_ne_none (topicParts filterParts : List QString) (i : Nat)
    (h : ∀ (j : Nat) (fp : QString), filterParts[j]? = some fp →
      fp = ['+'] ∨ fp = ['#'] ∨ i + j < topicParts.length) :
    matchTopicLoop topicParts i filterParts ≠ none := by
  induction filterParts generalizing i with
  | nil => simp [matchTopicLoop]
  | cons p rest ih =>
    have hr : matchTopicLoop topicParts (i + 1) rest ≠ none := by
      apply ih
      intro j fp hj
      have := h (j + 1) fp (by simpa using hj)
      rwa [show i + (j + 1) = i + 1 + j by omega] at this
    simp only [matchTopicLoop]
    by_cases h1 : p = ['+']
    · simpa [h1] using hr
    · by_cases h2 : p = ['#']
      · simpa [h2] using hr
      · rw [if_neg h1, if_neg h2]
        have h0 := h 0 p (by simp)
        have hlt : i < topicParts.length := by
          rcases h0 with h0 | h0 | h0
          · exact absurd h0 h1
          · exact absurd h0 h2
          · simpa using h0
        rw [List.getElem?_eq_getElem hlt]
        simp only
        split_ifs
        · exact hr
        · simp

/-- Characterisation of the filters accepted by `validateTopicFilter`. -/
theorem validateTopicFilter_eq_true_iff (f : QString) :
    validateTopicFilter f = true ↔
      f ≠ [] ∧ ∀ (i : Nat) (part : QString), (split '/' f)[i]? = some part →
        (('#' ∈ part → part = ['#'] ∧ i + 1 = (split '/' f).length) ∧
          ('+' ∈ part → part = ['+'])) := by
  have hlen : 0 < (split '/' f).length := List.length_pos.2 (split_ne_nil '/' f)
  unfold validateTopicFilter
  cases f with
  | nil => simp
  | cons c cs =>
    have hl : ¬ ((c :: cs).length < 1) := by simp
    rw [if_neg hl]
    simp only [validateTopicFilterLoop_iff, ne_eq, reduceCtorEq, not_false_eq_true, true_and,
      Nat.zero_add]
    constructor
    · intro h i part hi
      refine ⟨fun hm => ⟨((h i part hi).1 hm).1, ?_⟩, (h i part hi).2⟩
      have := ((h i part hi).1 hm).2
      omega
    · intro h i part hi
      refine ⟨fun hm => ⟨((h i part hi).1 hm).1, ?_⟩, (h i part hi).2⟩
      have := ((h i part hi).1 hm).2
      omega

/-- In a valid filter, a part that is not the last one is not `#`. -/
theorem not_hash_of_valid (f : QString) (hvalid : validateTopicFilter f = true) (i : Nat)
    (hi : i + 1 < (split '/' f).length) : (split '/' f)[i]? ≠ some ['#'] := by
  intro h
  have := (((validateTopicFilter_eq_true_iff f).1 hvalid).2 i ['#'] h).1 (by simp)
  omega

theorem startsWith_eq_false {topic : QString} {c : Char} (h : topic.head? ≠ some c) :
    startsWith topic c = false := by
  simp [startsWith, h]

/-- With a valid filter whose last part is `#`, `matchTopic` always returns, and returns
true exactly when the parts before the `#` match the topic parts at the same positions. -/
theorem matchTopic_of_trailing_hash (topicFilter topic : QString)
    (hvalid : validateTopicFilter topicFilter = true)
    (hlast : (split '/' topicFilter).getLast? = some ['#'])
    (htopic : topic.head? ≠ some '$') :
    (matchTopic topicFilter topic = some true ↔
      ((split '/' topicFilter).length - 1 ≤ (split '/' topic).length ∧
        ∀ i, i < (split '/' topicFilter).length - 1 →
          (split '/' topicFilter)[i]? = some ['+'] ∨
            (split '/' topicFilter)[i]? = (split '/' topic)[i]?)) ∧
    (matchTopic topicFilter topic = some false ↔
      ¬ ((split '/' topicFilter).length - 1 ≤ (split '/' topic).length ∧
        ∀ i, i < (split '/' topicFilter).length - 1 →
          (split '/' topicFilter)[i]? = some ['+'] ∨
            (split '/' topicFilter)[i]? = (split '/' topic)[i]?)) := by
  have hends : endsWith topicFilter '#' = true := by
    have := getLast_of_split '/' topicFilter ['#'] hlast (by simp)
    simp [endsWith, this]
  have hnh := not_hash_of_valid topicFilter hvalid
  obtain ⟨pre, hpre⟩ := List.getLast?_eq_some_iff.1 hlast
  unfold matchTopic
  rw [startsWith_eq_false htopic]
  simp only [Bool.false_eq_true, if_false, hends, Bool.or_true]
  generalize split '/' topicFilter = fparts at hlast hnh hpre ⊢
  generalize split '/' topic = tparts
  subst hpre
  have hk : (pre ++ [['#']]).length - 1 = pre.length := by simp
  rw [hk]
  have hcore : pre.length ≤ tparts.length →
      ((∀ (j : Nat) (fp : QString), (pre ++ [['#']])[j]? = some fp →
          fp = ['+'] ∨ fp = ['#'] ∨ tparts[0 + j]? = some fp) ↔
        ∀ i, i < pre.length →
          (pre ++ [['#']])[i]? = some ['+'] ∨ (pre ++ [['#']])[i]? = tparts[i]?) := by
    intro hle
    constructor
    · intro h i hi
      have hil : i < (pre ++ [['#']]).length := by simp; omega
      have hget : (pre ++ [['#']])[i]? = some ((pre ++ [['#']])[i]) :=
        List.getElem?_eq_getElem hil
      rcases h i _ hget with h1 | h1 | h1
      · left; rw [hget, h1]
      · exact absurd (by rw [hget, h1]) (hnh i (by simp; omega))
      · right; rw [hget]; simpa using h1.symm
    · intro h j fp hj
      by_cases hjk : j < pre.length
      · rcases h j hjk with h1 | h1
        · left; rw [hj] at h1; exact Option.some.inj h1
        · right; right; rw [hj] at h1; simpa using h1.symm
      · have hjl : j < (pre ++ [['#']]).length := by
          by_contra hc
          rw [List.getElem?_eq_none (by omega)] at hj
          exact Option.noConfusion hj
        have hjeq : j = pre.length := by simp at hjl; omega
        subst hjeq
        simp at hj
        right; left; exact hj.symm
  by_cases hg : (tparts.length : Int) < ((pre ++ [['#']]).length : Int) - 1
  · rw [if_pos hg]
    have hnle : ¬ pre.length ≤ tparts.length := by
      simp only [List.length_append, List.length_singleton] at hg
      push_cast at hg
      omega
    constructor
    · constructor
      · intro h; exact absurd h (by simp)
      · intro h; exact absurd h.1 hnle
    · constructor
      · intro _ h; exact hnle h.1
      · intro _; rfl
  · rw [if_neg hg]
    have hle : pre.length ≤ tparts.length := by
      simp only [List.length_append, List.length_singleton] at hg
      push_cast at hg
      omega
    have hdef := matchTopicLoop_ne_none tparts (pre ++ [['#']]) 0 (by
      intro j fp hj
      by_cases hjk : j < pre.length
      · right; right; omega
      · have hjl : j < (pre ++ [['#']]).length := by
          by_contra hc
          rw [List.getElem?_eq_none (by omega)] at hj
          exact Option.noConfusion hj
        have hjeq : j = pre.length := by simp at hjl; omega
        subst hjeq
        simp at hj
        right; left; exact hj.symm)
    have htrue := (matchTopicLoop_eq_true_iff tparts (pre ++ [['#']]) 0).trans (hcore hle)
    cases hloop : matchTopicLoop tparts 0 (pre ++ [['#']]) with
    | none => exact absurd hloop hdef
    | some b =>
      cases b with
      | true =>
        have hP := htrue.1 hloop
        dsimp only
        exact ⟨⟨fun _ => ⟨hle, hP⟩, fun _ => rfl⟩,
          ⟨fun h => absurd h (by simp), fun h => absurd ⟨hle, hP⟩ h⟩⟩
      | false =>
        have hnP : ¬ ∀ i, i < pre.length →
            (pre ++ [['#']])[i]? = some ['+'] ∨ (pre ++ [['#']])[i]? = tparts[i]? := by
          intro hP
          have := htrue.2 hP
          rw [hloop] at this
          exact absurd this (by simp)
        dsimp only
        exact ⟨⟨fun h => absurd h (by simp), fun h => absurd h.2 hnP⟩,
          ⟨fun _ h => hnP h.2, fun _ => rfl⟩⟩

/-- With a filter that has no `#`, `matchTopic` returns true exactly when filter and topic
have the same number of parts and each filter part is `+` or the topic part at its index. -/
theorem matchTopic_of_no_hash (topicFilter topic : QString)
    (hno : '#' ∉ topicFilter) (htopic : topic.head? ≠ some '$') :
    matchTopic topicFilter topic = some true ↔
      ((split '/' topicFilter).length = (split '/' topic).length ∧
        ∀ i, i < (split '/' topicFilter).length →
          (split '/' topicFilter)[i]? = some ['+'] ∨
            (split '/' topicFilter)[i]? = (split '/' topic)[i]?) := by
  have hends : endsWith topicFilter '#' = false := by
    have : topicFilter.getLast? ≠ some '#' := by
      intro h
      exact hno (List.mem_of_getLast?_eq_some h)
    simp [endsWith, this]
  have hnh : ∀ (j : Nat) (fp : QString), (split '/' topicFilter)[j]? = some fp → fp ≠ ['#'] := by
    rintro j fp hj rfl
    exact hno (mem_of_mem_split '/' topicFilter ['#'] '#' (List.getElem?_mem hj) (by simp))
  unfold matchTopic
  rw [startsWith_eq_false htopic]
  simp only [Bool.false_eq_true, if_false, hends, Bool.or_false]
  generalize split '/' topicFilter = fparts at hnh ⊢
  generalize split '/' topic = tparts
  have hcore : (∀ (j : Nat) (fp : QString), fparts[j]? = some fp →
        fp = ['+'] ∨ fp = ['#'] ∨ tparts[0 + j]? = some fp) ↔
      ∀ i, i < fparts.length → fparts[i]? = some ['+'] ∨ fparts[i]? = tparts[i]? := by
    constructor
    · intro h i hi
      have hget : fparts[i]? = some (fparts[i]) := List.getElem?_eq_getElem hi
      rcases h i _ hget with h1 | h1 | h1
      · left; rw [hget, h1]
      · exact absurd h1 (hnh i _ hget)
      · right; rw [hget]; simpa using h1.symm
    · intro h j fp hj
      have hjl : j < fparts.length := by
        by_contra hc
        rw [List.getElem?_eq_none (by omega)] at hj
        exact Option.noConfusion hj
      rcases h j hjl with h1 | h1
      · left; rw [hj] at h1; exact Option.some.inj h1
      · right; right; rw [hj] at h1; simpa using h1.symm
  have htrue := (matchTopicLoop_eq_true_iff tparts fparts 0).trans hcore
  by_cases hg : (tparts.length : Int) < (fparts.length : Int) - 1
  · rw [if_pos hg]
    constructor
    · intro h; exact absurd h (by simp)
    · intro h; omega
  · rw [if_neg hg]
    cases hloop : matchTopicLoop tparts 0 fparts with
    | none =>
      simp only [reduceCtorEq, false_iff, not_and]
      intro hlen hP
      have := htrue.2 hP
      rw [hloop] at this
      exact absurd this (by simp)
    | some b =>
      cases b with
      | true =>
        simp only [Option.some.injEq, beq_iff_eq]
        constructor
        · intro h; exact ⟨h, htrue.1 hloop⟩
        · intro h; exact h.1
      | false =>
        simp only [Option.some.injEq, Bool.false_eq_true, false_iff, not_and]
        intro _ hP
        have := htrue.2 hP
        rw [hloop] at this
        exact absurd this (by simp)

/-! ## Lemmas on routing, the retained store and subscriptions -/

@[simp]
theorem write_written (d : MqttServerPrivate) (c : Nat) (p : MqttPacket) :
    (d.write c p).written = d.written ++ [(c, p)] := rfl

@[simp]
theorem write_clientList (d : MqttServerPrivate) (c : Nat) (p : MqttPacket) :
    (d.write c p).clientList = d.clientList := rfl

@[simp]
theorem write_retainedMessages (d : MqttServerPrivate) (c : Nat) (p : MqttPacket) :
    (d.write c p).retainedMessages = d.retainedMessages := rfl

@[simp]
theorem emit_written (d : MqttServerPrivate) (s : Signal) :
    (d.emit s).written = d.written := rfl

@[simp]
theorem emit_clientList (d : MqttServerPrivate) (s : Signal) :
    (d.emit s).clientList = d.clientList := rfl

@[simp]
theorem emit_retainedMessages (d : MqttServerPrivate) (s : Signal) :
    (d.emit s).retainedMessages = d.retainedMessages := rfl

@[simp]
theorem emit_maximumSubscriptionQoS (d : MqttServerPrivate) (s : Signal) :
    (d.emit s).maximumSubscriptionQoS = d.maximumSubscriptionQoS := rfl

@[simp]
theorem setContext_written (d : MqttServerPrivate) (c : Nat) (ctx : ClientContext) :
    (d.setContext c ctx).written = d.written := rfl

@[simp]
theorem setContext_retainedMessages (d : MqttServerPrivate) (c : Nat)
    (ctx : ClientContext) : (d.setContext c ctx).retainedMessages = d.retainedMessages := rfl

theorem newPacketId_frame (d d1 : MqttServerPrivate) (ctx : ClientContext) (packetId : Nat)
    (h : newPacketId d ctx = some (packetId, d1)) :
    d1.written = d.written ∧ d1.clientList = d.clientList ∧
      d1.retainedMessages = d.retainedMessages := by
  unfold newPacketId at h
  split at h
  · exact Option.noConfusion h
  · simp only [Option.some.injEq, Prod.mk.injEq] at h
    obtain ⟨-, rfl⟩ := h
    exact ⟨rfl, rfl, rfl⟩

/-- One pass of the second loop of `publish` writes one PUBLISH to the receiver, with the
QoS, topic and payload given, and leaves the retained messages alone. -/
theorem publishTo_written (topic payload : QString) (d d1 : MqttServerPrivate)
    (packets packets1 : List (QString × Nat)) (receiver : Nat) (qos : QoS)
    (h : publishTo topic payload d packets receiver qos = some (d1, packets1)) :
    ∃ p : MqttPacket, d1.written = d.written ++ [(receiver, p)] ∧
      p.type = PacketType.TypePublish ∧ p.qos = qos ∧ p.topic = topic ∧
      p.payload = payload ∧ p.retain = false ∧ p.dup = false ∧
      d1.retainedMessages = d.retainedMessages := by
  unfold publishTo at h
  split at h
  · exact Option.noConfusion h
  · rename_i ctx hctx
    split at h
    · exact Option.noConfusion h
    · rename_i packetId d0 hid
      have hframe : d0.written = d.written ∧ d0.retainedMessages = d.retainedMessages := by
        split_ifs at hid with hq
        · have := newPacketId_frame d d0 ctx packetId hid
          exact ⟨this.1, this.2.2⟩
        · simp only [Option.some.injEq, Prod.mk.injEq] at hid
          obtain ⟨-, rfl⟩ := hid
          exact ⟨rfl, rfl⟩
      simp only at h
      split_ifs at h with hq0
      · simp only [Option.some.injEq, Prod.mk.injEq] at h
        obtain ⟨rfl, -⟩ := h
        refine ⟨{ MqttPacket.new PacketType.TypePublish packetId qos false false with
          topic := topic, payload := payload }, ?_, rfl, rfl, rfl, rfl, rfl, rfl, ?_⟩
        · simp [hframe.1]
        · simp [hframe.2]
      · simp only [Option.some.injEq, Prod.mk.injEq] at h
        obtain ⟨rfl, -⟩ := h
        refine ⟨{ MqttPacket.new PacketType.TypePublish packetId qos false false with
          topic := topic, payload := payload }, ?_, rfl, rfl, rfl, rfl, rfl, rfl, ?_⟩
        · simp [hframe.1]
        · simp [hframe.2]
theorem QoS.le_iff (a b : QoS) : a ≤ b ↔ a.toNat ≤ b.toNat := Iff.rfl

theorem QoS.lt_iff (a b : QoS) : a < b ↔ a.toNat < b.toNat := Iff.rfl

/-- The entry of `receivers` computed for one client. -/
theorem receiverQoS_spec (topic : QString) (subs : List MqttSubscription) (acc r : Option QoS)
    (h : receiverQoS topic acc subs = some r) :
    (r = none → acc = none ∧ ∀ s ∈ subs, matchTopic s.topicFilter topic = some false) ∧
    (∀ q, r = some q →
      (acc = some q ∨ ∃ s ∈ subs, matchTopic s.topicFilter topic = some true ∧ s.qoS = q) ∧
      (∀ q0, acc = some q0 → q0 ≤ q) ∧
      ∀ s ∈ subs, matchTopic s.topicFilter topic = some true → s.qoS ≤ q) := by
  induction subs generalizing acc with
  | nil =>
    simp only [receiverQoS, Option.some.injEq] at h
    subst h
    refine ⟨fun h => ⟨h, fun s hs => absurd hs (List.not_mem_nil s)⟩, fun q hq => ?_⟩
    refine ⟨Or.inl hq, fun q0 h0 => ?_, fun s hs => absurd hs (List.not_mem_nil s)⟩
    rw [hq] at h0
    rw [Option.some.inj h0]
    exact Nat.le_refl _
  | cons s rest ih =>
    unfold receiverQoS at h
    cases hm : matchTopic s.topicFilter topic with
    | none => rw [hm] at h; exact Option.noConfusion h
    | some b =>
      rw [hm] at h
      cases b with
      | false =>
        simp only at h
        obtain ⟨ih1, ih2⟩ := ih acc h
        refine ⟨fun hr => ⟨(ih1 hr).1, fun s1 hs1 => ?_⟩, fun q hq => ?_⟩
        · rcases List.mem_cons.1 hs1 with rfl | hs1
          · exact hm
          · exact (ih1 hr).2 s1 hs1
        · obtain ⟨a, b, c⟩ := ih2 q hq
          refine ⟨?_, b, fun s1 hs1 hm1 => ?_⟩
          · rcases a with a | ⟨s1, hs1, hm1, hq1⟩
            · exact Or.inl a
            · exact Or.inr ⟨s1, List.mem_cons_of_mem _ hs1, hm1, hq1⟩
          · rcases List.mem_cons.1 hs1 with rfl | hs1
            · rw [hm] at hm1; exact absurd hm1 (by simp)
            · exact c s1 hs1 hm1
      | true =>
        simp only at h
        have key : ∀ (qa : QoS), receiverQoS topic (some qa) rest = some r → s.qoS ≤ qa →
            (∀ q0, acc = some q0 → q0 ≤ qa) → (acc = some qa ∨ qa = s.qoS) →
            (r = none → acc = none ∧
              ∀ s1 ∈ s :: rest, matchTopic s1.topicFilter topic = some false) ∧
            (∀ q, r = some q →
              (acc = some q ∨
                ∃ s1 ∈ s :: rest, matchTopic s1.topicFilter topic = some true ∧ s1.qoS = q) ∧
              (∀ q0, acc = some q0 → q0 ≤ q) ∧
              ∀ s1 ∈ s :: rest, matchTopic s1.topicFilter topic = some true → s1.qoS ≤ q) := by
          intro qa hrec hsq hacc hqa
          obtain ⟨ih1, ih2⟩ := ih (some qa) hrec
          refine ⟨fun hr => absurd (ih1 hr).1 (by simp), fun q hq => ?_⟩
          obtain ⟨a, b, c⟩ := ih2 q hq
          have hqq : qa ≤ q := b qa rfl
          refine ⟨?_, fun q0 h0 => ?_, fun s1 hs1 hm1 => ?_⟩
          · rcases a with a | ⟨s1, hs1, hm1, hq1⟩
            · have hqe : qa = q := Option.some.inj a
              rcases hqa with hqa | hqa
              · left; rw [hqa, hqe]
              · right; exact ⟨s, List.mem_cons_self _ _, hm, by rw [← hqe, hqa]⟩
            · exact Or.inr ⟨s1, List.mem_cons_of_mem _ hs1, hm1, hq1⟩
          · have := hacc q0 h0
            rw [QoS.le_iff] at this hqq ⊢
            omega
          · rcases List.mem_cons.1 hs1 with rfl | hs1
            · rw [QoS.le_iff] at hsq hqq ⊢
              omega
            · exact c s1 hs1 hm1
        have hupd : ∃ qa, updateReceiver acc s.qoS = some qa ∧ s.qoS ≤ qa ∧
            (∀ q0, acc = some q0 → q0 ≤ qa) ∧ (acc = some qa ∨ qa = s.qoS) := by
          cases acc with
          | none =>
            exact ⟨s.qoS, rfl, Nat.le_refl _, fun q0 h0 => Option.noConfusion h0, Or.inr rfl⟩
          | some qa =>
            simp only [updateReceiver]
            split_ifs with hlt
            · refine ⟨s.qoS, rfl, Nat.le_refl _, fun q0 h0 => ?_, Or.inr rfl⟩
              rw [← Option.some.inj h0]
              rw [QoS.lt_iff] at hlt
              rw [QoS.le_iff]
              omega
            · refine ⟨qa, rfl, ?_, fun q0 h0 => ?_, Or.inl rfl⟩
              · rw [QoS.lt_iff] at hlt
                rw [QoS.le_iff]
                omega
              · rw [← Option.some.inj h0]
                exact Nat.le_refl _
        obtain ⟨qa, hqa, h1, h2, h3⟩ := hupd
        rw [hqa] at h
        exact key qa h h1 h2 h3

/-- A client with no match has no entry in `receivers`; otherwise its entry is the highest
QoS among its matching subscriptions. -/
theorem receiverQoS_none_spec (topic : QString) (subs : List MqttSubscription) (r : Option QoS)
    (h : receiverQoS topic none subs = some r) :
    (r = none → ∀ s ∈ subs, matchTopic s.topicFilter topic = some false) ∧
    (∀ q, r = some q → IsBestQoS topic subs q) := by
  obtain ⟨h1, h2⟩ := receiverQoS_spec topic subs none r h
  refine ⟨fun hr => (h1 hr).2, fun q hq => ?_⟩
  obtain ⟨a, -, c⟩ := h2 q hq
  rcases a with a | a
  · exact Option.noConfusion a
  · exact ⟨a, c⟩
theorem forall2_trans {α β γ : Type} {R : α → β → Prop} {S : β → γ → Prop}
    {T : α → γ → Prop} (hT : ∀ a b c, R a b → S b c → T a c) :
    ∀ {l1 : List α} {l2 : List β} {l3 : List γ},
      List.Forall₂ R l1 l2 → List.Forall₂ S l2 l3 → List.Forall₂ T l1 l3
  | _, _, _, List.Forall₂.nil, List.Forall₂.nil => List.Forall₂.nil
  | _, _, _, List.Forall₂.cons h1 t1, List.Forall₂.cons h2 t2 =>
    List.Forall₂.cons (hT _ _ _ h1 h2) (forall2_trans hT t1 t2)

theorem forall2_mem_left {α β : Type} {R : α → β → Prop} :
    ∀ {l1 : List α} {l2 : List β}, List.Forall₂ R l1 l2 → ∀ a ∈ l1, ∃ b ∈ l2, R a b
  | _, _, List.Forall₂.nil, a, ha => absurd ha (List.not_mem_nil a)
  | _, _, List.Forall₂.cons h t, a, ha => by
    rcases List.mem_cons.1 ha with rfl | ha
    · exact ⟨_, List.mem_cons_self _ _, h⟩
    · obtain ⟨b, hb, hr⟩ := forall2_mem_left t a ha
      exact ⟨b, List.mem_cons_of_mem _ hb, hr⟩

/-- The hash `receivers` has one entry for each session with a matching subscription, in
the order of the client table, holding the highest QoS among the matching subscriptions. -/
theorem collectReceivers_spec (topic : QString) (cl : List (Nat × ClientContext))
    (rs : List (Nat × QoS)) (h : collectReceivers topic cl = some rs) :
    List.Forall₂ (fun rq e => rq.1 = e.1 ∧ IsBestQoS topic e.2.subscriptions rq.2) rs
      (cl.filter (fun e => hasMatch topic e.2)) := by
  induction cl generalizing rs with
  | nil =>
    simp only [collectReceivers, Option.some.injEq] at h
    subst h
    exact List.Forall₂.nil
  | cons e rest ih =>
    obtain ⟨c, ctx⟩ := e
    simp only [collectReceivers] at h
    cases hr : receiverQoS topic none ctx.subscriptions with
    | none => rw [hr] at h; exact Option.noConfusion h
    | some r =>
      rw [hr] at h
      simp only at h
      cases hc : collectReceivers topic rest with
      | none => rw [hc] at h; exact Option.noConfusion h
      | some rs1 =>
        rw [hc] at h
        simp only at h
        obtain ⟨h1, h2⟩ := receiverQoS_none_spec topic ctx.subscriptions r hr
        cases r with
        | none =>
          simp only [Option.some.injEq] at h
          subst h
          have hno : hasMatch topic ctx = false := by
            simp only [hasMatch, List.any_eq_false, decide_eq_true_eq]
            intro s hs
            rw [h1 rfl s hs]
            simp
          rw [List.filter_cons_of_neg (by simpa using hno)]
          exact ih rs1 hc
        | some q =>
          simp only [Option.some.injEq] at h
          subst h
          have hbest := h2 q rfl
          have hyes : hasMatch topic ctx = true := by
            simp only [hasMatch, List.any_eq_true, decide_eq_true_eq]
            obtain ⟨⟨s, hs, hm, -⟩, -⟩ := hbest
            exact ⟨s, hs, hm⟩
          rw [List.filter_cons_of_pos (by simpa using hyes)]
          exact List.Forall₂.cons ⟨rfl, hbest⟩ (ih rs1 hc)

/-- The second loop of `publish` writes one PUBLISH per entry of `receivers`, in order. -/
theorem publishLoop_written (topic payload : QString) (rs : List (Nat × QoS)) :
    ∀ (d d1 : MqttServerPrivate) (packets packets1 : List (QString × Nat)),
      publishLoop topic payload d packets rs = some (d1, packets1) →
      ∃ copies : List (Nat × MqttPacket), d1.written = d.written ++ copies ∧
        List.Forall₂ (fun w rq => IsCopy topic payload w rq.1 rq.2) copies rs ∧
        d1.retainedMessages = d.retainedMessages := by
  induction rs with
  | nil =>
    intro d d1 packets packets1 h
    simp only [publishLoop, Option.some.injEq, Prod.mk.injEq] at h
    obtain ⟨rfl, -⟩ := h
    exact ⟨[], by simp, List.Forall₂.nil, rfl⟩
  | cons rq rest ih =>
    intro d d1 packets packets1 h
    obtain ⟨receiver, qos⟩ := rq
    simp only [publishLoop] at h
    cases hp : publishTo topic payload d packets receiver qos with
    | none => rw [hp] at h; exact Option.noConfusion h
    | some r =>
      obtain ⟨d0, packets0⟩ := r
      rw [hp] at h
      simp only at h
      obtain ⟨p, hw, ht, hq, htop, hpay, hret, hdup, hrm⟩ :=
        publishTo_written topic payload d d0 packets packets0 receiver qos hp
      obtain ⟨copies, hw1, hall, hrm1⟩ := ih d0 d1 packets0 packets1 h
      refine ⟨(receiver, p) :: copies, ?_, ?_, ?_⟩
      · rw [hw1, hw]; simp
      · exact List.Forall₂.cons ⟨rfl, ht, hq, htop, hpay, hret, hdup⟩ hall
      · rw [hrm1, hrm]

/-- What `publish` writes: one PUBLISH for each session that has a matching subscription,
in the order of the client table, carrying the topic and the payload, with the highest QoS
among the matching subscriptions of that session; the retained messages are untouched. -/
theorem publish_written (d d1 : MqttServerPrivate) (topic payload : QString)
    (packets : List (QString × Nat)) (h : publish d topic payload = some (d1, packets)) :
    ∃ copies : List (Nat × MqttPacket), d1.written = d.written ++ copies ∧
      List.Forall₂
        (fun w e => IsCopy topic payload w e.1 w.2.qos ∧
          IsBestQoS topic e.2.subscriptions w.2.qos)
        copies (d.clientList.filter (fun e => hasMatch topic e.2)) ∧
      d1.retainedMessages = d.retainedMessages := by
  unfold publish at h
  cases hc : collectReceivers topic d.clientList with
  | none => rw [hc] at h; exact Option.noConfusion h
  | some rs =>
    rw [hc] at h
    simp only at h
    obtain ⟨copies, hw, hall, hrm⟩ := publishLoop_written topic payload rs d d1 [] packets h
    refine ⟨copies, hw, ?_, hrm⟩
    refine forall2_trans ?_ hall (collectReceivers_spec topic d.clientList rs hc)
    rintro w rq e ⟨h1, h2, h3, h4, h5, h6, h7⟩ ⟨h8, h9⟩
    exact ⟨⟨h1.trans h8, h2, rfl, h4, h5, h6, h7⟩, by rw [h3]; exact h9⟩
/-- In a table with distinct keys, `lookup` finds the entry of a key. -/
theorem lookup_of_mem {ν : Type} (l : List (Nat × ν)) (k : Nat) (v w : ν)
    (hnd : (l.map Prod.fst).Nodup) (hmem : (k, v) ∈ l) (hl : l.lookup k = some w) : v = w := by
  induction l with
  | nil => exact absurd hmem (List.not_mem_nil _)
  | cons e rest ih =>
    obtain ⟨k1, v1⟩ := e
    simp only [List.map_cons, List.nodup_cons, List.mem_map, Prod.exists, exists_and_right,
      exists_eq_right, not_exists] at hnd
    by_cases hk : k = k1
    · subst hk
      simp only [List.lookup_cons, beq_self_eq_true, Option.some.injEq] at hl
      rcases List.mem_cons.1 hmem with h | h
      · simp only [Prod.mk.injEq, true_and] at h
        rw [h, hl]
      · exact absurd h (hnd.1 v)
    · have hne : (k == k1) = false := by simpa using hk
      simp only [List.lookup_cons, hne] at hl
      rcases List.mem_cons.1 hmem with h | h
      · simp only [Prod.mk.injEq] at h
        exact absurd h.1 hk
      · exact ih hnd.2 h hl

/-- The `switch` of the PUBLISH branch, for a packet that is neither a repeated QoS 2
delivery nor a reused QoS 2 id: it ends in `break`, writes at most an acknowledgement to
the sender, keeps the retained messages and the subscriptions of every session. -/
theorem ackPublish_proceed (d : MqttServerPrivate) (packet : MqttPacket) (client : Nat)
    (ctx : ClientContext)
    (hfresh : packet.qos = QoS.QoS2 → packet.packetId ∉ ctx.unackedPacketList) :
    ∃ (d1 : MqttServerPrivate) (acks : List (Nat × MqttPacket)),
      ackPublish d packet client ctx = Acked.proceed d1 ∧
      d1.written = d.written ++ acks ∧
      (∀ w ∈ acks, w.1 = client ∧ w.2.type ≠ PacketType.TypePublish) ∧
      d1.retainedMessages = d.retainedMessages ∧
      (d1.clientList = d.clientList ∨
        ∃ ctx1 : ClientContext, ctx1.subscriptions = ctx.subscriptions ∧
          d1.clientList = d.clientList.map (fun e => if e.1 = client then (client, ctx1) else e)) := by
  unfold ackPublish
  cases hq : packet.qos with
  | QoS0 =>
    exact ⟨d, [], rfl, by simp, fun w hw => absurd hw (List.not_mem_nil w), rfl, Or.inl rfl⟩
  | QoS1 =>
    refine ⟨_, [(client, MqttPacket.new PacketType.TypePuback packet.packetId QoS.QoS0 false
      false)], rfl, rfl, fun w hw => ?_, rfl, Or.inl rfl⟩
    rw [List.mem_singleton] at hw
    subst hw
    exact ⟨rfl, by simp [MqttPacket.new]⟩
  | QoS2 =>
    have hn : ctx.unackedPacketList.contains packet.packetId = false := by
      simpa using hfresh hq
    simp only [hn, Bool.and_false, Bool.false_eq_true, if_false]
    refine ⟨_, [(client, MqttPacket.new PacketType.TypePubrec packet.packetId QoS.QoS0 false
      false)], rfl, rfl, fun w hw => ?_, rfl, Or.inr ⟨{ ctx with
        unackedPackets := hashInsert ctx.unackedPackets packet.packetId
          (MqttPacket.new PacketType.TypePubrec packet.packetId QoS.QoS0 false false),
        unackedPacketList := ctx.unackedPacketList ++ [packet.packetId] }, rfl, rfl⟩⟩
    rw [List.mem_singleton] at hw
    subst hw
    exact ⟨rfl, by simp [MqttPacket.new]⟩

/-- The way `processPacket` handles a PUBLISH that it accepts: acknowledge, update the
retained messages, then route with `publish`. -/
theorem processPacket_publish (userValidator : Option MqttUserValidator) (uuid : QString)
    (d d2 : MqttServerPrivate) (packet : MqttPacket) (client : Nat) (ctx : ClientContext)
    (htype : packet.type = PacketType.TypePublish)
    (hctx : d.clientList.lookup client = some ctx)
    (hfresh : packet.qos = QoS.QoS2 → packet.packetId ∉ ctx.unackedPacketList)
    (h : processPacket userValidator uuid d packet client = some d2) :
    ∃ (d1 : MqttServerPrivate) (acks : List (Nat × MqttPacket)) (packets : List (QString × Nat)),
      d1.written = d.written ++ acks ∧
      (∀ w ∈ acks, w.1 = client ∧ w.2.type ≠ PacketType.TypePublish) ∧
      d1.retainedMessages = d.retainedMessages ∧
      (d1.clientList = d.clientList ∨
        ∃ ctx1 : ClientContext, ctx1.subscriptions = ctx.subscriptions ∧
          d1.clientList = d.clientList.map (fun e => if e.1 = client then (client, ctx1) else e)) ∧
      publish { d1 with retainedMessages := storeRetained d1.retainedMessages packet }
        packet.topic packet.payload = some (d2, packets) := by
  obtain ⟨d1, acks, hack, hw, hacks, hrm, hcl⟩ :=
    ackPublish_proceed ((d.emit (Signal.clientAlive ctx.clientId)).emit
      (Signal.publishReceived ctx.clientId packet.packetId packet.topic packet.payload
        packet.dup)) packet client ctx hfresh
  simp only [processPacket, htype, reduceCtorEq, if_false, processPacketConnected, hctx,
    processPublish, hack] at h
  cases hp : publish { d1 with retainedMessages := storeRetained d1.retainedMessages packet }
      packet.topic packet.payload with
  | none => rw [hp] at h; exact Option.noConfusion h
  | some r =>
    obtain ⟨d3, packets⟩ := r
    rw [hp] at h
    simp only [Option.some.injEq] at h
    subst h
    exact ⟨d1, acks, packets, hw, hacks, hrm, hcl, hp⟩
theorem lookup_hashRemove_self (h : List (QString × List MqttPacket)) (k : QString) :
    (hashRemove h k).lookup k = none := by
  induction h with
  | nil => rfl
  | cons e rest ih =>
    obtain ⟨k1, v1⟩ := e
    by_cases hk : k1 = k
    · simpa [hashRemove, hk] using ih
    · have hne : (k == k1) = false := by simpa using fun h => hk h.symm
      simpa [hashRemove, hk, List.lookup_cons, hne] using ih

theorem lookup_hashRemove_ne (h : List (QString × List MqttPacket)) (k k1 : QString)
    (hne : k1 ≠ k) : (hashRemove h k).lookup k1 = h.lookup k1 := by
  induction h with
  | nil => rfl
  | cons e rest ih =>
    obtain ⟨k2, v2⟩ := e
    by_cases hk : k2 = k
    · subst hk
      have hne1 : (k1 == k2) = false := by simpa using hne
      simpa [hashRemove, List.lookup_cons, hne1] using ih
    · by_cases hk1 : k1 = k2
      · subst hk1
        simp [hashRemove, hk, List.lookup_cons]
      · have hne1 : (k1 == k2) = false := by simpa using hk1
        simpa [hashRemove, hk, List.lookup_cons, hne1] using ih

theorem lookup_map_append (h : List (QString × List MqttPacket)) (k : QString)
    (p : MqttPacket) :
    (h.map (fun e => if e.1 = k then (e.1, e.2 ++ [p]) else e)).lookup k =
      (h.lookup k).map (fun l => l ++ [p]) := by
  induction h with
  | nil => rfl
  | cons e rest ih =>
    obtain ⟨k1, v1⟩ := e
    by_cases hk : k1 = k
    · subst hk
      simp [List.lookup_cons]
    · have hne : (k == k1) = false := by simpa using fun h => hk h.symm
      simpa [hk, List.lookup_cons, hne] using ih

theorem lookup_map_append_ne (h : List (QString × List MqttPacket)) (k k1 : QString)
    (p : MqttPacket) (hne : k1 ≠ k) :
    (h.map (fun e => if e.1 = k then (e.1, e.2 ++ [p]) else e)).lookup k1 = h.lookup k1 := by
  induction h with
  | nil => rfl
  | cons e rest ih =>
    obtain ⟨k2, v2⟩ := e
    by_cases hk : k2 = k
    · subst hk
      have hne1 : (k1 == k2) = false := by simpa using hne
      simpa [List.lookup_cons, hne1] using ih
    · by_cases hk1 : k1 = k2
      · subst hk1
        simp [hk, List.lookup_cons]
      · have hne1 : (k1 == k2) = false := by simpa using hk1
        simpa [hk, List.lookup_cons, hne1] using ih

theorem lookup_append_singleton (h : List (QString × List MqttPacket)) (k k1 : QString)
    (v : List MqttPacket) :
    (h ++ [(k, v)]).lookup k1 =
      match h.lookup k1 with
      | some w => some w
      | none => if k1 = k then some v else none := by
  induction h with
  | nil =>
    by_cases hk : k1 = k
    · subst hk; simp [List.lookup_cons]
    · have hne : (k1 == k) = false := by simpa using hk
      simp [List.lookup_cons, hne, hk]
  | cons e rest ih =>
    obtain ⟨k2, v2⟩ := e
    by_cases hk : k1 = k2
    · subst hk; simp [List.lookup_cons]
    · have hne : (k1 == k2) = false := by simpa using hk
      simpa [List.lookup_cons, hne] using ih

theorem any_key_eq_false (h : List (QString × List MqttPacket)) (k : QString) :
    h.any (fun e => decide (e.1 = k)) = false ↔ h.lookup k = none := by
  induction h with
  | nil => simp
  | cons e rest ih =>
    obtain ⟨k1, v1⟩ := e
    by_cases hk : k1 = k
    · subst hk; simp [List.lookup_cons]
    · have hne : (k == k1) = false := by simpa using fun h => hk h.symm
      simpa [hk, List.lookup_cons, hne] using ih

/-- The entry of `topic` after `retainedMessages[topic].append(packet)`. -/
theorem lookup_appendRetained_self (h : List (QString × List MqttPacket)) (k : QString)
    (p : MqttPacket) :
    (appendRetained h k p).lookup k = some ((h.lookup k).getD [] ++ [p]) := by
  unfold appendRetained
  split_ifs with hany
  · rw [lookup_map_append]
    cases hl : h.lookup k with
    | none =>
      have := (any_key_eq_false h k).2 hl
      rw [this] at hany
      exact absurd hany (by simp)
    | some l => rfl
  · have hl : h.lookup k = none := (any_key_eq_false h k).1 (by
      cases hb : h.any (fun e => decide (e.1 = k)) with
      | true => exact absurd hb hany
      | false => rfl)
    rw [lookup_append_singleton, hl]
    simp

theorem lookup_appendRetained_ne (h : List (QString × List MqttPacket)) (k k1 : QString)
    (p : MqttPacket) (hne : k1 ≠ k) : (appendRetained h k p).lookup k1 = h.lookup k1 := by
  unfold appendRetained
  split_ifs with hany
  · exact lookup_map_append_ne h k k1 p hne
  · rw [lookup_append_singleton]
    cases h.lookup k1 <;> simp [hne]

/-- The entries of the retained store after the `if (packet.retain())` block. -/
theorem storeRetained_spec (store : List (QString × List MqttPacket)) (packet : MqttPacket) :
    (packet.retain = true → packet.payload = [] →
      (storeRetained store packet).lookup packet.topic = none) ∧
    (packet.retain = true → packet.payload ≠ [] → packet.qos = QoS.QoS0 →
      (storeRetained store packet).lookup packet.topic = some [packet]) ∧
    (packet.retain = true → packet.payload ≠ [] → packet.qos ≠ QoS.QoS0 →
      (storeRetained store packet).lookup packet.topic =
        some ((store.lookup packet.topic).getD [] ++ [packet])) ∧
    (∀ topic, topic ≠ packet.topic →
      (storeRetained store packet).lookup topic = store.lookup topic) ∧
    (packet.retain = false → storeRetained store packet = store) := by
  refine ⟨fun hr hp => ?_, fun hr hp hq => ?_, fun hr hp hq => ?_, fun topic hne => ?_,
    fun hr => ?_⟩
  · simp [storeRetained, hr, hp, lookup_hashRemove_self]
  · have hp1 : packet.payload.isEmpty = false := by
      cases hpl : packet.payload with
      | nil => exact absurd hpl hp
      | cons a l => rfl
    simp only [storeRetained, hr, hp1, hq, if_true, Bool.false_eq_true, if_false]
    rw [lookup_appendRetained_self, lookup_hashRemove_self]
    rfl
  · have hp1 : packet.payload.isEmpty = false := by
      cases hpl : packet.payload with
      | nil => exact absurd hpl hp
      | cons a l => rfl
    simp only [storeRetained, hr, hp1, hq, if_true, Bool.false_eq_true, if_false]
    rw [lookup_appendRetained_self]
  · unfold storeRetained
    split_ifs
    · exact lookup_hashRemove_ne store packet.topic topic hne
    · rw [lookup_appendRetained_ne _ _ _ _ hne]
      exact lookup_hashRemove_ne store packet.topic topic hne
    · exact lookup_appendRetained_ne _ _ _ _ hne
    · rfl
  · simp [storeRetained, hr]
theorem QoS.toNat_injective (a b : QoS) (h : a.toNat = b.toNat) : a = b := by
  cases a <;> cases b <;> first | rfl | exact absurd h (by decide)

/-- The function `qMin` yields the smaller of the two levels. -/
theorem qMin_eq (a b : QoS) : qMin a b = if a ≤ b then a else b := by
  unfold qMin
  by_cases h1 : a < b
  · have h2 : a ≤ b := by rw [QoS.lt_iff] at h1; rw [QoS.le_iff]; omega
    rw [if_pos h1, if_pos h2]
  · rw [if_neg h1]
    by_cases h2 : a ≤ b
    · rw [if_pos h2]
      apply QoS.toNat_injective
      rw [QoS.lt_iff] at h1
      rw [QoS.le_iff] at h2
      omega
    · rw [if_neg h2]

/-- The return codes of the SUBACK: one per requested subscription, in request order. -/
theorem subscribeLoop_codes (userValidator : Option MqttUserValidator) (max : QoS)
    (clientId username : QString) (requested : List MqttSubscription) :
    ∀ (subscriptions : List MqttSubscription) (codes : List SubscribeReturnCode)
      (signals : List Signal),
      (subscribeLoop userValidator max clientId username requested subscriptions codes
        signals).2.1 =
        codes ++ requested.map (returnCodeFor userValidator max clientId username) := by
  induction requested with
  | nil => intro subscriptions codes signals; simp [subscribeLoop]
  | cons s rest ih =>
    intro subscriptions codes signals
    simp only [subscribeLoop, List.map_cons, returnCodeFor]
    split_ifs <;> rw [ih] <;> simp

/-- The SUBACK is the first packet written for a SUBSCRIBE; the packets after it are the
replayed retained messages. -/
theorem processPacket_subscribe (userValidator : Option MqttUserValidator) (uuid : QString)
    (d d2 : MqttServerPrivate) (packet : MqttPacket) (client : Nat) (ctx : ClientContext)
    (htype : packet.type = PacketType.TypeSubscribe)
    (hctx : d.clientList.lookup client = some ctx)
    (h : processPacket userValidator uuid d packet client = some d2) :
    ∃ replayed, replayRetained client d.retainedMessages packet.subscriptions = some replayed ∧
      d2.written = d.written ++ (client, subackResponse userValidator d packet ctx) :: replayed := by
  simp only [processPacket, htype, reduceCtorEq, if_false, processPacketConnected, hctx,
    processSubscribe] at h
  cases hr : replayRetained client d.retainedMessages packet.subscriptions with
  | none =>
    simp only [write_retainedMessages, setContext_retainedMessages, emit_retainedMessages,
      hr] at h
    exact Option.noConfusion h
  | some replayed =>
    simp only [write_retainedMessages, setContext_retainedMessages, emit_retainedMessages,
      hr, Option.some.injEq] at h
    subst h
    refine ⟨replayed, rfl, ?_⟩
    simp [subackResponse]

/-- What the replay loops write, when every `matchTopic` call stays in range: for each
requested filter in request order, for each stored topic that it matches, the packets
stored under that topic, in stored order, each with the retain flag set. -/
theorem replayFilter_eq (client : Nat) (topicFilter : QString)
    (store : List (QString × List MqttPacket)) (replayed : List (Nat × MqttPacket))
    (h : replayFilter client topicFilter store = some replayed) :
    replayed = store.flatMap (fun e =>
      if matchTopic topicFilter e.1 = some true then
        e.2.map (fun packet => (client, { packet with retain := true }))
      else []) := by
  induction store generalizing replayed with
  | nil =>
    simp only [replayFilter, Option.some.injEq] at h
    subst h
    rfl
  | cons e rest ih =>
    obtain ⟨topic, packets⟩ := e
    simp only [replayFilter] at h
    cases hm : matchTopic topicFilter topic with
    | none => rw [hm] at h; exact Option.noConfusion h
    | some matched =>
      rw [hm] at h
      simp only at h
      cases hr : replayFilter client topicFilter rest with
      | none => rw [hr] at h; exact Option.noConfusion h
      | some more =>
        rw [hr] at h
        simp only at h
        have := ih more hr
        cases matched with
        | true =>
          simp only [if_true, Option.some.injEq] at h
          subst h
          simp [List.flatMap_cons, hm, ← this]
        | false =>
          simp only [Bool.false_eq_true, if_false, Option.some.injEq] at h
          subst h
          simp [List.flatMap_cons, hm, ← this]

theorem replayRetained_eq (client : Nat) (store : List (QString × List MqttPacket))
    (requested : List MqttSubscription) (replayed : List (Nat × MqttPacket))
    (h : replayRetained client store requested = some replayed) :
    replayed = requested.flatMap (fun s => store.flatMap (fun e =>
      if matchTopic s.topicFilter e.1 = some true then
        e.2.map (fun packet => (client, { packet with retain := true }))
      else [])) := by
  induction requested generalizing replayed with
  | nil =>
    simp only [replayRetained, Option.some.injEq] at h
    subst h
    rfl
  | cons s rest ih =>
    simp only [replayRetained] at h
    cases hf : replayFilter client s.topicFilter store with
    | none => rw [hf] at h; exact Option.noConfusion h
    | some first =>
      rw [hf] at h
      simp only at h
      cases hr : replayRetained client store rest with
      | none => rw [hr] at h; exact Option.noConfusion h
      | some more =>
        rw [hr] at h
        simp only [Option.some.injEq] at h
        subst h
        rw [List.flatMap_cons, ← ih more hr, ← replayFilter_eq client s.topicFilter store first hf]

/-- The replay for one filter completes when `matchTopic` stays in range on every stored
topic. -/
theorem replayFilter_ne_none (client : Nat) (topicFilter : QString)
    (store : List (QString × List MqttPacket))
    (h : ∀ e ∈ store, matchTopic topicFilter e.1 ≠ none) :
    replayFilter client topicFilter store ≠ none := by
  induction store with
  | nil => simp [replayFilter]
  | cons e rest ih =>
    obtain ⟨topic, packets⟩ := e
    have hrest := ih (fun e he => h e (List.mem_cons_of_mem _ he))
    have hm := h (topic, packets) (List.mem_cons_self _ _)
    simp only [replayFilter]
    cases hmt : matchTopic topicFilter topic with
    | none => exact absurd hmt hm
    | some matched =>
      cases hr : replayFilter client topicFilter rest with
      | none => exact absurd hr hrest
      | some more =>
        simp only
        split_ifs <;> simp

/-- The replay of retained messages completes when `matchTopic` stays in range on every
pair of a requested filter and a stored topic. -/
theorem replayRetained_ne_none (client : Nat) (store : List (QString × List MqttPacket))
    (requested : List MqttSubscription)
    (h : ∀ s ∈ requested, ∀ e ∈ store, matchTopic s.topicFilter e.1 ≠ none) :
    replayRetained client store requested ≠ none := by
  induction requested with
  | nil => simp [replayRetained]
  | cons s rest ih =>
    have hrest := ih (fun s1 hs1 => h s1 (List.mem_cons_of_mem _ hs1))
    have hf := replayFilter_ne_none client s.topicFilter store (h s (List.mem_cons_self _ _))
    simp only [replayRetained]
    cases hfr : replayFilter client s.topicFilter store with
    | none => exact absurd hfr hf
    | some first =>
      cases hr : replayRetained client store rest with
      | none => exact absurd hr hrest
      | some more => simp

/-! ## Lemmas on the client table -/

theorem lookup_filter_ne_self {ν : Type} (l : List (Nat × ν)) (k : Nat) :
    (hashRemove l k).lookup k = none := by
  induction l with
  | nil => rfl
  | cons e rest ih =>
    obtain ⟨k1, v1⟩ := e
    by_cases hk : k1 = k
    · have : hashRemove ((k1, v1) :: rest) k = hashRemove rest k := by
        simp [hashRemove, hk]
      rw [this]; exact ih
    · have : hashRemove ((k1, v1) :: rest) k = (k1, v1) :: hashRemove rest k := by
        simp [hashRemove, hk]
      have hne : (k == k1) = false := by simpa using fun h => hk h.symm
      rw [this, List.lookup_cons, hne]; exact ih

theorem lookup_filter_ne_of_ne {ν : Type} (l : List (Nat × ν)) (k k1 : Nat) (hne : k1 ≠ k) :
    (hashRemove l k).lookup k1 = l.lookup k1 := by
  induction l with
  | nil => rfl
  | cons e rest ih =>
    obtain ⟨k2, v2⟩ := e
    by_cases hk : k2 = k
    · have h1 : hashRemove ((k2, v2) :: rest) k = hashRemove rest k := by
        simp [hashRemove, hk]
      have h2 : (k1 == k2) = false := by rw [hk]; simpa using hne
      rw [h1, List.lookup_cons, h2]; exact ih
    · have h1 : hashRemove ((k2, v2) :: rest) k = (k2, v2) :: hashRemove rest k := by
        simp [hashRemove, hk]
      rw [h1, List.lookup_cons, List.lookup_cons, ih]

theorem lookup_eq_none_iff_keys {ν : Type} (l : List (Nat × ν)) (k : Nat) :
    l.lookup k = none ↔ k ∉ l.map Prod.fst := by
  induction l with
  | nil => simp
  | cons e rest ih =>
    obtain ⟨k1, v1⟩ := e
    by_cases hk : k = k1
    · subst hk
      simp [List.lookup_cons]
    · have hne : (k == k1) = false := by simpa using hk
      rw [List.lookup_cons, hne]
      simp only [List.map_cons, List.mem_cons, not_or]
      rw [ih]
      exact ⟨fun h => ⟨hk, h⟩, fun h => h.2⟩

theorem hashRemove_of_not_mem {ν : Type} (l : List (Nat × ν)) (k : Nat)
    (h : k ∉ l.map Prod.fst) : hashRemove l k = l := by
  unfold hashRemove
  rw [List.filter_eq_self]
  intro e he
  have : e.1 ≠ k := by
    rintro rfl
    exact h (List.mem_map_of_mem Prod.fst he)
  simpa using this

theorem hashInsert_of_not_mem {ν : Type} (l : List (Nat × ν)) (k : Nat) (v : ν)
    (h : k ∉ l.map Prod.fst) : hashInsert l k v = l ++ [(k, v)] := by
  unfold hashInsert
  have : l.any (fun e => decide (e.1 = k)) = false := by
    rw [List.any_eq_false]
    intro e he
    have : e.1 ≠ k := by
      rintro rfl
      exact h (List.mem_map_of_mem Prod.fst he)
    simpa using this
  rw [this]
  simp

theorem lookup_append_new {ν : Type} (l : List (Nat × ν)) (k : Nat) (v : ν)
    (h : k ∉ l.map Prod.fst) : (l ++ [(k, v)]).lookup k = some v := by
  induction l with
  | nil => simp [List.lookup_cons]
  | cons e rest ih =>
    obtain ⟨k1, v1⟩ := e
    simp only [List.map_cons, List.mem_cons, not_or] at h
    have hne : (k == k1) = false := by simpa using h.1
    rw [List.cons_append, List.lookup_cons, hne]
    exact ih h.2

theorem lookup_append_old {ν : Type} (l : List (Nat × ν)) (k k1 : Nat) (v : ν)
    (hne : k1 ≠ k) : (l ++ [(k, v)]).lookup k1 = l.lookup k1 := by
  induction l with
  | nil =>
    have : (k1 == k) = false := by simpa using hne
    simp [List.lookup_cons, this]
  | cons e rest ih =>
    obtain ⟨k2, v2⟩ := e
    rw [List.cons_append, List.lookup_cons, List.lookup_cons, ih]

theorem keys_hashRemove {ν : Type} (l : List (Nat × ν)) (k : Nat) :
    (hashRemove l k).map Prod.fst = (l.map Prod.fst).filter (fun x => x ≠ k) := by
  unfold hashRemove
  rw [List.filter_map]
  rfl

/-- The entry of `client` after its context was stored back. -/
theorem lookup_setContext_self (l : List (Nat × ClientContext)) (client : Nat)
    (ctx1 : ClientContext) :
    (l.map (fun e => if e.1 = client then (client, ctx1) else e)).lookup client =
      (l.lookup client).map (fun _ => ctx1) := by
  induction l with
  | nil => rfl
  | cons e rest ih =>
    obtain ⟨k1, v1⟩ := e
    by_cases hk : k1 = client
    · subst hk
      simp [List.lookup_cons]
    · have hne : (client == k1) = false := by simpa using fun h => hk h.symm
      simp only [List.map_cons, hk, if_false, List.lookup_cons, hne]
      exact ih

theorem lookup_setContext_ne (l : List (Nat × ClientContext)) (client k : Nat)
    (ctx1 : ClientContext) (hne : k ≠ client) :
    (l.map (fun e => if e.1 = client then (client, ctx1) else e)).lookup k = l.lookup k := by
  induction l with
  | nil => rfl
  | cons e rest ih =>
    obtain ⟨k1, v1⟩ := e
    by_cases hk : k1 = client
    · have h2 : (k == client) = false := by simpa using hne
      have h3 : (k == k1) = false := by rw [hk]; exact h2
      simp only [List.map_cons, hk, if_true, List.lookup_cons, h2, h3]
      exact ih
    · simp only [List.map_cons, hk, if_false, List.lookup_cons, ih]

theorem idTable_congr {d d1 : MqttServerPrivate} (h : d1.clientList = d.clientList) :
    idTable d1 = idTable d := by
  unfold idTable
  rw [h]

theorem keys_idTable (d : MqttServerPrivate) :
    (idTable d).map Prod.fst = d.clientList.map Prod.fst := by
  unfold idTable
  rw [List.map_map]
  rfl

theorem keys_eq_of_idTable {d d1 : MqttServerPrivate} (h : idTable d1 = idTable d) :
    d1.clientList.map Prod.fst = d.clientList.map Prod.fst := by
  rw [← keys_idTable, ← keys_idTable, h]

/-- Storing back the context of a client with its client id unchanged keeps the sockets and
client ids of the table. -/
theorem idTable_setContext (d : MqttServerPrivate) (client : Nat) (ctx ctx1 : ClientContext)
    (hkeys : (d.clientList.map Prod.fst).Nodup)
    (hctx : d.clientList.lookup client = some ctx) (hid : ctx1.clientId = ctx.clientId) :
    idTable (d.setContext client ctx1) = idTable d := by
  unfold idTable MqttServerPrivate.setContext
  simp only [List.map_map]
  apply List.map_congr_left
  intro e he
  by_cases hk : e.1 = client
  · have : e.2 = ctx :=
      lookup_of_mem d.clientList client e.2 ctx hkeys (by rw [← hk]; exact he) hctx
    simp [hk, hid, this]
  · simp [hk]

theorem newPacketId_clientList (d d1 : MqttServerPrivate) (ctx : ClientContext) (packetId : Nat)
    (h : newPacketId d ctx = some (packetId, d1)) :
    d1 = { d with packetId := packetId } := by
  unfold newPacketId at h
  split at h
  · exact Option.noConfusion h
  · simp only [Option.some.injEq, Prod.mk.injEq] at h
    obtain ⟨rfl, rfl⟩ := h
    rfl

/-- One pass of the second loop of `publish` keeps the sockets and client ids of the table,
the signals emitted, the sockets closed and `maximumSubscriptionQoS`. -/
theorem publishTo_frame (topic payload : QString) (d d1 : MqttServerPrivate)
    (packets packets1 : List (QString × Nat)) (receiver : Nat) (qos : QoS)
    (hkeys : (d.clientList.map Prod.fst).Nodup)
    (h : publishTo topic payload d packets receiver qos = some (d1, packets1)) :
    idTable d1 = idTable d ∧ d1.emitted = d.emitted ∧ d1.closed = d.closed ∧
      d1.maximumSubscriptionQoS = d.maximumSubscriptionQoS := by
  unfold publishTo at h
  split at h
  · exact Option.noConfusion h
  · rename_i ctx hctx
    split at h
    · exact Option.noConfusion h
    · rename_i packetId d0 hid
      have hd0 : d0 = { d with packetId := d0.packetId } := by
        split_ifs at hid with hq
        · have := newPacketId_clientList d d0 ctx packetId hid
          rw [this]
        · simp only [Option.some.injEq, Prod.mk.injEq] at hid
          obtain ⟨-, rfl⟩ := hid
          rfl
      have hcl : d0.clientList = d.clientList := by rw [hd0]
      have hem : d0.emitted = d.emitted := by rw [hd0]
      have hclo : d0.closed = d.closed := by rw [hd0]
      have hmax : d0.maximumSubscriptionQoS = d.maximumSubscriptionQoS := by rw [hd0]
      simp only at h
      split_ifs at h with hq0
      · simp only [Option.some.injEq, Prod.mk.injEq] at h
        obtain ⟨rfl, -⟩ := h
        exact ⟨idTable_congr hcl, hem, hclo, hmax⟩
      · simp only [Option.some.injEq, Prod.mk.injEq] at h
        obtain ⟨rfl, -⟩ := h
        refine ⟨?_, hem, hclo, hmax⟩
        refine (idTable_setContext _ receiver ctx _ ?_ ?_ ?_).trans (idTable_congr hcl)
        · simpa [hcl] using hkeys
        · simpa [hcl] using hctx
        · rfl

theorem publishLoop_frame (topic payload : QString) (rs : List (Nat × QoS)) :
    ∀ (d d1 : MqttServerPrivate) (packets packets1 : List (QString × Nat)),
      (d.clientList.map Prod.fst).Nodup →
      publishLoop topic payload d packets rs = some (d1, packets1) →
      idTable d1 = idTable d ∧ d1.emitted = d.emitted ∧ d1.closed = d.closed ∧
        d1.maximumSubscriptionQoS = d.maximumSubscriptionQoS := by
  induction rs with
  | nil =>
    intro d d1 packets packets1 _ h
    simp only [publishLoop, Option.some.injEq, Prod.mk.injEq] at h
    obtain ⟨rfl, -⟩ := h
    exact ⟨rfl, rfl, rfl, rfl⟩
  | cons rq rest ih =>
    intro d d1 packets packets1 hkeys h
    obtain ⟨receiver, qos⟩ := rq
    simp only [publishLoop] at h
    cases hp : publishTo topic payload d packets receiver qos with
    | none => rw [hp] at h; exact Option.noConfusion h
    | some r =>
      obtain ⟨d0, packets0⟩ := r
      rw [hp] at h
      simp only at h
      obtain ⟨h1, h2, h3, h4⟩ :=
        publishTo_frame topic payload d d0 packets packets0 receiver qos hkeys hp
      have hkeys0 : (d0.clientList.map Prod.fst).Nodup := by
        rw [keys_eq_of_idTable h1]; exact hkeys
      obtain ⟨g1, g2, g3, g4⟩ := ih d0 d1 packets0 packets1 hkeys0 h
      exact ⟨g1.trans h1, g2.trans h2, g3.trans h3, g4.trans h4⟩

/-- The function `publish` keeps the sockets and client ids of the table, the signals
emitted, the sockets closed and `maximumSubscriptionQoS`. -/
theorem publish_frame (d d1 : MqttServerPrivate) (topic payload : QString)
    (packets : List (QString × Nat)) (hkeys : (d.clientList.map Prod.fst).Nodup)
    (h : publish d topic payload = some (d1, packets)) :
    idTable d1 = idTable d ∧ d1.emitted = d.emitted ∧ d1.closed = d.closed ∧
      d1.maximumSubscriptionQoS = d.maximumSubscriptionQoS := by
  unfold publish at h
  cases hc : collectReceivers topic d.clientList with
  | none => rw [hc] at h; exact Option.noConfusion h
  | some rs =>
    rw [hc] at h
    exact publishLoop_frame topic payload rs d d1 [] packets hkeys h
@[simp]
theorem idTable_emit (d : MqttServerPrivate) (s : Signal) : idTable (d.emit s) = idTable d := rfl

@[simp]
theorem idTable_write (d : MqttServerPrivate) (c : Nat) (p : MqttPacket) :
    idTable (d.write c p) = idTable d := rfl

@[simp]
theorem setContext_emit_clientList (d : MqttServerPrivate) (s : Signal) (c : Nat)
    (ctx : ClientContext) :
    ((d.emit s).setContext c ctx).clientList = (d.setContext c ctx).clientList := rfl

/-- The `switch` of the PUBLISH branch keeps the sockets and client ids of the table, the
signals emitted, the sockets closed and the retained messages. -/
theorem ackPublish_frame (d : MqttServerPrivate) (packet : MqttPacket) (client : Nat)
    (ctx : ClientContext) (hkeys : (d.clientList.map Prod.fst).Nodup)
    (hctx : d.clientList.lookup client = some ctx) :
    idTable (ackPublish d packet client ctx).state = idTable d ∧
      (ackPublish d packet client ctx).state.emitted = d.emitted ∧
      (ackPublish d packet client ctx).state.closed = d.closed ∧
      (ackPublish d packet client ctx).state.retainedMessages = d.retainedMessages ∧
      (ackPublish d packet client ctx).state.maximumSubscriptionQoS =
        d.maximumSubscriptionQoS := by
  unfold ackPublish
  cases packet.qos with
  | QoS0 => exact ⟨rfl, rfl, rfl, rfl, rfl⟩
  | QoS1 => exact ⟨rfl, rfl, rfl, rfl, rfl⟩
  | QoS2 =>
    simp only
    split_ifs
    · exact ⟨rfl, rfl, rfl, rfl, rfl⟩
    · exact ⟨rfl, rfl, rfl, rfl, rfl⟩
    · refine ⟨?_, rfl, rfl, rfl, rfl⟩
      simp only [Acked.state, idTable_write]
      exact idTable_setContext d client ctx _ hkeys hctx rfl

/-- The PUBLISH branch keeps the sockets and client ids of the table and the sockets
closed, and emits `publishReceived` once, with the DUP flag of the packet. -/
theorem processPublish_frame (d : MqttServerPrivate) (packet : MqttPacket) (client : Nat)
    (ctx : ClientContext) (r : Handled) (hkeys : (d.clientList.map Prod.fst).Nodup)
    (hctx : d.clientList.lookup client = some ctx)
    (h : processPublish d packet client ctx = some r) :
    idTable r.state = idTable d ∧
      r.state.emitted = d.emitted ++
        [Signal.publishReceived ctx.clientId packet.packetId packet.topic packet.payload
          packet.dup] ∧
      r.state.closed = d.closed ∧
      r.state.maximumSubscriptionQoS = d.maximumSubscriptionQoS := by
  have hf := ackPublish_frame
    (d.emit (Signal.publishReceived ctx.clientId packet.packetId packet.topic packet.payload
      packet.dup)) packet client ctx hkeys hctx
  unfold processPublish at h
  simp only at h
  cases ha : ackPublish
      (d.emit (Signal.publishReceived ctx.clientId packet.packetId packet.topic packet.payload
        packet.dup)) packet client ctx with
  | resent d1 =>
    rw [ha] at h hf
    simp only [Option.some.injEq] at h
    subst h
    exact ⟨hf.1, hf.2.1, hf.2.2.1, hf.2.2.2.2⟩
  | reject d1 =>
    rw [ha] at h hf
    simp only [Option.some.injEq] at h
    subst h
    exact ⟨hf.1, hf.2.1, hf.2.2.1, hf.2.2.2.2⟩
  | proceed d1 =>
    rw [ha] at h hf
    simp only at h
    cases hp : publish { d1 with retainedMessages := storeRetained d1.retainedMessages packet }
        packet.topic packet.payload with
    | none => rw [hp] at h; exact Option.noConfusion h
    | some x =>
      obtain ⟨d2, packets⟩ := x
      rw [hp] at h
      simp only [Option.some.injEq] at h
      subst h
      simp only [Acked.state] at hf
      have hk1 : (d1.clientList.map Prod.fst).Nodup := by
        rw [keys_eq_of_idTable hf.1]; exact hkeys
      obtain ⟨g1, g2, g3, g4⟩ := publish_frame
        { d1 with retainedMessages := storeRetained d1.retainedMessages packet } d2
        packet.topic packet.payload packets hk1 hp
      exact ⟨g1.trans hf.1, g2.trans hf.2.1, g3.trans hf.2.2.1, g4.trans hf.2.2.2.2⟩

/-- The handling of a packet that is not a CONNECT keeps the sockets and client ids of the
table. -/
theorem processPacketConnected_idTable (userValidator : Option MqttUserValidator)
    (d : MqttServerPrivate) (packet : MqttPacket) (client : Nat) (r : Handled)
    (hkeys : (d.clientList.map Prod.fst).Nodup)
    (h : processPacketConnected userValidator d packet client = some r) :
    idTable r.state = idTable d := by
  unfold processPacketConnected at h
  cases hctx : d.clientList.lookup client with
  | none =>
    rw [hctx] at h
    simp only [Option.some.injEq] at h
    subst h
    rfl
  | some ctx =>
    rw [hctx] at h
    simp only at h
    have hset : ∀ (d0 : MqttServerPrivate) (ctx1 : ClientContext),
        d0.clientList = d.clientList → ctx1.clientId = ctx.clientId →
        idTable (d0.setContext client ctx1) = idTable d := by
      intro d0 ctx1 h0 h1
      exact (idTable_setContext d0 client ctx ctx1 (by rw [h0]; exact hkeys)
        (by rw [h0]; exact hctx) h1).trans (idTable_congr h0)
    cases ht : packet.type <;> rw [ht] at h <;> simp only at h
    case TypePublish =>
      exact (processPublish_frame (d.emit (Signal.clientAlive ctx.clientId)) packet client ctx r
        hkeys hctx h).1
    case TypeSubscribe =>
      unfold processSubscribe at h
      simp only at h
      split at h
      · exact Option.noConfusion h
      · simp only [Option.some.injEq] at h
        subst h
        exact hset _ _ rfl rfl
    all_goals
      simp only [Option.some.injEq] at h
      subst h
      first
        | rfl
        | exact hset _ _ rfl rfl
theorem idTable_hashRemove (d : MqttServerPrivate) (client : Nat) :
    (hashRemove d.clientList client).map (fun e => (e.1, e.2.clientId)) =
      hashRemove (idTable d) client := by
  unfold hashRemove idTable
  rw [List.filter_map]
  rfl

/-- For a socket without a session `cleanupClient` only closes the socket. -/
theorem cleanupClient_of_lookup_none (userValidator : Option MqttUserValidator)
    (d : MqttServerPrivate) (client : Nat) (h : d.clientList.lookup client = none) :
    cleanupClient userValidator d client = some { d with closed := d.closed ++ [client] } := by
  unfold cleanupClient
  rw [h]

/-- For a session without a will `cleanupClient` emits `clientDisconnected`, removes the
session from the client table and closes the socket; it writes nothing. -/
theorem cleanupClient_of_no_will (userValidator : Option MqttUserValidator)
    (d : MqttServerPrivate) (client : Nat) (ctx : ClientContext)
    (hctx : d.clientList.lookup client = some ctx) (hwill : ctx.willTopic = []) :
    cleanupClient userValidator d client =
      some { d with
        emitted := d.emitted ++ [Signal.clientDisconnected ctx.clientId],
        clientList := hashRemove d.clientList client, closed := d.closed ++ [client] } := by
  unfold cleanupClient
  rw [hctx]
  simp only [hwill, List.isEmpty_nil, if_true]
  rfl

/-- How `cleanupClient` ends for a session: the will, if there is one, is handled as a
PUBLISH received from the client; then `clientDisconnected` is emitted, the session is
removed from the client table and the socket is closed. -/
theorem cleanupClient_spec (userValidator : Option MqttUserValidator)
    (d d1 : MqttServerPrivate) (client : Nat) (ctx : ClientContext)
    (hctx : d.clientList.lookup client = some ctx)
    (h : cleanupClient userValidator d client = some d1) :
    ∃ d3 : MqttServerPrivate,
      d1 = { d3 with
        emitted := d3.emitted ++ [Signal.clientDisconnected ctx.clientId],
        clientList := hashRemove d3.clientList client, closed := d3.closed ++ [client] } ∧
      (ctx.willTopic = [] → d3 = d) ∧
      (ctx.willTopic ≠ [] → ∃ (packetId : Nat) (d0 : MqttServerPrivate),
        (if QoS.QoS1 ≤ ctx.willQoS then newPacketId d ctx else some (0, d)) =
          some (packetId, d0) ∧
        processPacketConnected userValidator d0 (willPacketOf ctx packetId) client =
          some (Handled.done d3)) := by
  unfold cleanupClient at h
  rw [hctx] at h
  simp only at h
  by_cases hw : ctx.willTopic = []
  · simp only [hw, List.isEmpty_nil, if_true, Option.some.injEq] at h
    exact ⟨d, h.symm, fun _ => rfl, fun hne => absurd hw hne⟩
  · have hemp : ctx.willTopic.isEmpty = false := by
      cases hwt : ctx.willTopic with
      | nil => exact absurd hwt hw
      | cons a l => rfl
    simp only [hemp, Bool.false_eq_true, if_false] at h
    cases hid : (if QoS.QoS1 ≤ ctx.willQoS then newPacketId d ctx else some (0, d)) with
    | none => rw [hid] at h; exact Option.noConfusion h
    | some x =>
      obtain ⟨packetId, d0⟩ := x
      rw [hid] at h
      simp only at h
      cases hp : processPacketConnected userValidator d0
          { MqttPacket.new PacketType.TypePublish packetId ctx.willQoS ctx.willRetain false with
            topic := ctx.willTopic, payload := ctx.willMessage } client with
      | none => rw [hp] at h; exact Option.noConfusion h
      | some r =>
        rw [hp] at h
        cases r with
        | dropClient d3 => exact Option.noConfusion h
        | done d3 =>
          simp only [Option.some.injEq] at h
          exact ⟨d3, h.symm, fun he => absurd he hw, fun _ => ⟨packetId, d0, rfl, hp⟩⟩

/-- After `cleanupClient` the table holds the sockets and client ids it held before, without
the socket cleaned up. -/
theorem cleanupClient_idTable (userValidator : Option MqttUserValidator)
    (d d1 : MqttServerPrivate) (client : Nat) (hkeys : (d.clientList.map Prod.fst).Nodup)
    (h : cleanupClient userValidator d client = some d1) :
    idTable d1 = hashRemove (idTable d) client := by
  cases hctx : d.clientList.lookup client with
  | none =>
    rw [cleanupClient_of_lookup_none userValidator d client hctx] at h
    simp only [Option.some.injEq] at h
    subst h
    have hnot : client ∉ (idTable d).map Prod.fst := by
      rw [keys_idTable]
      exact (lookup_eq_none_iff_keys d.clientList client).1 hctx
    rw [hashRemove_of_not_mem _ _ hnot]
    rfl
  | some ctx =>
    obtain ⟨d3, hd1, h1, h2⟩ := cleanupClient_spec userValidator d d1 client ctx hctx h
    have hid3 : idTable d3 = idTable d := by
      by_cases hw : ctx.willTopic = []
      · rw [h1 hw]
      · obtain ⟨packetId, d0, hid, hp⟩ := h2 hw
        have hd0 : d0.clientList = d.clientList := by
          split_ifs at hid with hq
          · rw [newPacketId_clientList d d0 ctx packetId hid]
          · simp only [Option.some.injEq, Prod.mk.injEq] at hid
            rw [← hid.2]
        have := processPacketConnected_idTable userValidator d0 _ client _
          (by rw [hd0]; exact hkeys) hp
        exact this.trans (idTable_congr hd0)
    rw [hd1, ← hid3]
    exact idTable_hashRemove d3 client
theorem connectContext_clientId (packet : MqttPacket) (ctx0 : ClientContext) :
    (connectContext packet ctx0).clientId = ctx0.clientId := by
  unfold connectContext
  simp only
  split_ifs <;> rfl

theorem connectContext_inflight (packet : MqttPacket) (ctx0 : ClientContext) :
    (connectContext packet ctx0).subscriptions = ctx0.subscriptions ∧
      (connectContext packet ctx0).unackedPackets = ctx0.unackedPackets ∧
      (connectContext packet ctx0).unackedPacketList = ctx0.unackedPacketList := by
  unfold connectContext
  simp only
  split_ifs <;> exact ⟨rfl, rfl, rfl⟩

/-- The state in which the CONNECT branch ends, from the state `d1` left by the session
lookup, the context `ctx0` it starts with and the CONNACK `response1`. -/
theorem acceptConnect_spec (userValidator : Option MqttUserValidator)
    (d d2 : MqttServerPrivate) (packet : MqttPacket) (client : Nat) (clientId : QString)
    (response : MqttPacket)
    (h : acceptConnect userValidator d packet client clientId response = some d2) :
    ∃ (d1 : MqttServerPrivate) (ctx0 : ClientContext) (response1 : MqttPacket),
      d2 = { d1 with
        clientList := hashInsert d1.clientList client (connectContext packet ctx0),
        written := d1.written ++
          [(client, { response1 with
            connectReturnCode := ConnectReturnCode.ConnectReturnCodeAccepted })] ++
          resendUnacked client (connectContext packet ctx0),
        emitted := d1.emitted ++
          [Signal.clientConnected (connectContext packet ctx0).clientId
            (connectContext packet ctx0).username] } ∧
      ((d.clientList.find? (fun e => clientId = e.2.clientId) = none ∧ d1 = d ∧
          ctx0 = ClientContext.new clientId ∧ response1 = response) ∨
        (∃ existingClient existingCtx,
          d.clientList.find? (fun e => clientId = e.2.clientId) =
            some (existingClient, existingCtx) ∧
          ((packet.connectFlags.ConnectFlagCleanSession = false ∧
              d1 = { d with
                clientList := hashRemove d.clientList existingClient,
                closed := d.closed ++ [existingClient] } ∧
              ctx0 = existingCtx ∧ response1 = { response with connackFlags := true }) ∨
            (packet.connectFlags.ConnectFlagCleanSession = true ∧
              cleanupClient userValidator d existingClient = some d1 ∧
              ctx0 = ClientContext.new clientId ∧ response1 = response)))) := by
  unfold acceptConnect at h
  cases hf : d.clientList.find? (fun e => clientId = e.2.clientId) with
  | none =>
    rw [hf] at h
    simp only [Option.some.injEq] at h
    exact ⟨d, ClientContext.new clientId, response, h.symm, Or.inl ⟨rfl, rfl, rfl, rfl⟩⟩
  | some x =>
    obtain ⟨existingClient, existingCtx⟩ := x
    rw [hf] at h
    simp only at h
    cases hclean : packet.connectFlags.ConnectFlagCleanSession with
    | false =>
      simp only [hclean, Bool.not_false, if_true, Option.some.injEq] at h
      exact ⟨_, existingCtx, _, h.symm,
        Or.inr ⟨existingClient, existingCtx, rfl, Or.inl ⟨rfl, rfl, rfl, rfl⟩⟩⟩
    | true =>
      simp only [hclean, Bool.not_true, Bool.false_eq_true, if_false] at h
      cases hc : cleanupClient userValidator d existingClient with
      | none => rw [hc] at h; exact Option.noConfusion h
      | some d1 =>
        rw [hc] at h
        simp only [Option.some.injEq] at h
        exact ⟨d1, ClientContext.new clientId, response, h.symm,
          Or.inr ⟨existingClient, existingCtx, rfl, Or.inr ⟨rfl, hc, rfl, rfl⟩⟩⟩

/-- A CONNECT on a transport without a session, with protocol level 4, a client id or the
clean-session flag, and accepted by the authenticator, reaches the session lookup. -/
theorem processPacket_connect_accept (userValidator : Option MqttUserValidator)
    (uuid : QString) (d : MqttServerPrivate) (packet : MqttPacket) (client : Nat)
    (htype : packet.type = PacketType.TypeConnect)
    (hnew : d.clientList.lookup client = none)
    (hlevel : packet.protocolLevel = Protocol311)
    (hid : packet.clientId = [] → packet.cleanSession = true)
    (hval : ValidatorAccepts userValidator uuid packet client) :
    processPacket userValidator uuid d packet client =
      acceptConnect userValidator d packet client (connectClientId uuid packet)
        (connackOf packet) := by
  have h2 : (packet.clientId.isEmpty && !packet.cleanSession) = false := by
    cases hc : packet.clientId with
    | nil => simp [hid hc]
    | cons a l => simp
  unfold processPacket processConnect
  simp only [htype, if_true, hnew, Option.isSome_none, Bool.false_eq_true, if_false, hlevel,
    ne_eq, not_true_eq_false, h2]
  cases userValidator with
  | none => simp [connectClientId, connackOf]
  | some v =>
    have hv := hval v rfl
    simp [connectClientId] at hv
    simp [connectClientId, connackOf, hv]
theorem forall2_mem_right {α β : Type} {R : α → β → Prop} :
    ∀ {l1 : List α} {l2 : List β}, List.Forall₂ R l1 l2 → ∀ b ∈ l2, ∃ a ∈ l1, R a b
  | _, _, List.Forall₂.nil, b, hb => absurd hb (List.not_mem_nil b)
  | _, _, List.Forall₂.cons h t, b, hb => by
    rcases List.mem_cons.1 hb with rfl | hb
    · exact ⟨_, List.mem_cons_self _ _, h⟩
    · obtain ⟨a, ha, hr⟩ := forall2_mem_right t b hb
      exact ⟨a, List.mem_cons_of_mem _ ha, hr⟩

/-- The acknowledgement written by the `switch` of the PUBLISH branch when it ends in
`break`: nothing, a PUBACK or a PUBREC, to the sender. -/
theorem ackPublish_proceed_acks (d d1 : MqttServerPrivate) (packet : MqttPacket) (client : Nat)
    (ctx : ClientContext) (h : ackPublish d packet client ctx = Acked.proceed d1) :
    (packet.qos = QoS.QoS2 → packet.packetId ∉ ctx.unackedPacketList) ∧
    ∃ acks : List (Nat × MqttPacket), d1.written = d.written ++ acks ∧
      ∀ w ∈ acks, w.1 = client ∧
        (w.2.type = PacketType.TypePuback ∨ w.2.type = PacketType.TypePubrec) := by
  unfold ackPublish at h
  cases hq : packet.qos with
  | QoS0 =>
    rw [hq] at h
    simp only [Acked.proceed.injEq] at h
    subst h
    exact ⟨fun h => absurd h (by simp), [], by simp, fun w hw => absurd hw (List.not_mem_nil w)⟩
  | QoS1 =>
    rw [hq] at h
    simp only [Acked.proceed.injEq] at h
    subst h
    refine ⟨fun h => absurd h (by simp), [(client, MqttPacket.new PacketType.TypePuback
      packet.packetId QoS.QoS0 false false)], rfl, fun w hw => ?_⟩
    rw [List.mem_singleton] at hw
    subst hw
    exact ⟨rfl, Or.inl rfl⟩
  | QoS2 =>
    rw [hq] at h
    simp only at h
    split_ifs at h with h1 h2
    simp only [Acked.proceed.injEq] at h
    subst h
    refine ⟨fun _ => by simpa using h2, [(client, MqttPacket.new PacketType.TypePubrec
      packet.packetId QoS.QoS0 false false)], rfl, fun w hw => ?_⟩
    rw [List.mem_singleton] at hw
    subst hw
    exact ⟨rfl, Or.inr rfl⟩

/-- What the handling of an accepted PUBLISH does to the whole state: at most an
acknowledgement to the sender, then one copy for each session with a matching
subscription, at the highest QoS among its matching subscriptions; the retained store is
the one left by the retain block; the table keeps its sockets and client ids; the signals
emitted are `clientAlive` and `publishReceived`; no socket is closed. -/
theorem processPacket_publish_routes (userValidator : Option MqttUserValidator)
    (uuid : QString) (d d2 : MqttServerPrivate) (packet : MqttPacket) (client : Nat)
    (ctx : ClientContext)
    (hkeys : (d.clientList.map Prod.fst).Nodup)
    (htype : packet.type = PacketType.TypePublish)
    (hctx : d.clientList.lookup client = some ctx)
    (hfresh : packet.qos = QoS.QoS2 → packet.packetId ∉ ctx.unackedPacketList)
    (h : processPacket userValidator uuid d packet client = some d2) :
    ∃ acks copies : List (Nat × MqttPacket),
      d2.written = d.written ++ acks ++ copies ∧
      (∀ w ∈ acks, w.1 = client ∧
        (w.2.type = PacketType.TypePuback ∨ w.2.type = PacketType.TypePubrec)) ∧
      (∀ w ∈ copies, IsCopy packet.topic packet.payload w w.1 w.2.qos ∧
        ∃ rctx, (w.1, rctx) ∈ d.clientList ∧
          IsBestQoS packet.topic rctx.subscriptions w.2.qos) ∧
      (∀ e ∈ d.clientList, hasMatch packet.topic e.2 = true → ∃ w ∈ copies, w.1 = e.1) ∧
      d2.retainedMessages = storeRetained d.retainedMessages packet ∧
      idTable d2 = idTable d ∧
      d2.emitted = d.emitted ++ [Signal.clientAlive ctx.clientId,
        Signal.publishReceived ctx.clientId packet.packetId packet.topic packet.payload
          packet.dup] ∧
      d2.closed = d.closed := by
  obtain ⟨d1, acks0, hack, hw0, -, hrm, hcl⟩ :=
    ackPublish_proceed ((d.emit (Signal.clientAlive ctx.clientId)).emit
      (Signal.publishReceived ctx.clientId packet.packetId packet.topic packet.payload
        packet.dup)) packet client ctx hfresh
  obtain ⟨-, acks, hw, hacks⟩ := ackPublish_proceed_acks _ d1 packet client ctx hack
  simp only [emit_clientList, emit_written, emit_retainedMessages] at hcl hw hrm
  have hframe := ackPublish_frame ((d.emit (Signal.clientAlive ctx.clientId)).emit
      (Signal.publishReceived ctx.clientId packet.packetId packet.topic packet.payload
        packet.dup)) packet client ctx hkeys hctx
  rw [hack] at hframe
  simp only [Acked.state] at hframe
  simp only [processPacket, htype, reduceCtorEq, if_false, processPacketConnected, hctx,
    processPublish, hack] at h
  cases hp : publish { d1 with retainedMessages := storeRetained d1.retainedMessages packet }
      packet.topic packet.payload with
  | none => rw [hp] at h; exact Option.noConfusion h
  | some r =>
    obtain ⟨d3, packets⟩ := r
    rw [hp] at h
    simp only [Option.some.injEq] at h
    subst h
    obtain ⟨copies, hw2, hall, hrm2⟩ :=
      publish_written { d1 with retainedMessages := storeRetained d1.retainedMessages packet }
        d3 packet.topic packet.payload packets hp
    have hk1 : (d1.clientList.map Prod.fst).Nodup := by
      rw [keys_eq_of_idTable hframe.1]; exact hkeys
    obtain ⟨g1, g2, g3, -⟩ := publish_frame
      { d1 with retainedMessages := storeRetained d1.retainedMessages packet } d3
      packet.topic packet.payload packets hk1 hp
    have hrel : ∀ e ∈ d.clientList, ∃ e1 ∈ d1.clientList, e1.1 = e.1 ∧
        e1.2.subscriptions = e.2.subscriptions := by
      intro e he
      rcases hcl with hcl | ⟨ctx1, hsubs, hcl⟩
      · exact ⟨e, by rw [hcl]; exact he, rfl, rfl⟩
      · by_cases hk : e.1 = client
        · have hctx0 : e.2 = ctx :=
            lookup_of_mem d.clientList client e.2 ctx hkeys (by rw [← hk]; exact he) hctx
          refine ⟨(client, ctx1), ?_, hk.symm, by rw [hctx0]; exact hsubs⟩
          rw [hcl]
          exact List.mem_map.2 ⟨e, he, by simp [hk]⟩
        · refine ⟨e, ?_, rfl, rfl⟩
          rw [hcl]
          exact List.mem_map.2 ⟨e, he, by simp [hk]⟩
    have hrel2 : ∀ e1 ∈ d1.clientList, ∃ e ∈ d.clientList, e1.1 = e.1 ∧
        e1.2.subscriptions = e.2.subscriptions := by
      intro e1 he1
      rcases hcl with hcl | ⟨ctx1, hsubs, hcl⟩
      · exact ⟨e1, by rw [← hcl]; exact he1, rfl, rfl⟩
      · rw [hcl] at he1
        obtain ⟨e, he, hfe⟩ := List.mem_map.1 he1
        by_cases hk : e.1 = client
        · rw [if_pos hk] at hfe
          have hctx0 : e.2 = ctx :=
            lookup_of_mem d.clientList client e.2 ctx hkeys (by rw [← hk]; exact he) hctx
          exact ⟨e, he, by rw [← hfe]; exact hk.symm, by rw [← hfe, hctx0]; exact hsubs⟩
        · rw [if_neg hk] at hfe
          exact ⟨e, he, by rw [hfe], by rw [hfe]⟩
    refine ⟨acks, copies, ?_, hacks, fun w hwm => ?_, fun e he hm => ?_, ?_, ?_, ?_, ?_⟩
    · rw [hw2]
      show d1.written ++ copies = d.written ++ acks ++ copies
      rw [hw]
    · obtain ⟨e1, he1, ⟨⟨h1, h2, h3, h4, h5, h6, h7⟩, hbest⟩⟩ := forall2_mem_left hall w hwm
      have he1m : e1 ∈ d1.clientList := (List.mem_filter.1 he1).1
      obtain ⟨e, he, hk, hs⟩ := hrel2 e1 he1m
      refine ⟨⟨rfl, h2, rfl, h4, h5, h6, h7⟩, e.2, ?_, ?_⟩
      · rw [h1, hk]; exact he
      · rw [← hs]; exact hbest
    · obtain ⟨e1, he1, hk, hs⟩ := hrel e he
      have hm1 : hasMatch packet.topic e1.2 = true := by
        unfold hasMatch at hm ⊢
        rw [hs]; exact hm
      have : e1 ∈ List.filter (fun e => hasMatch packet.topic e.2) d1.clientList :=
        List.mem_filter.2 ⟨he1, hm1⟩
      obtain ⟨w, hwm, ⟨⟨h1, -⟩, -⟩⟩ := forall2_mem_right hall e1 this
      exact ⟨w, hwm, h1.trans hk⟩
    · rw [hrm2]
      show storeRetained d1.retainedMessages packet = storeRetained d.retainedMessages packet
      rw [hrm]
    · exact g1.trans hframe.1
    · rw [g2]
      show d1.emitted = _
      rw [hframe.2.1]
      simp [MqttServerPrivate.emit]
    · rw [g3]
      show d1.closed = _
      rw [hframe.2.2.1]
      rfl
/-- A PUBLISH without DUP whose handling ends in a plain `return` did not reuse a packet id
of the in-flight list. -/
theorem processPacketConnected_done_fresh (userValidator : Option MqttUserValidator)
    (d0 d3 : MqttServerPrivate) (packet : MqttPacket) (client : Nat) (ctx : ClientContext)
    (htype : packet.type = PacketType.TypePublish) (hdup : packet.dup = false)
    (hctx : d0.clientList.lookup client = some ctx)
    (hp : processPacketConnected userValidator d0 packet client = some (Handled.done d3)) :
    packet.qos = QoS.QoS2 → packet.packetId ∉ ctx.unackedPacketList := by
  intro hq hmem
  have hc : ctx.unackedPacketList.contains packet.packetId = true := by simpa using hmem
  simp [processPacketConnected, hctx, htype, processPublish, ackPublish, hq, hdup, hc, hmem] at hp

/-- What `cleanupClient` does for a session with a will: the will is routed as a PUBLISH
received from the client (acknowledged to the closing socket when its QoS is not 0, copied
to every session with a matching subscription, stored by the retain block), then the
session is removed. -/
theorem cleanupClient_will (userValidator : Option MqttUserValidator)
    (d d1 : MqttServerPrivate) (client : Nat) (ctx : ClientContext)
    (hkeys : (d.clientList.map Prod.fst).Nodup)
    (hctx : d.clientList.lookup client = some ctx) (hwill : ctx.willTopic ≠ [])
    (h : cleanupClient userValidator d client = some d1) :
    ∃ (packetId : Nat) (acks copies : List (Nat × MqttPacket)),
      d1.written = d.written ++ acks ++ copies ∧
      (∀ w ∈ acks, w.1 = client ∧
        (w.2.type = PacketType.TypePuback ∨ w.2.type = PacketType.TypePubrec)) ∧
      (∀ w ∈ copies, IsCopy ctx.willTopic ctx.willMessage w w.1 w.2.qos ∧
        ∃ rctx, (w.1, rctx) ∈ d.clientList ∧
          IsBestQoS ctx.willTopic rctx.subscriptions w.2.qos) ∧
      (∀ e ∈ d.clientList, hasMatch ctx.willTopic e.2 = true → ∃ w ∈ copies, w.1 = e.1) ∧
      d1.retainedMessages = storeRetained d.retainedMessages (willPacketOf ctx packetId) ∧
      idTable d1 = hashRemove (idTable d) client ∧
      d1.emitted = d.emitted ++ [Signal.clientAlive ctx.clientId,
        Signal.publishReceived ctx.clientId packetId ctx.willTopic ctx.willMessage false,
        Signal.clientDisconnected ctx.clientId] ∧
      d1.closed = d.closed ++ [client] := by
  obtain ⟨d3, hd1, -, h2⟩ := cleanupClient_spec userValidator d d1 client ctx hctx h
  obtain ⟨packetId, d0, hid, hp⟩ := h2 hwill
  have hd0 : d0 = { d with packetId := d0.packetId } := by
    split_ifs at hid with hq
    · have := newPacketId_clientList d d0 ctx packetId hid
      rw [this]
    · simp only [Option.some.injEq, Prod.mk.injEq] at hid
      rw [← hid.2]
  have hcl0 : d0.clientList = d.clientList := by rw [hd0]
  have hw0 : d0.written = d.written := by rw [hd0]
  have hrm0 : d0.retainedMessages = d.retainedMessages := by rw [hd0]
  have hem0 : d0.emitted = d.emitted := by rw [hd0]
  have hclo0 : d0.closed = d.closed := by rw [hd0]
  have hctx0 : d0.clientList.lookup client = some ctx := by rw [hcl0]; exact hctx
  have hkeys0 : (d0.clientList.map Prod.fst).Nodup := by rw [hcl0]; exact hkeys
  have hfresh := processPacketConnected_done_fresh userValidator d0 d3 (willPacketOf ctx packetId)
    client ctx rfl rfl hctx0 hp
  have hpp : processPacket userValidator [] d0 (willPacketOf ctx packetId) client = some d3 := by
    unfold processPacket
    have : (willPacketOf ctx packetId).type ≠ PacketType.TypeConnect := by
      simp [willPacketOf, MqttPacket.new]
    rw [if_neg this, hp]
  obtain ⟨acks, copies, g1, g2, g3, g4, g5, g6, g7, g8⟩ :=
    processPacket_publish_routes userValidator [] d0 d3 (willPacketOf ctx packetId) client ctx
      hkeys0 rfl hctx0 hfresh hpp
  refine ⟨packetId, acks, copies, ?_, g2, ?_, ?_, ?_, ?_, ?_, ?_⟩
  · rw [hd1]
    show d3.written = _
    rw [g1, hw0]
  · intro w hw
    obtain ⟨a, rctx, b, c⟩ := g3 w hw
    exact ⟨a, rctx, by rw [← hcl0]; exact b, c⟩
  · intro e he hm
    exact g4 e (by rw [hcl0]; exact he) hm
  · rw [hd1]
    show d3.retainedMessages = _
    rw [g5, hrm0]
  · rw [hd1]
    show (hashRemove d3.clientList client).map (fun e => (e.1, e.2.clientId)) = _
    rw [idTable_hashRemove, g6]
    exact congrArg (fun t => hashRemove t client) (idTable_congr hcl0)
  · rw [hd1]
    show d3.emitted ++ [Signal.clientDisconnected ctx.clientId] = _
    rw [g7, hem0]
    simp [willPacketOf, MqttPacket.new]
  · rw [hd1]
    show d3.closed ++ [client] = _
    rw [g8, hclo0]

/-- The packets that `cleanupClient` writes: none for a socket without a session or a
session without a will; otherwise acknowledgements to the closing socket and PUBLISH
copies to sockets of the client table. -/
theorem cleanupClient_written (userValidator : Option MqttUserValidator)
    (d d1 : MqttServerPrivate) (client : Nat) (hkeys : (d.clientList.map Prod.fst).Nodup)
    (h : cleanupClient userValidator d client = some d1) :
    ∃ pre : List (Nat × MqttPacket), d1.written = d.written ++ pre ∧
      ∀ w ∈ pre, w.1 ∈ d.clientList.map Prod.fst ∧
        (w.2.type = PacketType.TypePublish ∨ w.2.type = PacketType.TypePuback ∨
          w.2.type = PacketType.TypePubrec) := by
  cases hctx : d.clientList.lookup client with
  | none =>
    rw [cleanupClient_of_lookup_none userValidator d client hctx] at h
    simp only [Option.some.injEq] at h
    subst h
    exact ⟨[], by simp, fun w hw => absurd hw (List.not_mem_nil w)⟩
  | some ctx =>
    by_cases hw : ctx.willTopic = []
    · rw [cleanupClient_of_no_will userValidator d client ctx hctx hw] at h
      simp only [Option.some.injEq] at h
      subst h
      exact ⟨[], by simp, fun w hw => absurd hw (List.not_mem_nil w)⟩
    · obtain ⟨packetId, acks, copies, g1, g2, g3, -⟩ :=
        cleanupClient_will userValidator d d1 client ctx hkeys hctx hw h
      have hclient : client ∈ d.clientList.map Prod.fst := by
        by_contra hc
        rw [(lookup_eq_none_iff_keys d.clientList client).2 hc] at hctx
        exact Option.noConfusion hctx
      refine ⟨acks ++ copies, by rw [g1, List.append_assoc], fun w hwm => ?_⟩
      rcases List.mem_append.1 hwm with hwm | hwm
      · obtain ⟨a, b⟩ := g2 w hwm
        exact ⟨by rw [a]; exact hclient, Or.inr b⟩
      · obtain ⟨⟨-, b, -⟩, rctx, c, -⟩ := g3 w hwm
        exact ⟨List.mem_map.2 ⟨(w.1, rctx), c, rfl⟩, Or.inl b⟩

/-- A CONNECT that is refused is answered by the CONNACK with the return code and changes
nothing but the logs of packets written and sockets closed. -/
theorem processPacket_connect_reject (userValidator : Option MqttUserValidator)
    (uuid : QString) (d : MqttServerPrivate) (packet : MqttPacket) (client : Nat)
    (htype : packet.type = PacketType.TypeConnect)
    (hnew : d.clientList.lookup client = none) :
    (packet.protocolLevel ≠ Protocol311 →
      processPacket userValidator uuid d packet client =
        some (rejectedConnect d packet client
          ConnectReturnCode.ConnectReturnCodeUnacceptableProtocolVersion)) ∧
    (packet.protocolLevel = Protocol311 → packet.clientId = [] →
        packet.cleanSession = false →
      processPacket userValidator uuid d packet client =
        some (rejectedConnect d packet client
          ConnectReturnCode.ConnectReturnCodeIdentifierRejected)) ∧
    (packet.protocolLevel = Protocol311 → (packet.clientId = [] → packet.cleanSession = true) →
      ∀ v, userValidator = some v →
        v.validateConnect (connectClientId uuid packet)
          (if packet.connectFlags.ConnectFlagUsername then packet.username else [])
          (if packet.connectFlags.ConnectFlagPassword then packet.password else [])
          client ≠ ConnectReturnCode.ConnectReturnCodeAccepted →
      processPacket userValidator uuid d packet client =
        some (rejectedConnect d packet client
          (v.validateConnect (connectClientId uuid packet)
            (if packet.connectFlags.ConnectFlagUsername then packet.username else [])
            (if packet.connectFlags.ConnectFlagPassword then packet.password else [])
            client))) := by
  have hclean : ∀ (p : MqttPacket),
      cleanupClient userValidator (d.write client p) client =
        some { d with written := d.written ++ [(client, p)], closed := d.closed ++ [client] } :=
    fun p => cleanupClient_of_lookup_none userValidator (d.write client p) client hnew
  refine ⟨fun hlevel => ?_, fun hlevel hid hcs => ?_, fun hlevel hid v hv hcode => ?_⟩
  · unfold processPacket processConnect
    simp only [htype, if_true, hnew, Option.isSome_none, Bool.false_eq_true, if_false,
      ne_eq, hlevel, not_false_eq_true]
    exact hclean _
  · unfold processPacket processConnect
    simp only [htype, if_true, hnew, Option.isSome_none, Bool.false_eq_true, if_false,
      ne_eq, hlevel, not_true_eq_false, hid, List.isEmpty_nil, hcs, Bool.not_false,
      Bool.and_self]
    exact hclean _
  · have h2 : (packet.clientId.isEmpty && !packet.cleanSession) = false := by
      cases hc : packet.clientId with
      | nil => simp [hid hc]
      | cons a l => simp
    subst hv
    unfold processPacket processConnect
    simp only [htype, if_true, hnew, Option.isSome_none, Bool.false_eq_true, if_false, hlevel,
      ne_eq, not_true_eq_false, h2]
    simp only [connectClientId] at hcode ⊢
    rw [if_pos hcode]
    exact hclean _
theorem not_mem_keys_hashRemove (t : List (Nat × QString)) (k client : Nat)
    (h : client ∉ t.map Prod.fst) : client ∉ (hashRemove t k).map Prod.fst := by
  rw [keys_hashRemove]
  intro hc
  exact h (List.mem_filter.1 hc).1

/-- The state `d1` that the session lookup of the CONNECT branch leaves: the table without
the socket that held the client id, if there was one; the packets written meanwhile are
those of the will of a dropped session. -/
theorem acceptConnect_lookup (userValidator : Option MqttUserValidator)
    (d d2 : MqttServerPrivate) (packet : MqttPacket) (client : Nat) (clientId : QString)
    (response : MqttPacket) (hkeys : (d.clientList.map Prod.fst).Nodup)
    (h : acceptConnect userValidator d packet client clientId response = some d2) :
    ∃ (d1 : MqttServerPrivate) (ctx0 : ClientContext) (response1 : MqttPacket),
      d2 = { d1 with
        clientList := hashInsert d1.clientList client (connectContext packet ctx0),
        written := d1.written ++
          [(client, { response1 with
            connectReturnCode := ConnectReturnCode.ConnectReturnCodeAccepted })] ++
          resendUnacked client (connectContext packet ctx0),
        emitted := d1.emitted ++
          [Signal.clientConnected (connectContext packet ctx0).clientId
            (connectContext packet ctx0).username] } ∧
      ctx0.clientId = clientId ∧
      response1.type = response.type ∧
      ((d.clientList.find? (fun e => clientId = e.2.clientId) = none ∧ idTable d1 = idTable d) ∨
        ∃ existingClient existingCtx,
          d.clientList.find? (fun e => clientId = e.2.clientId) =
            some (existingClient, existingCtx) ∧
          idTable d1 = hashRemove (idTable d) existingClient) ∧
      ∃ pre : List (Nat × MqttPacket), d1.written = d.written ++ pre ∧
        ∀ w ∈ pre, w.1 ∈ d.clientList.map Prod.fst ∧
          (w.2.type = PacketType.TypePublish ∨ w.2.type = PacketType.TypePuback ∨
            w.2.type = PacketType.TypePubrec) := by
  obtain ⟨d1, ctx0, response1, hd2, hcases⟩ :=
    acceptConnect_spec userValidator d d2 packet client clientId response h
  refine ⟨d1, ctx0, response1, hd2, ?_⟩
  rcases hcases with ⟨hf, rfl, rfl, rfl⟩ | ⟨ec, ectx, hf, hc⟩
  · exact ⟨rfl, rfl, Or.inl ⟨hf, rfl⟩, [], by simp,
      fun w hw => absurd hw (List.not_mem_nil w)⟩
  · have hid : ectx.clientId = clientId := by
      have := List.find?_some hf
      simp at this
      exact this.symm
    rcases hc with ⟨-, rfl, rfl, rfl⟩ | ⟨-, hcl, rfl, rfl⟩
    · refine ⟨hid, rfl, Or.inr ⟨ec, _, hf, ?_⟩, [], by simp,
        fun w hw => absurd hw (List.not_mem_nil w)⟩
      exact idTable_hashRemove d ec
    · exact ⟨rfl, rfl,
        Or.inr ⟨ec, ectx, hf, cleanupClient_idTable userValidator d d1 ec hkeys hcl⟩,
        cleanupClient_written userValidator d d1 ec hkeys hcl⟩

/-- What an accepted CONNECT writes: the packets of the will of a dropped session, if
any, none of them to the new transport; then the CONNACK with return code Accepted; then
the stored in-flight packets of the session with DUP set. The session is stored under the
new transport. -/
theorem processPacket_connect_written (userValidator : Option MqttUserValidator)
    (uuid : QString) (d d2 : MqttServerPrivate) (packet : MqttPacket) (client : Nat)
    (hkeys : (d.clientList.map Prod.fst).Nodup)
    (htype : packet.type = PacketType.TypeConnect)
    (hnew : d.clientList.lookup client = none)
    (hlevel : packet.protocolLevel = Protocol311)
    (hid : packet.clientId = [] → packet.cleanSession = true)
    (hval : ValidatorAccepts userValidator uuid packet client)
    (h : processPacket userValidator uuid d packet client = some d2) :
    ∃ (pre : List (Nat × MqttPacket)) (connack : MqttPacket) (ctx1 : ClientContext),
      d2.written = d.written ++ pre ++ [(client, connack)] ++ resendUnacked client ctx1 ∧
      connack.type = PacketType.TypeConnack ∧
      connack.connectReturnCode = ConnectReturnCode.ConnectReturnCodeAccepted ∧
      (∀ w ∈ pre, w.1 ≠ client ∧ w.2.type ≠ PacketType.TypeConnack) ∧
      d2.clientList.lookup client = some ctx1 := by
  rw [processPacket_connect_accept userValidator uuid d packet client htype hnew hlevel hid
    hval] at h
  obtain ⟨d1, ctx0, response1, hd2, -, hrt, hcase, pre, hpre, hprop⟩ :=
    acceptConnect_lookup userValidator d d2 packet client _ _ hkeys h
  have hnotd : client ∉ d.clientList.map Prod.fst :=
    (lookup_eq_none_iff_keys d.clientList client).1 hnew
  have hnot1 : client ∉ d1.clientList.map Prod.fst := by
    rw [← keys_idTable]
    rcases hcase with ⟨-, hi⟩ | ⟨ec, ectx, -, hi⟩
    · rw [hi, keys_idTable]; exact hnotd
    · rw [hi]
      exact not_mem_keys_hashRemove _ _ _ (by rw [keys_idTable]; exact hnotd)
  refine ⟨pre, { response1 with
    connectReturnCode := ConnectReturnCode.ConnectReturnCodeAccepted },
    connectContext packet ctx0, ?_, ?_, rfl, fun w hw => ?_, ?_⟩
  · rw [hd2]
    show d1.written ++ _ ++ _ = _
    rw [hpre]
  · show response1.type = _
    rw [hrt]
    rfl
  · obtain ⟨a, b⟩ := hprop w hw
    refine ⟨fun hc => hnotd (by rw [← hc]; exact a), ?_⟩
    rcases b with b | b | b <;> rw [b] <;> simp
  · rw [hd2]
    show (hashInsert d1.clientList client (connectContext packet ctx0)).lookup client = _
    rw [hashInsert_of_not_mem _ _ _ hnot1]
    exact lookup_append_new _ _ _ hnot1

/-- The accepting part of the CONNECT branch completes when the session it drops, if any,
has no will. -/
theorem acceptConnect_isSome (userValidator : Option MqttUserValidator)
    (d : MqttServerPrivate) (packet : MqttPacket) (client : Nat) (clientId : QString)
    (response : MqttPacket) (hkeys : (d.clientList.map Prod.fst).Nodup)
    (hwill : ∀ e ∈ d.clientList, e.2.clientId = clientId →
      packet.connectFlags.ConnectFlagCleanSession = true → e.2.willTopic = []) :
    ∃ d2, acceptConnect userValidator d packet client clientId response = some d2 := by
  unfold acceptConnect
  cases hf : d.clientList.find? (fun e => clientId = e.2.clientId) with
  | none => exact ⟨_, rfl⟩
  | some e =>
    obtain ⟨ec, ectx⟩ := e
    cases hclean : packet.connectFlags.ConnectFlagCleanSession with
    | false => exact ⟨_, rfl⟩
    | true =>
      have hmem : (ec, ectx) ∈ d.clientList := List.mem_of_find?_eq_some hf
      have hid : ectx.clientId = clientId := by
        have := List.find?_some hf
        simp at this
        exact this.symm
      have hlook : d.clientList.lookup ec = some ectx := by
        cases hl : d.clientList.lookup ec with
        | none =>
          exact absurd (List.mem_map_of_mem Prod.fst hmem)
            ((lookup_eq_none_iff_keys d.clientList ec).1 hl)
        | some w => rw [lookup_of_mem d.clientList ec ectx w hkeys hmem hl]
      have hc := cleanupClient_of_no_will userValidator d ec ectx hlook
        (hwill (ec, ectx) hmem hid hclean)
      simp only [Bool.not_true, Bool.false_eq_true, if_false, hc]
      exact ⟨_, rfl⟩

/-- In a table without repeated client ids the search of the CONNECT branch finds the one
entry that has the client id. -/
theorem find_of_unique (l : List (Nat × ClientContext)) (e : Nat × ClientContext)
    (clientId : QString) (hmem : e ∈ l) (hid : e.2.clientId = clientId)
    (hnd : (l.map (fun x => x.2.clientId)).Nodup) :
    l.find? (fun x => clientId = x.2.clientId) = some e := by
  induction l with
  | nil => exact absurd hmem (List.not_mem_nil e)
  | cons a l ih =>
    simp only [List.map_cons, List.nodup_cons] at hnd
    rcases List.mem_cons.1 hmem with rfl | hm
    · simp [List.find?_cons, hid]
    · have hne : clientId ≠ a.2.clientId := by
        intro hc
        apply hnd.1
        rw [← hc, ← hid]
        exact List.mem_map_of_mem (fun x => x.2.clientId) hm
      simp only [List.find?_cons, hne, decide_False]
      exact ih hm hnd.2

theorem lookup_of_mem_nodup {ν : Type} (l : List (Nat × ν)) (k : Nat) (v : ν)
    (hnd : (l.map Prod.fst).Nodup) (hmem : (k, v) ∈ l) : l.lookup k = some v := by
  cases hl : l.lookup k with
  | none =>
    exact absurd (List.mem_map_of_mem Prod.fst hmem) ((lookup_eq_none_iff_keys l k).1 hl)
  | some w => rw [lookup_of_mem l k v w hnd hmem hl]

theorem resendUnacked_new (packet : MqttPacket) (client : Nat) (clientId : QString) :
    resendUnacked client (connectContext packet (ClientContext.new clientId)) = [] := by
  unfold resendUnacked
  rw [(connectContext_inflight packet (ClientContext.new clientId)).2.2]
  rfl

/-- An accepted CONNECT with clean-session=1 for a client id that has a session runs
`cleanupClient` for the old transport and then stores a new context. -/
theorem processPacket_connect_clean (userValidator : Option MqttUserValidator) (uuid : QString)
    (d d2 : MqttServerPrivate) (packet : MqttPacket) (client existingClient : Nat)
    (existingCtx : ClientContext)
    (huniq : UniqueClients d)
    (htype : packet.type = PacketType.TypeConnect)
    (hnew : d.clientList.lookup client = none)
    (hlevel : packet.protocolLevel = Protocol311)
    (hid : packet.clientId = [] → packet.cleanSession = true)
    (hval : ValidatorAccepts userValidator uuid packet client)
    (hclean : packet.connectFlags.ConnectFlagCleanSession = true)
    (hmem : (existingClient, existingCtx) ∈ d.clientList)
    (hname : existingCtx.clientId = connectClientId uuid packet)
    (h : processPacket userValidator uuid d packet client = some d2) :
    ∃ d1 : MqttServerPrivate,
      cleanupClient userValidator d existingClient = some d1 ∧
      d2 = { d1 with
        clientList := d1.clientList ++
          [(client, connectContext packet (ClientContext.new (connectClientId uuid packet)))],
        written := d1.written ++
          [(client, { connackOf packet with
            connectReturnCode := ConnectReturnCode.ConnectReturnCodeAccepted })],
        emitted := d1.emitted ++
          [Signal.clientConnected (connectClientId uuid packet)
            (connectContext packet
              (ClientContext.new (connectClientId uuid packet))).username] } ∧
      client ∉ d1.clientList.map Prod.fst ∧ existingClient ∉ d1.clientList.map Prod.fst ∧
      existingClient ≠ client := by
  have hfind := find_of_unique d.clientList (existingClient, existingCtx)
    (connectClientId uuid packet) hmem hname huniq.2
  have hnotd : client ∉ d.clientList.map Prod.fst :=
    (lookup_eq_none_iff_keys d.clientList client).1 hnew
  have hne : existingClient ≠ client := by
    rintro rfl
    exact hnotd (List.mem_map_of_mem Prod.fst hmem)
  rw [processPacket_connect_accept userValidator uuid d packet client htype hnew hlevel hid
    hval] at h
  obtain ⟨d1, ctx0, response1, hd2, hcases⟩ :=
    acceptConnect_spec userValidator d d2 packet client _ _ h
  rcases hcases with ⟨hf, -⟩ | ⟨ec, ectx, hf, hc⟩
  · rw [hfind] at hf
    cases hf
  · rw [hfind] at hf
    cases hf
    rcases hc with ⟨hcl, -⟩ | ⟨-, hcl, rfl, rfl⟩
    · rw [hclean] at hcl
      cases hcl
    · have hi := cleanupClient_idTable userValidator d d1 existingClient huniq.1 hcl
      have hk1 : d1.clientList.map Prod.fst =
          (d.clientList.map Prod.fst).filter (fun x => x ≠ existingClient) := by
        rw [← keys_idTable, hi, keys_hashRemove, keys_idTable]
      have hnot1 : client ∉ d1.clientList.map Prod.fst := by
        rw [hk1]
        intro hc
        exact hnotd (List.mem_filter.1 hc).1
      have hnot2 : existingClient ∉ d1.clientList.map Prod.fst := by
        rw [hk1]
        intro hc
        simpa using (List.mem_filter.1 hc).2
      refine ⟨d1, hcl, ?_, hnot1, hnot2, hne⟩
      rw [hd2, hashInsert_of_not_mem _ _ _ hnot1, resendUnacked_new, List.append_nil,
        connectContext_clientId]
      rfl

theorem uniqueClients_iff (d : MqttServerPrivate) :
    UniqueClients d ↔
      ((idTable d).map Prod.fst).Nodup ∧ ((idTable d).map Prod.snd).Nodup := by
  unfold UniqueClients idTable
  simp only [List.map_map]
  exact Iff.rfl

theorem uniqueClients_of_idTable_eq {d d1 : MqttServerPrivate} (h : idTable d1 = idTable d)
    (hu : UniqueClients d) : UniqueClients d1 := by
  rw [uniqueClients_iff] at hu ⊢
  rw [h]
  exact hu

theorem uniqueClients_of_idTable_remove {d d1 : MqttServerPrivate} (client : Nat)
    (h : idTable d1 = hashRemove (idTable d) client) (hu : UniqueClients d) :
    UniqueClients d1 := by
  rw [uniqueClients_iff] at hu ⊢
  rw [h]
  exact ⟨hu.1.sublist (List.Sublist.map _ (List.filter_sublist _)),
    hu.2.sublist (List.Sublist.map _ (List.filter_sublist _))⟩

/-- Adding an entry with a socket and a client id that the table does not have keeps the
table free of repetitions. -/
theorem uniqueClients_of_idTable_append {d d1 : MqttServerPrivate} (client : Nat)
    (clientId : QString) (h : idTable d1 = idTable d ++ [(client, clientId)])
    (hu : UniqueClients d) (hk : client ∉ (idTable d).map Prod.fst)
    (hi : clientId ∉ (idTable d).map Prod.snd) : UniqueClients d1 := by
  rw [uniqueClients_iff] at hu ⊢
  rw [h]
  simp only [List.map_append, List.map_cons, List.map_nil]
  refine ⟨List.Nodup.append hu.1 (List.nodup_singleton _) ?_,
    List.Nodup.append hu.2 (List.nodup_singleton _) ?_⟩
  · intro x hx hx1
    rw [List.mem_singleton.1 hx1] at hx
    exact hk hx
  · intro x hx hx1
    rw [List.mem_singleton.1 hx1] at hx
    exact hi hx

theorem cleanupClient_unique (userValidator : Option MqttUserValidator)
    (d d1 : MqttServerPrivate) (client : Nat) (hu : UniqueClients d)
    (h : cleanupClient userValidator d client = some d1) : UniqueClients d1 :=
  uniqueClients_of_idTable_remove client
    (cleanupClient_idTable userValidator d d1 client hu.1 h) hu

/-- The accepting part of the CONNECT branch keeps the client table free of repeated
sockets and client ids, whatever the clean-session flag and whether or not the client id is
in use. -/
theorem acceptConnect_unique (userValidator : Option MqttUserValidator)
    (d d2 : MqttServerPrivate) (packet : MqttPacket) (client : Nat) (clientId : QString)
    (response : MqttPacket) (hu : UniqueClients d)
    (hnew : d.clientList.lookup client = none)
    (h : acceptConnect userValidator d packet client clientId response = some d2) :
    UniqueClients d2 := by
  obtain ⟨d1, ctx0, response1, hd2, hcid, -, hcase, -⟩ :=
    acceptConnect_lookup userValidator d d2 packet client clientId response hu.1 h
  have hnotd : client ∉ d.clientList.map Prod.fst :=
    (lookup_eq_none_iff_keys d.clientList client).1 hnew
  have hu1 : UniqueClients d1 := by
    rcases hcase with ⟨-, hi⟩ | ⟨ec, ectx, -, hi⟩
    · exact uniqueClients_of_idTable_eq hi hu
    · exact uniqueClients_of_idTable_remove ec hi hu
  have hnot1 : client ∉ d1.clientList.map Prod.fst := by
    rw [← keys_idTable]
    rcases hcase with ⟨-, hi⟩ | ⟨ec, ectx, -, hi⟩
    · rw [hi, keys_idTable]; exact hnotd
    · rw [hi]
      exact not_mem_keys_hashRemove _ _ _ (by rw [keys_idTable]; exact hnotd)
  have hfresh : clientId ∉ (idTable d1).map Prod.snd := by
    rcases hcase with ⟨hf, hi⟩ | ⟨ec, ectx, hf, hi⟩
    · rw [hi]
      intro hc
      obtain ⟨x, hx, hxe⟩ := List.mem_map.1 hc
      obtain ⟨e, he, rfl⟩ := List.mem_map.1 hx
      have := List.find?_eq_none.1 hf e he
      simp at this
      exact this hxe.symm
    · rw [hi]
      intro hc
      obtain ⟨x, hx, hxe⟩ := List.mem_map.1 hc
      obtain ⟨hxm, hxk⟩ := List.mem_filter.1 hx
      have hem : (ec, clientId) ∈ idTable d := by
        have hm := List.mem_of_find?_eq_some hf
        have hid := List.find?_some hf
        simp at hid
        rw [hid]
        exact List.mem_map_of_mem (fun e => (e.1, e.2.clientId)) hm
      have hinj := List.inj_on_of_nodup_map ((uniqueClients_iff d).1 hu).2 hxm hem hxe
      rw [hinj] at hxk
      simp at hxk
  refine uniqueClients_of_idTable_append client clientId ?_ hu1
    (by rw [keys_idTable]; exact hnot1) hfresh
  rw [hd2]
  show (hashInsert d1.clientList client _).map _ = _
  rw [hashInsert_of_not_mem _ _ _ hnot1, List.map_append]
  simp only [List.map_cons, List.map_nil, connectContext_clientId, hcid]
  rfl

/-- Handling a packet keeps the client table free of repeated sockets and client ids. -/
theorem processPacket_unique (userValidator : Option MqttUserValidator) (uuid : QString)
    (d d1 : MqttServerPrivate) (packet : MqttPacket) (client : Nat) (hu : UniqueClients d)
    (h : processPacket userValidator uuid d packet client = some d1) : UniqueClients d1 := by
  unfold processPacket at h
  by_cases htype : packet.type = PacketType.TypeConnect
  · rw [if_pos htype] at h
    unfold processConnect at h
    cases hl : d.clientList.lookup client with
    | some ctx =>
      rw [hl] at h
      simp only [Option.isSome_some, if_true] at h
      exact cleanupClient_unique userValidator d d1 client hu h
    | none =>
      rw [hl] at h
      simp only [Option.isSome_none, Bool.false_eq_true, if_false] at h
      split_ifs at h <;>
        first
        | exact cleanupClient_unique userValidator _ d1 client (by exact hu) h
        | exact acceptConnect_unique userValidator d d1 packet client _ _ hu hl h
  · rw [if_neg htype] at h
    cases hp : processPacketConnected userValidator d packet client with
    | none => rw [hp] at h; exact Option.noConfusion h
    | some r =>
      rw [hp] at h
      have hi := processPacketConnected_idTable userValidator d packet client r hu.1 hp
      cases r with
      | done d0 =>
        simp only [Option.some.injEq] at h
        subst h
        exact uniqueClients_of_idTable_eq hi hu
      | dropClient d0 =>
        simp only at h
        exact cleanupClient_unique userValidator d0 d1 client
          (uniqueClients_of_idTable_eq hi hu) h

/-- Every reachable broker state has a client table without repeated sockets or client
ids. -/
theorem reachable_unique (d : MqttServerPrivate) (h : Reachable d) : UniqueClients d := by
  induction h with
  | init m => exact ⟨List.nodup_nil, List.nodup_nil⟩
  | packet userValidator uuid packet client _ hp ih =>
    exact processPacket_unique userValidator uuid _ _ packet client ih hp
  | cleanup userValidator client _ hc ih =>
    exact cleanupClient_unique userValidator _ _ client ih hc
  | publish topic payload packets _ hp ih =>
    exact uniqueClients_of_idTable_eq (publish_frame _ _ topic payload packets ih.1 hp).1 ih
  | setMaximum m _ ih => exact ih

/-- The packets that an accepted CONNECT writes after the CONNACK are those of
`resendUnacked` for the context `ctx0` that the session starts from: a new one, or the
one adopted from the transport that held the client id. -/
theorem processPacket_connect_resend (userValidator : Option MqttUserValidator)
    (uuid : QString) (d d2 : MqttServerPrivate) (packet : MqttPacket) (client : Nat)
    (hkeys : (d.clientList.map Prod.fst).Nodup)
    (htype : packet.type = PacketType.TypeConnect)
    (hnew : d.clientList.lookup client = none)
    (hlevel : packet.protocolLevel = Protocol311)
    (hid : packet.clientId = [] → packet.cleanSession = true)
    (hval : ValidatorAccepts userValidator uuid packet client)
    (h : processPacket userValidator uuid d packet client = some d2) :
    ∃ (pre : List (Nat × MqttPacket)) (connack : MqttPacket) (ctx0 : ClientContext),
      d2.written = d.written ++ pre ++ [(client, connack)] ++ resendUnacked client ctx0 ∧
      connack.type = PacketType.TypeConnack ∧
      connack.connectReturnCode = ConnectReturnCode.ConnectReturnCodeAccepted ∧
      (ctx0 = ClientContext.new (connectClientId uuid packet) ∨
        (packet.connectFlags.ConnectFlagCleanSession = false ∧
          ∃ existingClient,
            d.clientList.find? (fun e => connectClientId uuid packet = e.2.clientId) =
              some (existingClient, ctx0))) ∧
      d2.clientList.lookup client = some (connectContext packet ctx0) := by
  obtain ⟨pre, connack, ctx1, hw, ht, hc, -, hl⟩ :=
    processPacket_connect_written userValidator uuid d d2 packet client hkeys htype hnew
      hlevel hid hval h
  rw [processPacket_connect_accept userValidator uuid d packet client htype hnew hlevel hid
    hval] at h
  obtain ⟨d1, ctx0, response1, hd2, hcases⟩ :=
    acceptConnect_spec userValidator d d2 packet client _ _ h
  have hnotd : client ∉ d.clientList.map Prod.fst :=
    (lookup_eq_none_iff_keys d.clientList client).1 hnew
  obtain ⟨d1b, ctx0b, response1b, hd2b, -, -, hcase, -⟩ :=
    acceptConnect_lookup userValidator d d2 packet client _ _ hkeys h
  have hnot1 : client ∉ d1b.clientList.map Prod.fst := by
    rw [← keys_idTable]
    rcases hcase with ⟨-, hi⟩ | ⟨ec, ectx, -, hi⟩
    · rw [hi, keys_idTable]; exact hnotd
    · rw [hi]
      exact not_mem_keys_hashRemove _ _ _ (by rw [keys_idTable]; exact hnotd)
  have hl1 : d2.clientList.lookup client = some (connectContext packet ctx0b) := by
    rw [hd2b]
    show (hashInsert d1b.clientList client _).lookup client = _
    rw [hashInsert_of_not_mem _ _ _ hnot1]
    exact lookup_append_new _ _ _ hnot1
  have hl0 : d2.clientList.lookup client = some (connectContext packet ctx0) := by
    have hcl : d2.clientList = hashInsert d1.clientList client (connectContext packet ctx0) := by
      rw [hd2]
    have hcl2 : d2.clientList =
        hashInsert d1b.clientList client (connectContext packet ctx0b) := by
      rw [hd2b]
    have hmem : ∃ v, d2.clientList.lookup client = some v := ⟨_, hl1⟩
    rw [hcl]
    unfold hashInsert
    split_ifs with hany
    · rw [lookup_setContext_self]
      cases hlk : d1.clientList.lookup client with
      | none =>
        have := (lookup_eq_none_iff_keys _ _).1 hlk
        simp at hany
        obtain ⟨x, hx⟩ := hany
        exact absurd (List.mem_map_of_mem Prod.fst hx) (by simpa using this)
      | some v => rfl
    · refine lookup_append_new _ _ _ ?_
      intro hc
      apply hany
      obtain ⟨e, he, hek⟩ := List.mem_map.1 hc
      exact List.any_eq_true.2 ⟨e, he, by simpa using hek⟩
  have hctx : ctx1 = connectContext packet ctx0 := by
    rw [hl] at hl0
    exact Option.some.inj hl0
  refine ⟨pre, connack, ctx0, ?_, ht, hc, ?_, hl0⟩
  · rw [hw, hctx]
    unfold resendUnacked
    rw [(connectContext_inflight packet ctx0).2.2, (connectContext_inflight packet ctx0).2.1]
  · rcases hcases with ⟨-, -, rfl, -⟩ | ⟨ec, ectx, hf, hc2⟩
    · exact Or.inl rfl
    · rcases hc2 with ⟨hcl, -, rfl, -⟩ | ⟨-, -, rfl, -⟩
      · exact Or.inr ⟨hcl, ec, hf⟩
      · exact Or.inl rfl

/-- The packets of the `foreach` over the in-flight list: one per entry, in list order,
each the stored packet with DUP set. -/
theorem resend_getElem (stored : List (Nat × MqttPacket)) (ids : List Nat) (i id : Nat)
    (h : ids[i]? = some id) :
    (ids.map (fun retryPacketId =>
      ({ packetValue stored retryPacketId with dup := true } : MqttPacket)))[i]? =
      some { packetValue stored id with dup := true } := by
  rw [List.getElem?_map, h]
  rfl

/-- A QoS 2 PUBLISH with DUP set whose packet id is in the in-flight list of the session:
clientAlive and publishReceived are emitted, the packet stored under the id is written
back, and the handling ends. -/
theorem processPacket_publish_dup (userValidator : Option MqttUserValidator) (uuid : QString)
    (d : MqttServerPrivate) (packet : MqttPacket) (client : Nat) (ctx : ClientContext)
    (htype : packet.type = PacketType.TypePublish)
    (hctx : d.clientList.lookup client = some ctx)
    (hqos : packet.qos = QoS.QoS2) (hdup : packet.dup = true)
    (hheld : packet.packetId ∈ ctx.unackedPacketList) :
    processPacket userValidator uuid d packet client =
      some { d with
        emitted := d.emitted ++ [Signal.clientAlive ctx.clientId,
          Signal.publishReceived ctx.clientId packet.packetId packet.topic packet.payload
            true],
        written := d.written ++ [(client, packetValue ctx.unackedPackets packet.packetId)] } := by
  have hc : ctx.unackedPacketList.contains packet.packetId = true := by
    simpa using hheld
  simp [processPacket, htype, processPacketConnected, hctx, processPublish, ackPublish, hqos,
    hdup, hc, hheld, MqttServerPrivate.emit, MqttServerPrivate.write]

/-- The id that the loop of `newPacketId` returns is not in the in-flight list, and it is
the first counter value after `p`, counting modulo 2^16, that is not in the list. -/
theorem newPacketIdLoop_spec (l : List Nat) (fuel p id : Nat)
    (h : newPacketIdLoop l fuel p = some id) :
    id ∉ l ∧ ∃ k, 1 ≤ k ∧ k ≤ fuel ∧ id = (p + k) % 65536 ∧
      ∀ j, 1 ≤ j → j < k → (p + j) % 65536 ∈ l := by
  induction fuel generalizing p with
  | zero => simp [newPacketIdLoop] at h
  | succ fuel ih =>
    simp only [newPacketIdLoop] at h
    split_ifs at h with hc
    · obtain ⟨hid, k, hk1, hk2, hk3, hk4⟩ := ih _ h
      refine ⟨hid, k + 1, by omega, by omega, ?_, fun j hj1 hj2 => ?_⟩
      · rw [hk3, Nat.mod_add_mod]
        congr 1
        omega
      · by_cases hj : j = 1
        · subst hj
          simpa using hc
        · have := hk4 (j - 1) (by omega) (by omega)
          rw [Nat.mod_add_mod] at this
          rwa [show p + 1 + (j - 1) = p + j by omega] at this
    · simp only [Option.some.injEq] at h
      subst h
      refine ⟨by simpa using hc, 1, le_refl _, by omega, rfl, fun j hj1 hj2 => by omega⟩


/-! ## Lemmas on the in-flight list and map -/

theorem lookup_replace_self (l : List (Nat × MqttPacket)) (k : Nat) (v : MqttPacket) :
    (l.map (fun e => if e.1 = k then (k, v) else e)).lookup k = (l.lookup k).map (fun _ => v) := by
  induction l with
  | nil => rfl
  | cons e l ih =>
    obtain ⟨k1, v1⟩ := e
    by_cases hk : k1 = k
    · subst hk
      simp [List.lookup_cons]
    · have hne : (k == k1) = false := by simpa using fun h => hk h.symm
      simp only [List.map_cons, hk, if_false, List.lookup_cons, hne]
      exact ih

theorem lookup_replace_ne (l : List (Nat × MqttPacket)) (k k1 : Nat) (v : MqttPacket)
    (hne : k1 ≠ k) :
    (l.map (fun e => if e.1 = k then (k, v) else e)).lookup k1 = l.lookup k1 := by
  induction l with
  | nil => rfl
  | cons e l ih =>
    obtain ⟨k2, v2⟩ := e
    by_cases hk : k2 = k
    · have h3 : (k1 == k) = false := by simpa using hne
      have h4 : (k1 == k2) = false := by rw [hk]; exact h3
      simp only [List.map_cons, hk, if_true, List.lookup_cons, h3, h4]
      simpa [hk] using ih
    · simp only [List.map_cons, hk, if_false, List.lookup_cons]
      rw [ih]

/-- The value of `key` after `QHash::insert(key, value)`. -/
theorem lookup_hashInsert_self (l : List (Nat × MqttPacket)) (k : Nat) (v : MqttPacket) :
    (hashInsert l k v).lookup k = some v := by
  unfold hashInsert
  split_ifs with hany
  · rw [lookup_replace_self]
    cases hl : l.lookup k with
    | none =>
      have := (lookup_eq_none_iff_keys l k).1 hl
      simp at hany
      obtain ⟨x, hx⟩ := hany
      exact absurd (List.mem_map_of_mem Prod.fst hx) (by simpa using this)
    | some w => rfl
  · refine lookup_append_new _ _ _ ?_
    intro hc
    apply hany
    obtain ⟨e, he, hek⟩ := List.mem_map.1 hc
    exact List.any_eq_true.2 ⟨e, he, by simpa using hek⟩

/-- The value of another key is not changed by `QHash::insert(key, value)`. -/
theorem lookup_hashInsert_ne (l : List (Nat × MqttPacket)) (k k1 : Nat) (v : MqttPacket)
    (hne : k1 ≠ k) : (hashInsert l k v).lookup k1 = l.lookup k1 := by
  unfold hashInsert
  split_ifs with hany
  · exact lookup_replace_ne l k k1 v hne
  · exact lookup_append_old l k k1 v hne

/-- The packet retransmitted for the in-flight entry at position `i`. -/
theorem resendUnacked_getElem (client : Nat) (ctx : ClientContext) (i id : Nat)
    (h : ctx.unackedPacketList[i]? = some id) :
    (resendUnacked client ctx)[i]? =
      some (client, { packetValue ctx.unackedPackets id with dup := true }) := by
  unfold resendUnacked
  rw [List.getElem?_map, h]
  rfl

/-- The PUBREC branch of `processPacket` for a socket with a session. -/
theorem processPacket_pubrec (userValidator : Option MqttUserValidator) (uuid : QString)
    (d : MqttServerPrivate) (packet : MqttPacket) (client : Nat) (ctx : ClientContext)
    (htype : packet.type = PacketType.TypePubrec)
    (hctx : d.clientList.lookup client = some ctx) :
    processPacket userValidator uuid d packet client =
      some ((((d.emit (Signal.clientAlive ctx.clientId)).emit
        (Signal.published ctx.clientId packet.packetId
          (packetValue ctx.unackedPackets packet.packetId).topic
          (packetValue ctx.unackedPackets packet.packetId).payload)).setContext client
        { ctx with
          unackedPackets :=
            hashInsert (hashRemove ctx.unackedPackets packet.packetId) packet.packetId
              (MqttPacket.new PacketType.TypePubrel packet.packetId QoS.QoS0 false false) }).write
        client (MqttPacket.new PacketType.TypePubrel packet.packetId QoS.QoS0 false false)) := by
  unfold processPacket
  rw [if_neg (by rw [htype]; simp)]
  unfold processPacketConnected
  simp only [hctx, htype]

/-- The PUBCOMP branch of `processPacket` for a socket with a session. -/
theorem processPacket_pubcomp (userValidator : Option MqttUserValidator) (uuid : QString)
    (d : MqttServerPrivate) (packet : MqttPacket) (client : Nat) (ctx : ClientContext)
    (htype : packet.type = PacketType.TypePubcomp)
    (hctx : d.clientList.lookup client = some ctx) :
    processPacket userValidator uuid d packet client =
      some ((d.emit (Signal.clientAlive ctx.clientId)).setContext client
        { ctx with
          unackedPackets := hashRemove ctx.unackedPackets packet.packetId,
          unackedPacketList := removeAll ctx.unackedPacketList packet.packetId }) := by
  unfold processPacket
  rw [if_neg (by rw [htype]; simp)]
  unfold processPacketConnected
  simp only [hctx, htype]

/-- The entry of `client` after `setContext`, for a socket with a session. -/
theorem lookup_setContext (d : MqttServerPrivate) (client : Nat) (ctx ctx1 : ClientContext)
    (hctx : d.clientList.lookup client = some ctx) :
    (d.setContext client ctx1).clientList.lookup client = some ctx1 := by
  show (d.clientList.map _).lookup client = _
  rw [lookup_setContext_self, hctx]
  rfl

/-- The PUBREC case of `MqttClientPrivate::onReadyRead`. -/
theorem onReadyRead_pubrec (c : MqttClientPrivate) (packet : MqttPacket)
    (htype : packet.type = PacketType.TypePubrec) :
    c.onReadyRead packet =
      { c with
        unackedPackets := hashInsert c.unackedPackets packet.packetId
          (MqttPacket.new PacketType.TypePubrel packet.packetId QoS.QoS0 false false),
        written := c.written ++
          [MqttPacket.new PacketType.TypePubrel packet.packetId QoS.QoS0 false false] } := by
  unfold MqttClientPrivate.onReadyRead
  simp only [htype]
  rfl

/-- The PUBREL case of `MqttClientPrivate::onReadyRead`. -/
theorem onReadyRead_pubrel (c : MqttClientPrivate) (packet : MqttPacket)
    (htype : packet.type = PacketType.TypePubrel) :
    c.onReadyRead packet =
      { c with
        unackedPackets := hashInsert c.unackedPackets packet.packetId
          (MqttPacket.new PacketType.TypePubcomp packet.packetId QoS.QoS0 false false),
        written := c.written ++
          [MqttPacket.new PacketType.TypePubcomp packet.packetId QoS.QoS0 false false] } := by
  unfold MqttClientPrivate.onReadyRead
  simp only [htype]
  rfl

/-- The loop of `matchTopic` has no result exactly when one of its calls of
`topicParts.at(i)` is out of range. -/
theorem matchTopicLoop_eq_none_iff (topicParts filterParts : List QString) (i : Nat) :
    matchTopicLoop topicParts i filterParts = none ↔
      ∃ j ∈ matchTopicReadsLoop topicParts i filterParts, topicParts.length ≤ j := by
  induction filterParts generalizing i with
  | nil => simp [matchTopicLoop, matchTopicReadsLoop]
  | cons p rest ih =>
    simp only [matchTopicLoop, matchTopicReadsLoop]
    by_cases h1 : p = ['+']
    · simp only [h1, if_true]
      exact ih (i + 1)
    · by_cases h2 : p = ['#']
      · simp only [h2, if_true, if_neg (show ¬(['#'] : QString) = ['+'] by decide)]
        exact ih (i + 1)
      · simp only [h1, h2, if_false]
        cases ht : topicParts[i]? with
        | none =>
          have hlen : topicParts.length ≤ i := List.getElem?_eq_none_iff.1 ht
          simp [hlen]
        | some tp =>
          have hlt : i < topicParts.length := by
            by_contra hc
            rw [List.getElem?_eq_none (by omega)] at ht
            exact Option.noConfusion ht
          by_cases he : tp = p
          · subst he
            simp only [if_true, List.mem_cons]
            rw [ih (i + 1)]
            constructor
            · rintro ⟨j, hj, hl⟩
              exact ⟨j, Or.inr hj, hl⟩
            · rintro ⟨j, hj | hj, hl⟩
              · omega
              · exact ⟨j, hj, hl⟩
          · have hne : ¬ (some tp = some p) := fun hc => he (Option.some.inj hc)
            simp only [he, hne, if_false, List.mem_singleton]
            constructor
            · intro hc
              exact absurd hc (by simp)
            · rintro ⟨j, rfl, hl⟩
              omega

/-- The function `matchTopic` has no result exactly when one of its calls of
`topicParts.at(i)` is out of range. -/
theorem matchTopic_eq_none_iff (topicFilter topic : QString) :
    matchTopic topicFilter topic = none ↔
      ∃ j ∈ matchTopicReads topicFilter topic, (split '/' topic).length ≤ j := by
  unfold matchTopic matchTopicReads
  by_cases hs : startsWith topic '$' = true
  · simp [hs]
  · simp only [hs, Bool.false_eq_true, if_false]
    by_cases hg : ((split '/' topic).length : Int) < ((split '/' topicFilter).length : Int) - 1
    · simp [hg]
    · simp only [hg, if_false]
      rw [← matchTopicLoop_eq_none_iff]
      cases hm : matchTopicLoop (split '/' topic) 0 (split '/' topicFilter) with
      | none => simp
      | some b => cases b <;> simp

/-! ## Properties of all sessions -/

theorem mem_of_lookup {ν : Type} (l : List (Nat × ν)) (k : Nat) (v : ν)
    (h : l.lookup k = some v) : (k, v) ∈ l := by
  induction l with
  | nil => exact Option.noConfusion h
  | cons e l ih =>
    obtain ⟨k1, v1⟩ := e
    by_cases hk : k = k1
    · subst hk
      rw [List.lookup_cons] at h
      simp only [beq_self_eq_true] at h
      rw [Option.some.inj h]
      exact List.mem_cons_self _ _
    · have hne : (k == k1) = false := by simpa using hk
      rw [List.lookup_cons, hne] at h
      exact List.mem_cons_of_mem _ (ih h)

/-- Storing a context with the property back keeps the property of all sessions. -/
theorem all_setContext (P : ClientContext → Prop) (d : MqttServerPrivate) (client : Nat)
    (ctx1 : ClientContext) (hall : ∀ e ∈ d.clientList, P e.2) (h1 : P ctx1) :
    ∀ e ∈ (d.setContext client ctx1).clientList, P e.2 := by
  intro e he
  obtain ⟨x, hx, rfl⟩ := List.mem_map.1 he
  by_cases hk : x.1 = client
  · simp only [hk, if_true]
    exact h1
  · simp only [hk, if_false]
    exact hall x hx

theorem newPacketId_not_mem (d d1 : MqttServerPrivate) (ctx : ClientContext) (packetId : Nat)
    (h : newPacketId d ctx = some (packetId, d1)) :
    packetId ∉ ctx.unackedPacketList ∧ d1.clientList = d.clientList := by
  unfold newPacketId at h
  cases hl : newPacketIdLoop ctx.unackedPacketList 65536 d.packetId with
  | none => rw [hl] at h; exact Option.noConfusion h
  | some x =>
    rw [hl] at h
    simp only [Option.some.injEq, Prod.mk.injEq] at h
    obtain ⟨rfl, rfl⟩ := h
    exact ⟨(newPacketIdLoop_spec _ _ _ _ hl).1, rfl⟩

theorem publishTo_all (P : ClientContext → Prop) (hP : SessionInvariant P)
    (topic payload : QString) (d d1 : MqttServerPrivate)
    (packets packets1 : List (QString × Nat)) (receiver : Nat) (qos : QoS)
    (hall : ∀ e ∈ d.clientList, P e.2)
    (h : publishTo topic payload d packets receiver qos = some (d1, packets1)) :
    ∀ e ∈ d1.clientList, P e.2 := by
  unfold publishTo at h
  split at h
  · exact Option.noConfusion h
  · rename_i ctx hctx
    split at h
    · exact Option.noConfusion h
    · rename_i packetId d0 hid
      have hq : QoS.QoS0 ≤ qos := by
        rw [QoS.le_iff]
        exact Nat.zero_le _
      rw [if_pos hq] at hid
      obtain ⟨hnot, hcl⟩ := newPacketId_not_mem d d0 ctx packetId hid
      have hall0 : ∀ e ∈ d0.clientList, P e.2 := by rw [hcl]; exact hall
      simp only at h
      split_ifs at h with hq0
      · simp only [Option.some.injEq, Prod.mk.injEq] at h
        obtain ⟨rfl, -⟩ := h
        exact hall0
      · simp only [Option.some.injEq, Prod.mk.injEq] at h
        obtain ⟨rfl, -⟩ := h
        exact all_setContext P (d0.write receiver _) receiver _ hall0
          (hP.append ctx packetId _ (hall (receiver, ctx) (mem_of_lookup _ _ _ hctx)) hnot)

theorem publishLoop_all (P : ClientContext → Prop) (hP : SessionInvariant P)
    (topic payload : QString) (rs : List (Nat × QoS)) :
    ∀ (d d1 : MqttServerPrivate) (packets packets1 : List (QString × Nat)),
      (∀ e ∈ d.clientList, P e.2) →
      publishLoop topic payload d packets rs = some (d1, packets1) →
      ∀ e ∈ d1.clientList, P e.2 := by
  induction rs with
  | nil =>
    intro d d1 packets packets1 hall h
    simp only [publishLoop, Option.some.injEq, Prod.mk.injEq] at h
    obtain ⟨rfl, -⟩ := h
    exact hall
  | cons rq rest ih =>
    intro d d1 packets packets1 hall h
    obtain ⟨receiver, qos⟩ := rq
    simp only [publishLoop] at h
    cases hp : publishTo topic payload d packets receiver qos with
    | none => rw [hp] at h; exact Option.noConfusion h
    | some r =>
      obtain ⟨d0, packets0⟩ := r
      rw [hp] at h
      simp only at h
      exact ih d0 d1 packets0 packets1
        (publishTo_all P hP topic payload d d0 packets packets0 receiver qos hall hp) h

/-- The function `publish` keeps a property of all sessions that is a session invariant. -/
theorem publish_all (P : ClientContext → Prop) (hP : SessionInvariant P)
    (d d1 : MqttServerPrivate) (topic payload : QString) (packets : List (QString × Nat))
    (hall : ∀ e ∈ d.clientList, P e.2)
    (h : publish d topic payload = some (d1, packets)) : ∀ e ∈ d1.clientList, P e.2 := by
  unfold publish at h
  cases hc : collectReceivers topic d.clientList with
  | none => rw [hc] at h; exact Option.noConfusion h
  | some rs =>
    rw [hc] at h
    exact publishLoop_all P hP topic payload rs d d1 [] packets hall h

theorem ackPublish_all (P : ClientContext → Prop) (hP : SessionInvariant P)
    (d : MqttServerPrivate) (packet : MqttPacket) (client : Nat) (ctx : ClientContext)
    (hall : ∀ e ∈ d.clientList, P e.2) (hctx : d.clientList.lookup client = some ctx) :
    ∀ e ∈ (ackPublish d packet client ctx).state.clientList, P e.2 := by
  unfold ackPublish
  cases packet.qos with
  | QoS0 => exact hall
  | QoS1 => exact hall
  | QoS2 =>
    simp only
    split_ifs with h1 h2
    · exact hall
    · exact hall
    · simp only [Acked.state]
      have hnot : packet.packetId ∉ ctx.unackedPacketList := by simpa using h2
      exact all_setContext P d client _ hall
        (hP.append ctx packet.packetId _ (hall (client, ctx) (mem_of_lookup _ _ _ hctx)) hnot)

theorem processPublish_all (P : ClientContext → Prop) (hP : SessionInvariant P)
    (d : MqttServerPrivate) (packet : MqttPacket) (client : Nat) (ctx : ClientContext)
    (r : Handled) (hall : ∀ e ∈ d.clientList, P e.2)
    (hctx : d.clientList.lookup client = some ctx)
    (h : processPublish d packet client ctx = some r) : ∀ e ∈ r.state.clientList, P e.2 := by
  have hf := ackPublish_all P hP
    (d.emit (Signal.publishReceived ctx.clientId packet.packetId packet.topic packet.payload
      packet.dup)) packet client ctx hall hctx
  unfold processPublish at h
  simp only at h
  cases ha : ackPublish
      (d.emit (Signal.publishReceived ctx.clientId packet.packetId packet.topic packet.payload
        packet.dup)) packet client ctx with
  | resent d1 =>
    rw [ha] at h hf
    simp only [Option.some.injEq] at h
    subst h
    exact hf
  | reject d1 =>
    rw [ha] at h hf
    simp only [Option.some.injEq] at h
    subst h
    exact hf
  | proceed d1 =>
    rw [ha] at h hf
    simp only at h
    cases hp : publish { d1 with retainedMessages := storeRetained d1.retainedMessages packet }
        packet.topic packet.payload with
    | none => rw [hp] at h; exact Option.noConfusion h
    | some x =>
      obtain ⟨d2, packets⟩ := x
      rw [hp] at h
      simp only [Option.some.injEq] at h
      subst h
      exact publish_all P hP
        { d1 with retainedMessages := storeRetained d1.retainedMessages packet } d2
        packet.topic packet.payload packets hf hp

/-- The handling of a packet that is not a CONNECT keeps a property of all sessions that
is a session invariant. -/
theorem processPacketConnected_all (P : ClientContext → Prop) (hP : SessionInvariant P)
    (userValidator : Option MqttUserValidator)
    (d : MqttServerPrivate) (packet : MqttPacket) (client : Nat) (r : Handled)
    (hall : ∀ e ∈ d.clientList, P e.2)
    (h : processPacketConnected userValidator d packet client = some r) :
    ∀ e ∈ r.state.clientList, P e.2 := by
  unfold processPacketConnected at h
  cases hctx : d.clientList.lookup client with
  | none =>
    rw [hctx] at h
    simp only [Option.some.injEq] at h
    subst h
    exact hall
  | some ctx =>
    rw [hctx] at h
    simp only at h
    have hctxP : P ctx := hall (client, ctx) (mem_of_lookup _ _ _ hctx)
    have hset : ∀ (d0 : MqttServerPrivate) (ctx1 : ClientContext),
        d0.clientList = d.clientList → P ctx1 →
        ∀ e ∈ (d0.setContext client ctx1).clientList, P e.2 := by
      intro d0 ctx1 h0 h1
      exact all_setContext P d0 client ctx1 (by rw [h0]; exact hall) h1
    cases ht : packet.type <;> rw [ht] at h <;> simp only at h
    case TypePublish =>
      exact processPublish_all P hP (d.emit (Signal.clientAlive ctx.clientId)) packet client ctx
        r hall hctx h
    case TypeSubscribe =>
      unfold processSubscribe at h
      simp only at h
      split at h
      · exact Option.noConfusion h
      · simp only [Option.some.injEq] at h
        subst h
        exact hset _ _ rfl (hP.subscribe userValidator _ packet.subscriptions ctx hctxP)
    case TypePuback =>
      simp only [Option.some.injEq] at h
      subst h
      exact hset _ _ rfl (hP.release ctx packet.packetId hctxP)
    case TypePubrec =>
      simp only [Option.some.injEq] at h
      subst h
      exact hset _ _ rfl (hP.pubrec ctx packet.packetId _ hctxP)
    case TypePubrel =>
      simp only [Option.some.injEq] at h
      subst h
      exact hset _ _ rfl (hP.release ctx packet.packetId hctxP)
    case TypePubcomp =>
      simp only [Option.some.injEq] at h
      subst h
      exact hset _ _ rfl (hP.release ctx packet.packetId hctxP)
    case TypeUnsubscribe =>
      simp only [Option.some.injEq] at h
      subst h
      exact hset _ _ rfl (hP.unsubscribe packet.subscriptions ctx hctxP)
    case TypeDisconnect =>
      simp only [Option.some.injEq] at h
      subst h
      exact hset _ _ rfl (hP.disconnect ctx hctxP)
    all_goals
      simp only [Option.some.injEq] at h
      subst h
      exact hall

theorem all_hashRemove (P : ClientContext → Prop) (l : List (Nat × ClientContext))
    (client : Nat) (hall : ∀ e ∈ l, P e.2) : ∀ e ∈ hashRemove l client, P e.2 :=
  fun e he => hall e (List.mem_filter.1 he).1

theorem all_hashInsert (P : ClientContext → Prop) (l : List (Nat × ClientContext))
    (client : Nat) (ctx : ClientContext) (hall : ∀ e ∈ l, P e.2) (h : P ctx) :
    ∀ e ∈ hashInsert l client ctx, P e.2 := by
  unfold hashInsert
  split_ifs
  · intro e he
    obtain ⟨x, hx, rfl⟩ := List.mem_map.1 he
    by_cases hk : x.1 = client
    · simp only [hk, if_true]
      exact h
    · simp only [hk, if_false]
      exact hall x hx
  · intro e he
    rcases List.mem_append.1 he with he | he
    · exact hall e he
    · rw [List.mem_singleton.1 he]
      exact h

/-- The function `cleanupClient` keeps a property of all sessions that is a session
invariant. -/
theorem cleanupClient_all (P : ClientContext → Prop) (hP : SessionInvariant P)
    (userValidator : Option MqttUserValidator) (d d1 : MqttServerPrivate) (client : Nat)
    (hall : ∀ e ∈ d.clientList, P e.2)
    (h : cleanupClient userValidator d client = some d1) : ∀ e ∈ d1.clientList, P e.2 := by
  cases hctx : d.clientList.lookup client with
  | none =>
    rw [cleanupClient_of_lookup_none userValidator d client hctx] at h
    simp only [Option.some.injEq] at h
    subst h
    exact hall
  | some ctx =>
    obtain ⟨d3, hd1, h1, h2⟩ := cleanupClient_spec userValidator d d1 client ctx hctx h
    have hall3 : ∀ e ∈ d3.clientList, P e.2 := by
      by_cases hw : ctx.willTopic = []
      · rw [h1 hw]
        exact hall
      · obtain ⟨packetId, d0, hid, hp⟩ := h2 hw
        have hd0 : d0.clientList = d.clientList := by
          split_ifs at hid with hq
          · rw [newPacketId_clientList d d0 ctx packetId hid]
          · simp only [Option.some.injEq, Prod.mk.injEq] at hid
            rw [← hid.2]
        exact processPacketConnected_all P hP userValidator d0 _ client _
          (by rw [hd0]; exact hall) hp
    rw [hd1]
    exact all_hashRemove P d3.clientList client hall3

theorem acceptConnect_all (P : ClientContext → Prop) (hP : SessionInvariant P)
    (userValidator : Option MqttUserValidator)
    (d d2 : MqttServerPrivate) (packet : MqttPacket) (client : Nat) (clientId : QString)
    (response : MqttPacket) (hall : ∀ e ∈ d.clientList, P e.2)
    (h : acceptConnect userValidator d packet client clientId response = some d2) :
    ∀ e ∈ d2.clientList, P e.2 := by
  obtain ⟨d1, ctx0, response1, hd2, hcases⟩ :=
    acceptConnect_spec userValidator d d2 packet client clientId response h
  have h1 : (∀ e ∈ d1.clientList, P e.2) ∧ P ctx0 := by
    rcases hcases with ⟨-, rfl, rfl, -⟩ | ⟨ec, ectx, hf, hc⟩
    · exact ⟨hall, hP.new clientId⟩
    · rcases hc with ⟨-, rfl, rfl, -⟩ | ⟨-, hcl, rfl, -⟩
      · exact ⟨all_hashRemove P d.clientList ec hall,
          hall _ (List.mem_of_find?_eq_some hf)⟩
      · exact ⟨cleanupClient_all P hP userValidator d d1 ec hall hcl, hP.new clientId⟩
  rw [hd2]
  exact all_hashInsert P d1.clientList client _ h1.1 (hP.connect packet ctx0 h1.2)

/-- The function `processPacket` keeps a property of all sessions that is a session
invariant. -/
theorem processPacket_all (P : ClientContext → Prop) (hP : SessionInvariant P)
    (userValidator : Option MqttUserValidator) (uuid : QString)
    (d d1 : MqttServerPrivate) (packet : MqttPacket) (client : Nat)
    (hall : ∀ e ∈ d.clientList, P e.2)
    (h : processPacket userValidator uuid d packet client = some d1) :
    ∀ e ∈ d1.clientList, P e.2 := by
  unfold processPacket at h
  by_cases htype : packet.type = PacketType.TypeConnect
  · rw [if_pos htype] at h
    unfold processConnect at h
    cases hl : d.clientList.lookup client with
    | some ctx =>
      rw [hl] at h
      simp only [Option.isSome_some, if_true] at h
      exact cleanupClient_all P hP userValidator d d1 client hall h
    | none =>
      rw [hl] at h
      simp only [Option.isSome_none, Bool.false_eq_true, if_false] at h
      split_ifs at h <;>
        first
        | exact cleanupClient_all P hP userValidator _ d1 client (by exact hall) h
        | exact acceptConnect_all P hP userValidator d d1 packet client _ _ hall h
  · rw [if_neg htype] at h
    cases hp : processPacketConnected userValidator d packet client with
    | none => rw [hp] at h; exact Option.noConfusion h
    | some r =>
      rw [hp] at h
      have hi := processPacketConnected_all P hP userValidator d packet client r hall hp
      cases r with
      | done d0 =>
        simp only [Option.some.injEq] at h
        subst h
        exact hi
      | dropClient d0 =>
        simp only at h
        exact cleanupClient_all P hP userValidator d0 d1 client hi h

/-- A session invariant holds for every session of every reachable broker state. -/
theorem reachable_all (P : ClientContext → Prop) (hP : SessionInvariant P)
    (d : MqttServerPrivate) (h : Reachable d) : ∀ e ∈ d.clientList, P e.2 := by
  induction h with
  | init m => exact fun e he => absurd he (List.not_mem_nil e)
  | packet userValidator uuid packet client _ hp ih =>
    exact processPacket_all P hP userValidator uuid _ _ packet client ih hp
  | cleanup userValidator client _ hc ih =>
    exact cleanupClient_all P hP userValidator _ _ client ih hc
  | publish topic payload packets _ hp ih =>
    exact publish_all P hP _ _ topic payload packets ih hp
  | setMaximum m _ ih => exact ih

/-- The replacement loop of the SUBSCRIBE branch keeps the filters of the subscriptions in
place; the flag `updated` tells whether the filter of the new subscription is among them;
every entry with that filter is the new subscription. -/
theorem replaceSubscription_spec (s : MqttSubscription) (l : List MqttSubscription) :
    (replaceSubscription s l).1.map (fun x => x.topicFilter) = l.map (fun x => x.topicFilter) ∧
      ((replaceSubscription s l).2 = true ↔ s.topicFilter ∈ l.map (fun x => x.topicFilter)) ∧
      ∀ x ∈ (replaceSubscription s l).1, x.topicFilter = s.topicFilter → x = s := by
  induction l with
  | nil => simp [replaceSubscription]
  | cons a l ih =>
    obtain ⟨h1, h2, h3⟩ := ih
    simp only [replaceSubscription]
    by_cases ha : a.topicFilter = s.topicFilter
    · simp only [ha, if_true, List.map_cons, h1, List.mem_cons, true_or, iff_true]
      refine ⟨trivial, trivial, ?_⟩
      rintro x (rfl | hx) hxf
      · rfl
      · exact h3 x hx hxf
    · simp only [ha, if_false, List.map_cons, h1, List.mem_cons, h2]
      refine ⟨trivial, ?_, ?_⟩
      · constructor
        · exact fun h => Or.inr h
        · rintro (h | h)
          · exact absurd h.symm ha
          · exact h
      · rintro x (rfl | hx) hxf
        · exact absurd hxf ha
        · exact h3 x hx hxf

/-- The first loop of the SUBSCRIBE branch keeps the subscriptions free of repeated
filters. -/
theorem subscribeLoop_nodup (userValidator : Option MqttUserValidator) (max : QoS)
    (clientId username : QString) (requested : List MqttSubscription) :
    ∀ (subscriptions : List MqttSubscription) (codes : List SubscribeReturnCode)
      (signals : List Signal),
      (subscriptions.map (fun x => x.topicFilter)).Nodup →
      ((subscribeLoop userValidator max clientId username requested subscriptions codes
        signals).1.map (fun x => x.topicFilter)).Nodup := by
  induction requested with
  | nil =>
    intro subscriptions codes signals h
    simpa [subscribeLoop] using h
  | cons s rest ih =>
    intro subscriptions codes signals h
    simp only [subscribeLoop]
    split_ifs with h1 h2 h3
    · exact ih _ _ _ h
    · exact ih _ _ _ h
    · apply ih
      rw [(replaceSubscription_spec _ subscriptions).1]
      exact h
    · apply ih
      obtain ⟨g1, g2, -⟩ := replaceSubscription_spec
        { s with qoS := qMin s.qoS max } subscriptions
      rw [List.map_append, g1]
      refine List.Nodup.append h (List.nodup_singleton _) ?_
      intro x hx hx1
      simp only [List.map_cons, List.map_nil, List.mem_singleton] at hx1
      rw [hx1] at hx
      exact h3 (g2.2 hx)

/-- The subscriptions that the UNSUBSCRIBE branch keeps: those whose filter is not
requested, in their order. -/
theorem unsubscribeLoop_eq_filter (clientId : QString) (unsubs l : List MqttSubscription) :
    (unsubscribeLoop clientId unsubs l).1 =
      l.filter (fun existing => !unsubs.any (fun unsub => existing.topicFilter = unsub.topicFilter)) := by
  induction l with
  | nil => rfl
  | cons a l ih =>
    simp only [unsubscribeLoop]
    by_cases ha : unsubs.any (fun unsub => decide (a.topicFilter = unsub.topicFilter)) = true
    · simp only [ha, if_true, List.filter_cons, Bool.not_true, Bool.false_eq_true, if_false]
      exact ih
    · simp only [Bool.not_eq_true] at ha
      simp [ha, ih]

/-- Session contexts are well formed: no topic filter is subscribed twice, no packet id is
twice in the in-flight list, and every id of the list has a stored packet. Every update of
a context by the broker keeps this. -/
theorem sessionInvariant_wellFormed :
    SessionInvariant (fun ctx =>
      (ctx.subscriptions.map (fun s => s.topicFilter)).Nodup ∧ ctx.unackedPacketList.Nodup ∧
        ∀ id ∈ ctx.unackedPacketList, (ctx.unackedPackets.lookup id).isSome = true) where
  new := fun clientId => ⟨List.nodup_nil, List.nodup_nil, fun id h => absurd h (List.not_mem_nil id)⟩
  connect := fun packet ctx h => by
    obtain ⟨h1, h2, h3⟩ := connectContext_inflight packet ctx
    simp only [h1, h2, h3]
    exact h
  append := fun ctx id packet h hnot => by
    refine ⟨h.1, List.Nodup.append h.2.1 (List.nodup_singleton _) ?_, fun id1 hid1 => ?_⟩
    · intro x hx hx1
      rw [List.mem_singleton.1 hx1] at hx
      exact hnot hx
    · show ((hashInsert ctx.unackedPackets id packet).lookup id1).isSome = true
      by_cases hk : id1 = id
      · rw [hk, lookup_hashInsert_self]
        rfl
      · rw [lookup_hashInsert_ne _ _ _ _ hk]
        rcases List.mem_append.1 hid1 with hm | hm
        · exact h.2.2 id1 hm
        · exact absurd (List.mem_singleton.1 hm) hk
  release := fun ctx id h => by
    refine ⟨h.1, h.2.1.sublist (List.filter_sublist _), fun id1 hid1 => ?_⟩
    obtain ⟨hm, hne⟩ := List.mem_filter.1 hid1
    have hk : id1 ≠ id := by simpa using hne
    show ((hashRemove ctx.unackedPackets id).lookup id1).isSome = true
    rw [lookup_filter_ne_of_ne _ _ _ hk]
    exact h.2.2 id1 hm
  pubrec := fun ctx id packet h => by
    refine ⟨h.1, h.2.1, fun id1 hid1 => ?_⟩
    show ((hashInsert (hashRemove ctx.unackedPackets id) id packet).lookup id1).isSome = true
    by_cases hk : id1 = id
    · rw [hk, lookup_hashInsert_self]
      rfl
    · rw [lookup_hashInsert_ne _ _ _ _ hk, lookup_filter_ne_of_ne _ _ _ hk]
      exact h.2.2 id1 hid1
  subscribe := fun userValidator max requested ctx h =>
    ⟨subscribeLoop_nodup userValidator max ctx.clientId ctx.username requested
      ctx.subscriptions [] [] h.1, h.2⟩
  unsubscribe := fun unsubs ctx h => by
    refine ⟨?_, h.2⟩
    show ((unsubscribeLoop ctx.clientId unsubs ctx.subscriptions).1.map _).Nodup
    rw [unsubscribeLoop_eq_filter]
    exact h.1.sublist (List.Sublist.map _ (List.filter_sublist _))
  disconnect := fun ctx h => h

/-- The subscriptions of the session after a SUBSCRIBE are those that the first loop of
the SUBSCRIBE branch leaves. -/
theorem processPacket_subscribe_context (userValidator : Option MqttUserValidator)
    (uuid : QString) (d d2 : MqttServerPrivate) (packet : MqttPacket) (client : Nat)
    (ctx : ClientContext) (htype : packet.type = PacketType.TypeSubscribe)
    (hctx : d.clientList.lookup client = some ctx)
    (h : processPacket userValidator uuid d packet client = some d2) :
    d2.clientList.lookup client =
      some { ctx with
        subscriptions :=
          (subscribeLoop userValidator d.maximumSubscriptionQoS ctx.clientId ctx.username
            packet.subscriptions ctx.subscriptions [] []).1 } := by
  simp only [processPacket, htype, reduceCtorEq, if_false, processPacketConnected, hctx,
    processSubscribe] at h
  cases hr : replayRetained client d.retainedMessages packet.subscriptions with
  | none =>
    simp only [write_retainedMessages, setContext_retainedMessages, emit_retainedMessages,
      hr] at h
    exact Option.noConfusion h
  | some replayed =>
    simp only [write_retainedMessages, setContext_retainedMessages, emit_retainedMessages,
      hr, Option.some.injEq] at h
    subst h
    exact lookup_setContext (d.emit (Signal.clientAlive ctx.clientId)) client ctx _ hctx

/-- The UNSUBSCRIBE branch of `processPacket` for a socket with a session. -/
theorem processPacket_unsubscribe (userValidator : Option MqttUserValidator) (uuid : QString)
    (d : MqttServerPrivate) (packet : MqttPacket) (client : Nat) (ctx : ClientContext)
    (htype : packet.type = PacketType.TypeUnsubscribe)
    (hctx : d.clientList.lookup client = some ctx) :
    ∃ d2 : MqttServerPrivate,
      processPacket userValidator uuid d packet client = some d2 ∧
      d2.clientList.lookup client =
        some { ctx with
          subscriptions :=
            (unsubscribeLoop ctx.clientId packet.subscriptions ctx.subscriptions).1 } := by
  have hrun : processPacket userValidator uuid d packet client =
      some ({ (d.emit (Signal.clientAlive ctx.clientId)).setContext client
            { ctx with
              subscriptions :=
                (unsubscribeLoop ctx.clientId packet.subscriptions ctx.subscriptions).1 } with
          emitted := (d.emit (Signal.clientAlive ctx.clientId)).emitted ++
            (unsubscribeLoop ctx.clientId packet.subscriptions ctx.subscriptions).2 }.write
        client (MqttPacket.new PacketType.TypeUnsuback packet.packetId QoS.QoS0 false false)) := by
    unfold processPacket
    rw [if_neg (by rw [htype]; simp)]
    unfold processPacketConnected
    simp only [hctx, htype]
    rfl
  exact ⟨_, hrun,
    lookup_setContext (d.emit (Signal.clientAlive ctx.clientId)) client ctx _ hctx⟩

/-- How `onReadyRead` changes the in-flight list of the client: not at all, by removing
the packet id of the packet, or by appending it when it is not in the list. -/
theorem onReadyRead_list (c : MqttClientPrivate) (packet : MqttPacket) :
    (c.onReadyRead packet).unackedPacketList = c.unackedPacketList ∨
      (c.onReadyRead packet).unackedPacketList = removeAll c.unackedPacketList packet.packetId ∨
      (packet.packetId ∉ c.unackedPacketList ∧
        (c.onReadyRead packet).unackedPacketList = c.unackedPacketList ++ [packet.packetId]) := by
  unfold MqttClientPrivate.onReadyRead
  cases ht : packet.type <;> simp only
  case TypeConnack =>
    split_ifs <;> exact Or.inl rfl
  case TypePublish =>
    cases hq : packet.qos <;> simp only
    case QoS0 => exact Or.inl rfl
    case QoS1 => exact Or.inl rfl
    case QoS2 =>
      unfold MqttClientPrivate.onPublishQoS2
      split_ifs with h1 h2
      · exact Or.inl rfl
      · refine Or.inr (Or.inr ⟨by simpa using h2, rfl⟩)
      · exact Or.inl rfl
  case TypeUnsuback =>
    split_ifs
    · exact Or.inl rfl
    · exact Or.inr (Or.inl rfl)
  all_goals first | exact Or.inl trivial | exact Or.inl rfl | exact Or.inr (Or.inl rfl)

theorem clientNewPacketId_not_mem (c c1 : MqttClientPrivate) (packetId : Nat)
    (h : c.newPacketId = some (packetId, c1)) :
    packetId ∉ c.unackedPacketList ∧ c1 = { c with packetId := packetId } := by
  unfold MqttClientPrivate.newPacketId at h
  cases hl : newPacketIdLoop c.unackedPacketList 65536 c.packetId with
  | none => rw [hl] at h; exact Option.noConfusion h
  | some x =>
    rw [hl] at h
    simp only [Option.some.injEq, Prod.mk.injEq] at h
    obtain ⟨rfl, rfl⟩ := h
    exact ⟨(newPacketIdLoop_spec _ _ _ _ hl).1, rfl⟩

theorem nodup_append_singleton (l : List Nat) (id : Nat) (h : l.Nodup) (hnot : id ∉ l) :
    (l ++ [id]).Nodup := by
  refine List.Nodup.append h (List.nodup_singleton _) ?_
  intro x hx hx1
  rw [List.mem_singleton.1 hx1] at hx
  exact hnot hx

theorem request_list (c c1 : MqttClientPrivate) (type : PacketType)
    (subscriptions : List MqttSubscription) (packetId : Nat)
    (h : c.request type subscriptions = some (packetId, c1)) :
    packetId ∉ c.unackedPacketList ∧ c1.unackedPacketList = c.unackedPacketList ++ [packetId] := by
  unfold MqttClientPrivate.request at h
  cases hn : c.newPacketId with
  | none => rw [hn] at h; exact Option.noConfusion h
  | some x =>
    obtain ⟨id, c0⟩ := x
    rw [hn] at h
    simp only [Option.some.injEq, Prod.mk.injEq] at h
    obtain ⟨rfl, rfl⟩ := h
    obtain ⟨hnot, rfl⟩ := clientNewPacketId_not_mem c c0 id hn
    exact ⟨hnot, rfl⟩

theorem clientPublish_list (c c1 : MqttClientPrivate) (topic payload : QString) (qos : QoS)
    (retain : Bool) (packetId : Nat)
    (h : c.publish topic payload qos retain = some (packetId, c1)) :
    c1.unackedPacketList = c.unackedPacketList ∨
      (packetId ∉ c.unackedPacketList ∧
        c1.unackedPacketList = c.unackedPacketList ++ [packetId]) := by
  unfold MqttClientPrivate.publish at h
  split at h
  · exact Option.noConfusion h
  · rename_i id c0 hid
    simp only at h
    split_ifs at h with hq0
    · simp only [Option.some.injEq, Prod.mk.injEq] at h
      obtain ⟨-, rfl⟩ := h
      left
      split_ifs at hid with hq
      · obtain ⟨-, rfl⟩ := clientNewPacketId_not_mem c c0 id hid
        rfl
      · simp only [Option.some.injEq, Prod.mk.injEq] at hid
        obtain ⟨-, rfl⟩ := hid
        rfl
    · simp only [Option.some.injEq, Prod.mk.injEq] at h
      obtain ⟨rfl, rfl⟩ := h
      right
      have hq : QoS.QoS1 ≤ qos := by
        rw [QoS.le_iff]
        cases qos
        · exact absurd rfl hq0
        · exact le_refl _
        · exact Nat.le_succ _
      rw [if_pos hq] at hid
      obtain ⟨hnot, rfl⟩ := clientNewPacketId_not_mem c c0 id hid
      exact ⟨hnot, rfl⟩

/-- No packet id is twice in the in-flight list of a reachable client state. -/
theorem clientReachable_nodup (c : MqttClientPrivate) (h : ClientReachable c) :
    c.unackedPacketList.Nodup := by
  induction h with
  | init => exact List.nodup_nil
  | received packet _ ih =>
    rcases onReadyRead_list _ packet with h1 | h1 | ⟨hnot, h1⟩
    · rw [h1]; exact ih
    · rw [h1]; exact ih.sublist (List.filter_sublist _)
    · rw [h1]; exact nodup_append_singleton _ _ ih hnot
  | publish topic payload qos retain packetId _ hp ih =>
    rcases clientPublish_list _ _ topic payload qos retain packetId hp with h1 | ⟨hnot, h1⟩
    · rw [h1]; exact ih
    · rw [h1]; exact nodup_append_singleton _ _ ih hnot
  | subscribe subscriptions packetId _ hp ih =>
    obtain ⟨hnot, h1⟩ := request_list _ _ _ subscriptions packetId hp
    rw [h1]; exact nodup_append_singleton _ _ ih hnot
  | unsubscribe subscriptions packetId _ hp ih =>
    obtain ⟨hnot, h1⟩ := request_list _ _ _ subscriptions packetId hp
    rw [h1]; exact nodup_append_singleton _ _ ih hnot

/-- No packet id is twice in the in-flight list of a session of a reachable broker state,
and every id of the list has a stored packet. -/
theorem reachable_in_flight (d : MqttServerPrivate) (h : Reachable d) :
    ∀ e ∈ d.clientList, e.2.unackedPacketList.Nodup ∧
      ∀ id ∈ e.2.unackedPacketList, (e.2.unackedPackets.lookup id).isSome = true :=
  fun e he => (reachable_all _ sessionInvariant_wellFormed d h e he).2

/-- A list of 16-bit values without repetition has at most 2^16 entries. -/
theorem length_le_of_nodup (l : List Nat) (h : l.Nodup) (hlt : ∀ id ∈ l, id < 65536) :
    l.length ≤ 65536 := by
  have hsub : l.toFinset ⊆ Finset.range 65536 := by
    intro x hx
    exact Finset.mem_range.2 (hlt x (List.mem_toFinset.1 hx))
  have := Finset.card_le_card hsub
  rwa [List.toFinset_card_of_nodup h, Finset.card_range] at this

/-- One call of `publish` on the topic "t" in a broker whose only session is subscribed to
"t" at QoS 1: the packet goes out with the next free id, which is appended to the
in-flight list of the session. -/
theorem publish_flood_step (d : MqttServerPrivate) (ctx : ClientContext) (id : Nat)
    (hcl : d.clientList = [(1, ctx)])
    (hsubs : ctx.subscriptions = [⟨"t".toList, QoS.QoS1⟩])
    (hid : newPacketIdLoop ctx.unackedPacketList 65536 d.packetId = some id) :
    ∃ (d1 : MqttServerPrivate) (packets : List (QString × Nat)) (ctx1 : ClientContext),
      publish d "t".toList "x".toList = some (d1, packets) ∧
      d1.packetId = id ∧ d1.clientList = [(1, ctx1)] ∧
      ctx1.subscriptions = [⟨"t".toList, QoS.QoS1⟩] ∧
      ctx1.unackedPacketList = ctx.unackedPacketList ++ [id] := by
  have hm : matchTopic "t".toList "t".toList = some true := by decide
  have hc : collectReceivers "t".toList d.clientList = some [(1, QoS.QoS1)] := by
    rw [hcl]
    simp only [collectReceivers, receiverQoS, hsubs, hm, updateReceiver]
  have hl : d.clientList.lookup 1 = some ctx := by
    rw [hcl]
    simp [List.lookup_cons]
  have hn : newPacketId d ctx = some (id, { d with packetId := id }) := by
    unfold newPacketId
    rw [hid]
  have hq : QoS.QoS0 ≤ QoS.QoS1 := by decide
  have hpt : publishTo "t".toList "x".toList d [] 1 QoS.QoS1 =
      some ((({ d with packetId := id } : MqttServerPrivate).write 1
          { MqttPacket.new PacketType.TypePublish id QoS.QoS1 false false with
            topic := "t".toList, payload := "x".toList }).setContext 1
          { ctx with
            unackedPackets := hashInsert ctx.unackedPackets id
              { MqttPacket.new PacketType.TypePublish id QoS.QoS1 false false with
                topic := "t".toList, payload := "x".toList },
            unackedPacketList := ctx.unackedPacketList ++ [id] },
        hashInsert [] ctx.clientId id) := by
    simp only [publishTo, hl, if_pos hq, hn]
    rfl
  have hpub : publish d "t".toList "x".toList =
      some ((({ d with packetId := id } : MqttServerPrivate).write 1
          { MqttPacket.new PacketType.TypePublish id QoS.QoS1 false false with
            topic := "t".toList, payload := "x".toList }).setContext 1
          { ctx with
            unackedPackets := hashInsert ctx.unackedPackets id
              { MqttPacket.new PacketType.TypePublish id QoS.QoS1 false false with
                topic := "t".toList, payload := "x".toList },
            unackedPacketList := ctx.unackedPacketList ++ [id] },
        hashInsert [] ctx.clientId id) := by
    unfold publish
    rw [hc]
    simp only [publishLoop, hpt]
  refine ⟨_, _,
    { ctx with
      unackedPackets := hashInsert ctx.unackedPackets id
        { MqttPacket.new PacketType.TypePublish id QoS.QoS1 false false with
          topic := "t".toList, payload := "x".toList },
      unackedPacketList := ctx.unackedPacketList ++ [id] }, hpub, rfl, ?_, hsubs, rfl⟩
  show (d.clientList.map _) = _
  rw [hcl]
  rfl

theorem newPacketIdLoop_flood (n : Nat) (hn : n < 65536) :
    newPacketIdLoop ((List.range n).map (fun i => (i + 1) % 65536)) 65536 n =
      some ((n + 1) % 65536) := by
  have hnot : (n + 1) % 65536 ∉ (List.range n).map (fun i => (i + 1) % 65536) := by
    intro hc
    obtain ⟨i, hi, he⟩ := List.mem_map.1 hc
    have := List.mem_range.1 hi
    omega
  have hc : ((List.range n).map (fun i => (i + 1) % 65536)).contains ((n + 1) % 65536) =
      false := by
    simpa using hnot
  show newPacketIdLoop _ (65535 + 1) n = _
  rw [newPacketIdLoop]
  simp only [hc, Bool.false_eq_true, if_false]

/-- After `n` calls of `publish` that the subscriber does not acknowledge, the in-flight
list of the session holds the `n` ids allocated, for every `n` up to 2^16. -/
theorem publish_flood (n : Nat) (hn : n ≤ 65536) :
    ∃ (d : MqttServerPrivate) (ctx : ClientContext),
      Reachable d ∧ d.packetId = n % 65536 ∧ d.clientList = [(1, ctx)] ∧
      ctx.subscriptions = [⟨"t".toList, QoS.QoS1⟩] ∧
      ctx.unackedPacketList = (List.range n).map (fun i => (i + 1) % 65536) := by
  induction n with
  | zero =>
    have h2 :=
      Reachable.packet none [] (subscribeOf 1 [("t", QoS.QoS1)]) 1
        (Reachable.packet none [] (connectOf "S" true) 1 (Reachable.init QoS.QoS2) rfl) rfl
    exact ⟨_, _, h2, rfl, rfl, rfl, rfl⟩
  | succ n ih =>
    obtain ⟨d, ctx, hreach, hp, hcl, hsubs, hlist⟩ := ih (by omega)
    have hlt : n < 65536 := by omega
    have hid : newPacketIdLoop ctx.unackedPacketList 65536 d.packetId =
        some ((n + 1) % 65536) := by
      rw [hlist, hp, Nat.mod_eq_of_lt hlt]
      exact newPacketIdLoop_flood n hlt
    obtain ⟨d1, packets, ctx1, hpub, hp1, hcl1, hsubs1, hlist1⟩ :=
      publish_flood_step d ctx _ hcl hsubs hid
    refine ⟨d1, ctx1, Reachable.publish "t".toList "x".toList packets hreach hpub, hp1, hcl1,
      hsubs1, ?_⟩
    rw [hlist1, hlist, List.range_succ, List.map_append]
    rfl

/-- The loop of `newPacketId` has not ended within `fuel` increments exactly when each of
the first `fuel` counter values after `p`, counting modulo 2^16, is in the in-flight
list. -/
theorem newPacketIdLoop_eq_none_iff (l : List Nat) (fuel p : Nat) :
    newPacketIdLoop l fuel p = none ↔ ∀ j, 1 ≤ j → j ≤ fuel → (p + j) % 65536 ∈ l := by
  induction fuel generalizing p with
  | zero =>
    simp only [newPacketIdLoop, true_iff]
    intro j h1 h2
    omega
  | succ fuel ih =>
    simp only [newPacketIdLoop]
    split_ifs with hc
    · rw [ih]
      have hmem : (p + 1) % 65536 ∈ l := by simpa using hc
      constructor
      · intro h j h1 h2
        by_cases hj : j = 1
        · rw [hj]
          exact hmem
        · have := h (j - 1) (by omega) (by omega)
          rw [Nat.mod_add_mod] at this
          rwa [show p + 1 + (j - 1) = p + j by omega] at this
      · intro h j h1 h2
        have := h (j + 1) (by omega) (by omega)
        rw [Nat.mod_add_mod]
        rwa [show p + 1 + j = p + (j + 1) by omega]
    · have hnot : (p + 1) % 65536 ∉ l := by simpa using hc
      constructor
      · intro h
        exact False.elim h
      · intro h
        exact absurd (h 1 (le_refl _) (by omega)) hnot

/-- The number of increments after which the loop of `newPacketId` ends: with that many
increments allowed it returns the id, with fewer it has not ended. -/
theorem newPacketIdLoop_steps (l : List Nat) (fuel p id : Nat)
    (h : newPacketIdLoop l fuel p = some id) :
    ∃ k, 1 ≤ k ∧ k ≤ fuel ∧ newPacketIdLoop l k p = some id ∧
      ∀ f, f < k → newPacketIdLoop l f p = none := by
  induction fuel generalizing p with
  | zero => simp [newPacketIdLoop] at h
  | succ fuel ih =>
    simp only [newPacketIdLoop] at h
    split_ifs at h with hc
    · obtain ⟨k, hk1, hk2, hk3, hk4⟩ := ih _ h
      refine ⟨k + 1, by omega, by omega, ?_, fun f hf => ?_⟩
      · simp only [newPacketIdLoop, hc, if_true]
        exact hk3
      · cases f with
        | zero => rfl
        | succ f =>
          simp only [newPacketIdLoop, hc, if_true]
          exact hk4 f (by omega)
    · refine ⟨1, le_refl _, by omega, ?_, fun f hf => ?_⟩
      · simp only [newPacketIdLoop, hc, if_false]
        exact h
      · have hf0 : f = 0 := by omega
        rw [hf0]
        rfl

/-- The loop of `newPacketId` ends within 65536 increments, from every counter value,
when some 16-bit value is not in the in-flight list. -/
theorem newPacketIdLoop_isSome (l : List Nat) (p v : Nat) (hv : v < 65536) (hnot : v ∉ l) :
    ∃ id, newPacketIdLoop l 65536 p = some id := by
  cases h : newPacketIdLoop l 65536 p with
  | some id => exact ⟨id, rfl⟩
  | none =>
    have hall := (newPacketIdLoop_eq_none_iff l 65536 p).1 h
    have := hall ((v + 65536 - p % 65536 - 1) % 65536 + 1) (by omega) (by omega)
    rw [show (p + ((v + 65536 - p % 65536 - 1) % 65536 + 1)) % 65536 = v by omega] at this
    exact absurd this hnot

/-- The loop of `newPacketId` never ends when every 16-bit value is in the in-flight
list. -/
theorem newPacketIdLoop_full (l : List Nat) (hall : ∀ v, v < 65536 → v ∈ l) (fuel p : Nat) :
    newPacketIdLoop l fuel p = none :=
  (newPacketIdLoop_eq_none_iff l fuel p).2
    (fun j _ _ => hall _ (Nat.mod_lt _ (by decide)))

/-- A reachable broker state in which `newPacketId` never ends for the one session, and
with it the next call of `publish`: the state after 65536 calls of `publish` that the
subscriber did not acknowledge. -/
theorem reachable_newPacketId_none :
    ∃ (d : MqttServerPrivate) (ctx : ClientContext),
      Reachable d ∧ d.clientList = [(1, ctx)] ∧
      (∀ fuel, newPacketIdLoop ctx.unackedPacketList fuel d.packetId = none) ∧
      newPacketId d ctx = none := by
  obtain ⟨d, ctx, hreach, -, hcl, -, hlist⟩ := publish_flood 65536 (le_refl _)
  have hall : ∀ v, v < 65536 → v ∈ ctx.unackedPacketList := by
    intro v hv
    rw [hlist]
    exact List.mem_map.2 ⟨(v + 65535) % 65536, List.mem_range.2 (by omega), by omega⟩
  refine ⟨d, ctx, hreach, hcl, fun fuel => newPacketIdLoop_full _ hall fuel _, ?_⟩
  unfold newPacketId
  rw [newPacketIdLoop_full _ hall]

/-- Every index that the loop of `matchTopic` reads is an index of a filter part. -/
theorem matchTopicReadsLoop_lt (topicParts filterParts : List QString) (i : Nat) :
    ∀ j ∈ matchTopicReadsLoop topicParts i filterParts, j < i + filterParts.length := by
  induction filterParts generalizing i with
  | nil => simp [matchTopicReadsLoop]
  | cons p rest ih =>
    intro j hj
    simp only [matchTopicReadsLoop] at hj
    simp only [List.length_cons]
    split_ifs at hj
    · have := ih (i + 1) j hj
      omega
    · have := ih (i + 1) j hj
      omega
    · rcases List.mem_cons.1 hj with rfl | hj
      · omega
      · have := ih (i + 1) j hj
        omega
    · rw [List.mem_singleton.1 hj]
      omega

/-- The function `matchTopic` has no result only for a topic with exactly one part fewer
than the filter. -/
theorem matchTopic_none_length (topicFilter topic : QString)
    (h : matchTopic topicFilter topic = none) :
    (split '/' topic).length + 1 = (split '/' topicFilter).length := by
  obtain ⟨j, hj, hlen⟩ := (matchTopic_eq_none_iff topicFilter topic).1 h
  unfold matchTopicReads at hj
  by_cases hs : startsWith topic '$' = true
  · rw [if_pos hs] at hj
    exact absurd hj (List.not_mem_nil j)
  · rw [if_neg hs] at hj
    simp only at hj
    by_cases hg : ((split '/' topic).length : Int) < ((split '/' topicFilter).length : Int) - 1
    · rw [if_pos hg] at hj
      exact absurd hj (List.not_mem_nil j)
    · rw [if_neg hg] at hj
      have := matchTopicReadsLoop_lt _ _ 0 j hj
      omega

/-- With a filter that has no `#`, `matchTopic` returns false for every topic that fails
the condition for true and does not have exactly one part fewer than the filter. -/
theorem matchTopic_no_hash_false (topicFilter topic : QString)
    (hno : '#' ∉ topicFilter) (htopic : topic.head? ≠ some '$')
    (hlen : (split '/' topic).length + 1 ≠ (split '/' topicFilter).length)
    (hP : ¬ ((split '/' topicFilter).length = (split '/' topic).length ∧
      ∀ i, i < (split '/' topicFilter).length →
        (split '/' topicFilter)[i]? = some ['+'] ∨
          (split '/' topicFilter)[i]? = (split '/' topic)[i]?)) :
    matchTopic topicFilter topic = some false := by
  cases h : matchTopic topicFilter topic with
  | none => exact absurd (matchTopic_none_length topicFilter topic h) hlen
  | some b =>
    cases b with
    | false => rfl
    | true => exact absurd ((matchTopic_of_no_hash topicFilter topic hno htopic).1 h) hP

/-- The SUBSCRIBE branch of `processPacket` for a socket with a session: the first loop and
the write of the SUBACK always happen; the result is the state they leave, with the
replayed messages appended to the writes, if the replay completes. -/
theorem processPacket_subscribe_eq (userValidator : Option MqttUserValidator)
    (d : MqttServerPrivate) (packet : MqttPacket) (client : Nat) (ctx : ClientContext)
    (htype : packet.type = PacketType.TypeSubscribe)
    (hctx : d.clientList.lookup client = some ctx) :
    ∃ d3 : MqttServerPrivate,
      d3.written = d.written ++ [(client, subackResponse userValidator d packet ctx)] ∧
      d3.retainedMessages = d.retainedMessages ∧
      ∀ uuid : QString, processPacket userValidator uuid d packet client =
        (replayRetained client d.retainedMessages packet.subscriptions).map
          (fun replayed => { d3 with written := d3.written ++ replayed }) := by
  refine ⟨({ (d.emit (Signal.clientAlive ctx.clientId)).setContext client
        { ctx with
          subscriptions :=
            (subscribeLoop userValidator d.maximumSubscriptionQoS ctx.clientId ctx.username
              packet.subscriptions ctx.subscriptions [] []).1 } with
      emitted := (d.emit (Signal.clientAlive ctx.clientId)).emitted ++
        (subscribeLoop userValidator d.maximumSubscriptionQoS ctx.clientId ctx.username
          packet.subscriptions ctx.subscriptions [] []).2.2 } : MqttServerPrivate).write client
      (subackResponse userValidator d packet ctx), rfl, rfl, fun uuid => ?_⟩
  simp only [processPacket, htype, reduceCtorEq, if_false, processPacketConnected, hctx,
    processSubscribe]
  cases hr : replayRetained client d.retainedMessages packet.subscriptions with
  | none =>
    simp only [write_retainedMessages, setContext_retainedMessages, emit_retainedMessages,
      hr, Option.map_none']
  | some replayed =>
    simp only [write_retainedMessages, setContext_retainedMessages, emit_retainedMessages,
      hr, Option.map_some']
    rfl

/-! ## Claims -/

/-- C1: `validateTopicFilter f` is true exactly when `f` is non-empty and, among the
`/`-separated segments of `f`, every segment containing `#` is exactly `#` and is the last
segment, and every segment containing `+` is exactly `+`. -/
theorem validateTopicFilter_iff (f : QString) :
    validateTopicFilter f = true ↔
      f ≠ [] ∧ ∀ (i : Nat) (part : QString), (split '/' f)[i]? = some part →
        (('#' ∈ part → part = ['#'] ∧ i + 1 = (split '/' f).length) ∧
          ('+' ∈ part → part = ['+'])) :=
  validateTopicFilter_eq_true_iff f

theorem validateTopicFilter_iff_witness :
    validateTopicFilter "sport/+/#".toList = true ∧ "sport/+/#".toList ≠ [] ∧
      ∀ (i : Nat) (part : QString), (split '/' "sport/+/#".toList)[i]? = some part →
        (('#' ∈ part → part = ['#'] ∧ i + 1 = (split '/' "sport/+/#".toList).length) ∧
          ('+' ∈ part → part = ['+'])) :=
  ⟨by decide, (validateTopicFilter_iff "sport/+/#".toList).1 (by decide)⟩

/-- C2: for every topic filter and every topic whose first character is `$`, `matchTopic`
returns false; in particular the filter `#` does not match `$SYS/broker/uptime`. -/
theorem matchTopic_dollar_topic :
    (∀ (topicFilter topic : QString), topic.head? = some '$' →
      matchTopic topicFilter topic = some false) ∧
    matchTopic "#".toList "$SYS/broker/uptime".toList = some false := by
  refine ⟨fun topicFilter topic h => ?_, by decide⟩
  simp [matchTopic, startsWith, h]

theorem matchTopic_dollar_topic_witness :
    "$share/a".toList.head? = some '$' ∧
      matchTopic "+/a".toList "$share/a".toList = some false :=
  ⟨by decide, matchTopic_dollar_topic.1 _ _ (by decide)⟩

/-- C3: for every valid topic filter whose last segment is `#`, with `k` segments before
it, and every topic not beginning with `$`, `matchTopic` returns, and returns true exactly
when the topic has at least `k` segments and each of the first `k` filter segments is `+`
or equals the topic segment at the same position (otherwise it returns false); so the
filter `sport/#` matches both `sport` and `sport/tennis/player1`. -/
theorem matchTopic_trailing_hash :
    (∀ (topicFilter topic : QString),
      validateTopicFilter topicFilter = true →
      (split '/' topicFilter).getLast? = some ['#'] →
      topic.head? ≠ some '$' →
      (matchTopic topicFilter topic = some true ↔
        ((split '/' topicFilter).length - 1 ≤ (split '/' topic).length ∧
          ∀ i, i < (split '/' topicFilter).length - 1 →
            (split '/' topicFilter)[i]? = some ['+'] ∨
              (split '/' topicFilter)[i]? = (split '/' topic)[i]?)) ∧
      (matchTopic topicFilter topic = some false ↔
        ¬ ((split '/' topicFilter).length - 1 ≤ (split '/' topic).length ∧
          ∀ i, i < (split '/' topicFilter).length - 1 →
            (split '/' topicFilter)[i]? = some ['+'] ∨
              (split '/' topicFilter)[i]? = (split '/' topic)[i]?))) ∧
    matchTopic "sport/#".toList "sport".toList = some true ∧
    matchTopic "sport/#".toList "sport/tennis/player1".toList = some true :=
  ⟨matchTopic_of_trailing_hash, by decide, by decide⟩

theorem matchTopic_trailing_hash_witness :
    validateTopicFilter "a/+/#".toList = true ∧
      (split '/' "a/+/#".toList).getLast? = some ['#'] ∧
      "a/b/c/d".toList.head? ≠ some '$' ∧
      matchTopic "a/+/#".toList "a/b/c/d".toList = some true :=
  ⟨by decide, by decide, by decide,
    ((matchTopic_trailing_hash.1 "a/+/#".toList "a/b/c/d".toList
      (by decide) (by decide) (by decide)).1).2 (by decide)⟩

/-- C4 (failing input): the filters "a/b" and "sport/tennis" are valid and contain no `#`;
the topics "a" and "sport" do not begin with `$` and have one segment fewer than the
filter, so `matchTopic` should return false. It returns neither true nor false: the guard
`topicParts.count() < filterParts.count() - 1` is `1 < 1`, and the loop calls
`topicParts.at(1)` on a one-element list. The two examples of the claim, where the topic
is longer than the filter, do return false. -/
theorem matchTopic_no_hash_short_topic :
    validateTopicFilter "a/b".toList = true ∧ '#' ∉ "a/b".toList ∧
      "a".toList.head? ≠ some '$' ∧
      (split '/' "a/b".toList).length ≠ (split '/' "a".toList).length ∧
      matchTopic "a/b".toList "a".toList = none ∧
      validateTopicFilter "sport/tennis".toList = true ∧ '#' ∉ "sport/tennis".toList ∧
      matchTopic "sport/tennis".toList "sport".toList = none ∧
      matchTopic "sport/+".toList "sport/tennis/player1".toList = some false ∧
      matchTopic "a".toList "a/b".toList = some false := by
  decide

/-- C5 (failing input): two sessions, `A` subscribed to `a` and `B` subscribed to `a/b`.
For the topic `a` session `A` has a matching subscription, yet `publish` writes nothing:
`matchTopic` reads `topicParts.at(1)` out of range on the filter `a/b`. -/
theorem publish_aborts_on_short_topic :
    hasMatch "a".toList (sessionOf "A" [("a", QoS.QoS0)]) = true ∧
      matchTopic "a/b".toList "a".toList = none ∧
      publish (brokerOf [(1, sessionOf "A" [("a", QoS.QoS0)]),
        (2, sessionOf "B" [("a/b", QoS.QoS0)])] []) "a".toList "x".toList = none := by
  decide

/-- C6 (counterexample): a PUBLISH received at QoS 0 on topic `t` is routed; the session
on socket 2 is subscribed to `t` at QoS 2, its best matching subscription; the copy
forwarded to it is emitted with QoS 2, which is not `min(2, 0)`. -/
theorem forwarded_qos_counterexample :
    ∃ d2, processPacket none []
        (brokerOf [(1, sessionOf "P" []), (2, sessionOf "S" [("t", QoS.QoS2)])] [])
        (publishOf 0 QoS.QoS0 false false "t" "x") 1 = some d2 ∧
      IsBestQoS "t".toList (sessionOf "S" [("t", QoS.QoS2)]).subscriptions QoS.QoS2 ∧
      ∃ w ∈ d2.written, w.1 = 2 ∧ w.2.type = PacketType.TypePublish ∧
        w.2.qos ≠ qMin QoS.QoS2 (publishOf 0 QoS.QoS0 false false "t" "x").qos := by
  have h : (processPacket none []
      (brokerOf [(1, sessionOf "P" []), (2, sessionOf "S" [("t", QoS.QoS2)])] [])
      (publishOf 0 QoS.QoS0 false false "t" "x") 1).map
        (fun d => d.written.map (fun w => (w.1, w.2.type, w.2.qos))) =
      some [(2, PacketType.TypePublish, QoS.QoS2)] := by decide
  obtain ⟨d2, hd2, hmap⟩ := Option.map_eq_some'.1 h
  have hmem : (2, PacketType.TypePublish, QoS.QoS2) ∈
      d2.written.map (fun w => (w.1, w.2.type, w.2.qos)) := by
    rw [hmap]
    exact List.mem_singleton.2 rfl
  obtain ⟨w, hw, hg⟩ := List.mem_map.1 hmem
  simp only [Prod.mk.injEq] at hg
  refine ⟨d2, hd2, ⟨⟨⟨"t".toList, QoS.QoS2⟩, by decide, by decide, rfl⟩, ?_⟩,
    w, hw, hg.1, hg.2.1, ?_⟩
  · intro s hs _
    have : s = ⟨"t".toList, QoS.QoS2⟩ := by simpa [sessionOf] using hs
    rw [this]
    exact Nat.le_refl _
  · rw [hg.2.2]
    decide

/-- C6 (amended): when the broker routes a PUBLISH received from a client, whatever its
QoS, the packets written are at most an acknowledgement to the sender followed by the
forwarded copies, and every copy is a PUBLISH with the topic and payload received, written
to a session of the client table with the highest QoS among that session's matching
subscriptions. -/
theorem forwarded_copy_qos (userValidator : Option MqttUserValidator) (uuid : QString)
    (d d2 : MqttServerPrivate) (packet : MqttPacket) (client : Nat) (ctx : ClientContext)
    (hkeys : (d.clientList.map Prod.fst).Nodup)
    (htype : packet.type = PacketType.TypePublish)
    (hctx : d.clientList.lookup client = some ctx)
    (hfresh : packet.qos = QoS.QoS2 → packet.packetId ∉ ctx.unackedPacketList)
    (h : processPacket userValidator uuid d packet client = some d2) :
    ∃ acks copies : List (Nat × MqttPacket),
      d2.written = d.written ++ acks ++ copies ∧
      (∀ w ∈ acks, w.1 = client ∧ w.2.type ≠ PacketType.TypePublish) ∧
      ∀ w ∈ copies, w.2.type = PacketType.TypePublish ∧ w.2.topic = packet.topic ∧
        w.2.payload = packet.payload ∧
        ∃ rctx, (w.1, rctx) ∈ d.clientList ∧
          IsBestQoS packet.topic rctx.subscriptions w.2.qos := by
  obtain ⟨d1, acks, packets, hw, hacks, -, hcl, hp⟩ :=
    processPacket_publish userValidator uuid d d2 packet client ctx htype hctx hfresh h
  obtain ⟨copies, hw2, hall, -⟩ := publish_written _ d2 packet.topic packet.payload packets hp
  refine ⟨acks, copies, ?_, hacks, fun w hwm => ?_⟩
  · rw [hw2]
    show d1.written ++ copies = d.written ++ acks ++ copies
    rw [hw]
  · obtain ⟨e, he, ⟨⟨h1, h2, -, h4, h5, -, -⟩, hbest⟩⟩ := forall2_mem_left hall w hwm
    refine ⟨h2, h4, h5, ?_⟩
    have he1 : e ∈ d1.clientList := (List.mem_filter.1 he).1
    rcases hcl with hcl | ⟨ctx1, hsubs, hcl⟩
    · rw [hcl] at he1
      exact ⟨e.2, by rw [h1]; exact he1, hbest⟩
    · rw [hcl] at he1
      obtain ⟨e0, he0, hfe⟩ := List.mem_map.1 he1
      by_cases hk : e0.1 = client
      · rw [if_pos hk] at hfe
        have hctx0 : e0.2 = ctx :=
          lookup_of_mem d.clientList client e0.2 ctx hkeys (by rw [← hk]; exact he0) hctx
        refine ⟨e0.2, ?_, ?_⟩
        · rw [h1, ← hfe]
          show (client, e0.2) ∈ d.clientList
          rw [← hk]
          exact he0
        · rw [hctx0, ← hsubs]
          rw [← hfe] at hbest
          exact hbest
      · rw [if_neg hk] at hfe
        subst hfe
        exact ⟨e0.2, by rw [h1]; exact he0, hbest⟩

theorem forwarded_copy_qos_witness :
    ∃ d2, processPacket none []
        (brokerOf [(1, sessionOf "P" []), (2, sessionOf "S" [("t", QoS.QoS2)])] [])
        (publishOf 7 QoS.QoS1 false false "t" "x") 1 = some d2 ∧
      ∃ acks copies : List (Nat × MqttPacket),
        d2.written = [] ++ acks ++ copies ∧
        (∀ w ∈ acks, w.1 = 1 ∧ w.2.type ≠ PacketType.TypePublish) ∧
        ∀ w ∈ copies, w.2.type = PacketType.TypePublish ∧ w.2.topic = "t".toList ∧
          w.2.payload = "x".toList ∧
          ∃ rctx, (w.1, rctx) ∈
              [(1, sessionOf "P" []), (2, sessionOf "S" [("t", QoS.QoS2)])] ∧
            IsBestQoS "t".toList rctx.subscriptions w.2.qos := by
  obtain ⟨d2, h⟩ := Option.isSome_iff_exists.1
    (show (processPacket none []
      (brokerOf [(1, sessionOf "P" []), (2, sessionOf "S" [("t", QoS.QoS2)])] [])
      (publishOf 7 QoS.QoS1 false false "t" "x") 1).isSome = true by decide)
  exact ⟨d2, h, forwarded_copy_qos none []
    (brokerOf [(1, sessionOf "P" []), (2, sessionOf "S" [("t", QoS.QoS2)])] []) d2
    (publishOf 7 QoS.QoS1 false false "t" "x") 1 (sessionOf "P" [])
    (by decide) (by decide) (by decide) (by decide) h⟩

/-- C7: for every SUBSCRIBE from a connected client the broker writes the SUBACK before it
replays retained messages: the handling is the state with the SUBACK written, followed by
the replay, and it completes with the SUBACK as the first packet written in response
whenever the replay completes, which it does when every comparison of a requested filter
with a stored topic stays in range. The SUBACK carries one return code per requested
`(filter, qos)` pair, in request order: Failure if the authenticator rejects the filter or
`validateTopicFilter` is false for it, otherwise the Success code for the smaller of the
requested QoS and `maximumSubscriptionQoS`. -/
theorem suback_return_codes (userValidator : Option MqttUserValidator) (d : MqttServerPrivate)
    (packet : MqttPacket) (client : Nat) (ctx : ClientContext)
    (htype : packet.type = PacketType.TypeSubscribe)
    (hctx : d.clientList.lookup client = some ctx) :
    (subackResponse userValidator d packet ctx).type = PacketType.TypeSuback ∧
    (∃ d3 : MqttServerPrivate,
      d3.written = d.written ++ [(client, subackResponse userValidator d packet ctx)] ∧
      ∀ uuid : QString, processPacket userValidator uuid d packet client =
        (replayRetained client d.retainedMessages packet.subscriptions).map
          (fun replayed => { d3 with written := d3.written ++ replayed })) ∧
    ((∀ s ∈ packet.subscriptions, ∀ e ∈ d.retainedMessages,
        matchTopic s.topicFilter e.1 ≠ none) →
      ∀ uuid : QString, ∃ (d2 : MqttServerPrivate) (replayed : List (Nat × MqttPacket)),
        processPacket userValidator uuid d packet client = some d2 ∧
        d2.written =
          d.written ++ (client, subackResponse userValidator d packet ctx) :: replayed) ∧
    (∀ uuid d2, processPacket userValidator uuid d packet client = some d2 →
      ∃ replayed,
        d2.written = d.written ++ (client, subackResponse userValidator d packet ctx) :: replayed) ∧
    (subackResponse userValidator d packet ctx).subscribeReturnCodes.length =
      packet.subscriptions.length ∧
    ∀ (i : Nat) (s : MqttSubscription), packet.subscriptions[i]? = some s →
      (((∃ v, userValidator = some v ∧
            v.validateSubscribe s.topicFilter ctx.clientId ctx.username = false) ∨
          validateTopicFilter s.topicFilter = false) →
        (subackResponse userValidator d packet ctx).subscribeReturnCodes[i]? =
          some SubscribeReturnCode.SubscribeReturnCodeFailure) ∧
      ((∀ v, userValidator = some v →
            v.validateSubscribe s.topicFilter ctx.clientId ctx.username = true) →
          validateTopicFilter s.topicFilter = true →
        (subackResponse userValidator d packet ctx).subscribeReturnCodes[i]? =
          some (successCode
            (if s.qoS ≤ d.maximumSubscriptionQoS then s.qoS else d.maximumSubscriptionQoS))) := by
  have hcodes : (subackResponse userValidator d packet ctx).subscribeReturnCodes =
      packet.subscriptions.map
        (returnCodeFor userValidator d.maximumSubscriptionQoS ctx.clientId ctx.username) := by
    simp [subackResponse, subscribeLoop_codes]
  obtain ⟨d3, hw3, -, heq⟩ := processPacket_subscribe_eq userValidator d packet client ctx htype
    hctx
  refine ⟨rfl, ⟨d3, hw3, heq⟩, fun hrange uuid => ?_, fun uuid d2 h => ?_,
    by rw [hcodes, List.length_map], fun i s hi => ?_⟩
  · cases hr : replayRetained client d.retainedMessages packet.subscriptions with
    | none =>
      exact absurd hr (replayRetained_ne_none client d.retainedMessages packet.subscriptions
        hrange)
    | some replayed =>
      refine ⟨{ d3 with written := d3.written ++ replayed }, replayed, ?_, ?_⟩
      · rw [heq uuid, hr]
        rfl
      · show d3.written ++ replayed = _
        rw [hw3, List.append_assoc]
        rfl
  · obtain ⟨replayed, -, hw⟩ :=
      processPacket_subscribe userValidator uuid d d2 packet client ctx htype hctx h
    exact ⟨replayed, hw⟩
  · rw [hcodes, List.getElem?_map, hi]
    simp only [Option.map_some', Option.some.injEq]
    constructor
    · rintro (⟨v, hv, hrej⟩ | hinv)
      · simp [returnCodeFor, hv, hrej]
      · unfold returnCodeFor
        split_ifs
        · rfl
        · rfl
        · rename_i h2
          rw [hinv] at h2
          exact absurd rfl h2
    · intro hacc hval
      cases userValidator with
      | none => simp [returnCodeFor, hval, qMin_eq]
      | some v => simp [returnCodeFor, hacc v rfl, hval, qMin_eq]

theorem suback_return_codes_witness :
    (∃ (d2 : MqttServerPrivate) (replayed : List (Nat × MqttPacket)),
      processPacket none []
          (brokerOf [(1, sessionOf "S" [])]
            [("a/b".toList, [publishOf 3 QoS.QoS1 true false "a/b" "m"])])
          (subscribeOf 9 [("a/b", QoS.QoS1), ("a+", QoS.QoS1), ("+", QoS.QoS0)]) 1 = some d2 ∧
      d2.written = [] ++
        (1, subackResponse none
          (brokerOf [(1, sessionOf "S" [])]
            [("a/b".toList, [publishOf 3 QoS.QoS1 true false "a/b" "m"])])
          (subscribeOf 9 [("a/b", QoS.QoS1), ("a+", QoS.QoS1), ("+", QoS.QoS0)])
          (sessionOf "S" [])) :: replayed) ∧
      validateTopicFilter "a+".toList = false ∧
      (subackResponse none
        (brokerOf [(1, sessionOf "S" [])]
          [("a/b".toList, [publishOf 3 QoS.QoS1 true false "a/b" "m"])])
        (subscribeOf 9 [("a/b", QoS.QoS1), ("a+", QoS.QoS1), ("+", QoS.QoS0)])
        (sessionOf "S" [])).subscribeReturnCodes[1]? =
        some SubscribeReturnCode.SubscribeReturnCodeFailure ∧
      (processPacket none []
          (brokerOf [(1, sessionOf "S" [])]
            [("a/b".toList, [publishOf 3 QoS.QoS1 true false "a/b" "m"])])
          (subscribeOf 9 [("a/b", QoS.QoS1), ("a+", QoS.QoS1), ("+", QoS.QoS0)]) 1).map
        (fun d2 => d2.written.map
          (fun w => (w.1, w.2.type, w.2.subscribeReturnCodes, w.2.retain))) =
        some [(1, PacketType.TypeSuback,
            [SubscribeReturnCode.SubscribeReturnCodeSuccessQoS1,
              SubscribeReturnCode.SubscribeReturnCodeFailure,
              SubscribeReturnCode.SubscribeReturnCodeSuccessQoS0], false),
          (1, PacketType.TypePublish, [], true)] :=
  ⟨(suback_return_codes none
      (brokerOf [(1, sessionOf "S" [])]
        [("a/b".toList, [publishOf 3 QoS.QoS1 true false "a/b" "m"])])
      (subscribeOf 9 [("a/b", QoS.QoS1), ("a+", QoS.QoS1), ("+", QoS.QoS0)]) 1
      (sessionOf "S" []) (by decide) (by decide)).2.2.1 (by decide) [],
    by decide,
    ((suback_return_codes none
      (brokerOf [(1, sessionOf "S" [])]
        [("a/b".toList, [publishOf 3 QoS.QoS1 true false "a/b" "m"])])
      (subscribeOf 9 [("a/b", QoS.QoS1), ("a+", QoS.QoS1), ("+", QoS.QoS0)]) 1
      (sessionOf "S" []) (by decide) (by decide)).2.2.2.2.2 1 ⟨"a+".toList, QoS.QoS1⟩
      (by decide)).1 (Or.inr (by decide)),
    rfl⟩

/-- C8: for a PUBLISH that the broker accepts, the retained store after the packet is
processed is the store left by the retain block, in which the entry of the packet's topic
is: absent if RETAIN is set and the payload is empty; the one-element list of the packet
if RETAIN is set, the payload is non-empty and QoS is 0; the previous list with the packet
appended if RETAIN is set, the payload is non-empty and QoS is 1 or 2. The entries of all
other topics are unchanged, and with RETAIN clear the whole store is unchanged. -/
theorem retained_store_update (userValidator : Option MqttUserValidator) (uuid : QString)
    (d : MqttServerPrivate) (packet : MqttPacket) (client : Nat) (ctx : ClientContext)
    (htype : packet.type = PacketType.TypePublish)
    (hctx : d.clientList.lookup client = some ctx)
    (hfresh : packet.qos = QoS.QoS2 → packet.packetId ∉ ctx.unackedPacketList) :
    (∀ d2, processPacket userValidator uuid d packet client = some d2 →
      d2.retainedMessages = storeRetained d.retainedMessages packet) ∧
    (packet.retain = true → packet.payload = [] →
      (storeRetained d.retainedMessages packet).lookup packet.topic = none) ∧
    (packet.retain = true → packet.payload ≠ [] → packet.qos = QoS.QoS0 →
      (storeRetained d.retainedMessages packet).lookup packet.topic = some [packet]) ∧
    (packet.retain = true → packet.payload ≠ [] → packet.qos ≠ QoS.QoS0 →
      (storeRetained d.retainedMessages packet).lookup packet.topic =
        some ((d.retainedMessages.lookup packet.topic).getD [] ++ [packet])) ∧
    (∀ topic, topic ≠ packet.topic →
      (storeRetained d.retainedMessages packet).lookup topic = d.retainedMessages.lookup topic) ∧
    (packet.retain = false → storeRetained d.retainedMessages packet = d.retainedMessages) := by
  refine ⟨fun d2 h => ?_, storeRetained_spec d.retainedMessages packet⟩
  obtain ⟨d1, acks, packets, -, -, hrm, -, hp⟩ :=
    processPacket_publish userValidator uuid d d2 packet client ctx htype hctx hfresh h
  obtain ⟨copies, -, -, hrm2⟩ := publish_written _ d2 packet.topic packet.payload packets hp
  rw [hrm2]
  show storeRetained d1.retainedMessages packet = storeRetained d.retainedMessages packet
  rw [hrm]

theorem retained_store_update_witness :
    (publishOf 5 QoS.QoS1 true false "status/s1" "ok").type = PacketType.TypePublish ∧
      (brokerOf [(1, sessionOf "P" []), (2, sessionOf "S" [("status/+", QoS.QoS1)])]
        [("status/s1".toList, [publishOf 0 QoS.QoS0 true false "status/s1" "old"])]).clientList.lookup 1 =
        some (sessionOf "P" []) ∧
      ∃ d2, processPacket none []
          (brokerOf [(1, sessionOf "P" []), (2, sessionOf "S" [("status/+", QoS.QoS1)])]
            [("status/s1".toList, [publishOf 0 QoS.QoS0 true false "status/s1" "old"])])
          (publishOf 5 QoS.QoS1 true false "status/s1" "ok") 1 = some d2 ∧
        d2.retainedMessages.lookup "status/s1".toList =
          some [publishOf 0 QoS.QoS0 true false "status/s1" "old",
            publishOf 5 QoS.QoS1 true false "status/s1" "ok"] := by
  obtain ⟨d2, h⟩ := Option.isSome_iff_exists.1
    (show (processPacket none []
      (brokerOf [(1, sessionOf "P" []), (2, sessionOf "S" [("status/+", QoS.QoS1)])]
        [("status/s1".toList, [publishOf 0 QoS.QoS0 true false "status/s1" "old"])])
      (publishOf 5 QoS.QoS1 true false "status/s1" "ok") 1).isSome = true by decide)
  have key := retained_store_update none []
    (brokerOf [(1, sessionOf "P" []), (2, sessionOf "S" [("status/+", QoS.QoS1)])]
      [("status/s1".toList, [publishOf 0 QoS.QoS0 true false "status/s1" "old"])])
    (publishOf 5 QoS.QoS1 true false "status/s1" "ok") 1 (sessionOf "P" [])
    (by decide) (by decide) (by decide)
  refine ⟨by decide, by decide, d2, h, ?_⟩
  rw [key.1 d2 h]
  exact key.2.2.2.1 (by decide) (by decide) (by decide)

/-- C9 (failing input): the store holds retained messages for the topics `a` and `x`, and
a client subscribes to `a/b` and `x`. The filter `x` matches the stored topic `x`, but
the SUBSCRIBE is not answered by a SUBACK followed by the message retained for `x`: the
replay calls `matchTopic` on the filter `a/b` and the topic `a`, which reads
`topicParts.at(1)` out of range. -/
theorem subscribe_replay_aborts :
    matchTopic "x".toList "x".toList = some true ∧
      matchTopic "a/b".toList "a".toList = none ∧
      processPacket none []
        (brokerOf [(1, sessionOf "S" [])]
          [("a".toList, [publishOf 0 QoS.QoS0 true false "a" "1"]),
            ("x".toList, [publishOf 0 QoS.QoS0 true false "x" "2"])])
        (subscribeOf 3 [("a/b", QoS.QoS0), ("x", QoS.QoS0)]) 1 = none := by
  decide

/-- C10 (failing input): a message is retained for the topic `a/x/b` and a client
subscribes to the invalid filter `a/#/b`. The SUBACK answers Failure, and the retained
message is written after it all the same. With an authenticator that rejects every
subscription, the valid filter `a/#` is answered Failure and the message retained for
`a/x` is replayed too. -/
theorem rejected_filter_is_replayed :
    validateTopicFilter "a/#/b".toList = false ∧
      (processPacket none []
          (brokerOf [(1, sessionOf "S" [])]
            [("a/x/b".toList, [publishOf 0 QoS.QoS0 false false "a/x/b" "1"])])
          (subscribeOf 3 [("a/#/b", QoS.QoS0)]) 1).map
        (fun d => d.written.map
          (fun w => (w.1, w.2.type, w.2.subscribeReturnCodes, w.2.topic, w.2.retain))) =
        some [(1, PacketType.TypeSuback, [SubscribeReturnCode.SubscribeReturnCodeFailure], [],
            false),
          (1, PacketType.TypePublish, [], "a/x/b".toList, true)] ∧
      (processPacket
          (some ⟨fun _ _ _ _ => ConnectReturnCode.ConnectReturnCodeAccepted,
            fun _ _ _ => false⟩) []
          (brokerOf [(1, sessionOf "S" [])]
            [("a/x".toList, [publishOf 0 QoS.QoS0 false false "a/x" "1"])])
          (subscribeOf 4 [("a/#", QoS.QoS0)]) 1).map
        (fun d => d.written.map
          (fun w => (w.1, w.2.type, w.2.subscribeReturnCodes, w.2.topic, w.2.retain))) =
        some [(1, PacketType.TypeSuback, [SubscribeReturnCode.SubscribeReturnCodeFailure], [],
            false),
          (1, PacketType.TypePublish, [], "a/x".toList, true)] := by
  exact ⟨by decide, rfl, rfl⟩

/-- C11: for a CONNECT arriving on a transport that has no session, the CONNACK return
code is UnacceptableProtocolVersion if the protocol level is not 4; otherwise
IdentifierRejected if the client id is empty and clean-session is 0; otherwise the code of
the authenticator if one is attached and returns a non-Accepted code; otherwise Accepted.
In every non-Accepted case the result is the state in which only the CONNACK was written
and the socket closed: no context is created, and the client table with all its sessions
and the retained store are unchanged. -/
theorem connack_return_code (userValidator : Option MqttUserValidator) (uuid : QString)
    (d : MqttServerPrivate) (packet : MqttPacket) (client : Nat)
    (hkeys : (d.clientList.map Prod.fst).Nodup)
    (htype : packet.type = PacketType.TypeConnect)
    (hnew : d.clientList.lookup client = none) :
    (packet.protocolLevel ≠ Protocol311 →
      processPacket userValidator uuid d packet client =
        some (rejectedConnect d packet client
          ConnectReturnCode.ConnectReturnCodeUnacceptableProtocolVersion)) ∧
    (packet.protocolLevel = Protocol311 → packet.clientId = [] →
        packet.cleanSession = false →
      processPacket userValidator uuid d packet client =
        some (rejectedConnect d packet client
          ConnectReturnCode.ConnectReturnCodeIdentifierRejected)) ∧
    (packet.protocolLevel = Protocol311 → (packet.clientId = [] → packet.cleanSession = true) →
      ∀ v, userValidator = some v →
        v.validateConnect (connectClientId uuid packet)
          (if packet.connectFlags.ConnectFlagUsername then packet.username else [])
          (if packet.connectFlags.ConnectFlagPassword then packet.password else [])
          client ≠ ConnectReturnCode.ConnectReturnCodeAccepted →
      processPacket userValidator uuid d packet client =
        some (rejectedConnect d packet client
          (v.validateConnect (connectClientId uuid packet)
            (if packet.connectFlags.ConnectFlagUsername then packet.username else [])
            (if packet.connectFlags.ConnectFlagPassword then packet.password else [])
            client))) ∧
    (packet.protocolLevel = Protocol311 → (packet.clientId = [] → packet.cleanSession = true) →
      ValidatorAccepts userValidator uuid packet client →
      ((∀ e ∈ d.clientList, e.2.clientId = connectClientId uuid packet →
          packet.connectFlags.ConnectFlagCleanSession = true → e.2.willTopic = []) →
        ∃ d2, processPacket userValidator uuid d packet client = some d2) ∧
      ∀ d2, processPacket userValidator uuid d packet client = some d2 →
        ∃ (pre : List (Nat × MqttPacket)) (connack : MqttPacket) (ctx1 : ClientContext),
          d2.written =
            d.written ++ pre ++ [(client, connack)] ++ resendUnacked client ctx1 ∧
          connack.type = PacketType.TypeConnack ∧
          connack.connectReturnCode = ConnectReturnCode.ConnectReturnCodeAccepted ∧
          (∀ w ∈ pre, w.1 ≠ client ∧ w.2.type ≠ PacketType.TypeConnack) ∧
          d2.clientList.lookup client = some ctx1) ∧
    ∀ code : ConnectReturnCode,
      (rejectedConnect d packet client code).clientList = d.clientList ∧
      (rejectedConnect d packet client code).retainedMessages = d.retainedMessages ∧
      (rejectedConnect d packet client code).clientList.lookup client = none ∧
      ∃ connack : MqttPacket,
        (rejectedConnect d packet client code).written = d.written ++ [(client, connack)] ∧
        connack.type = PacketType.TypeConnack ∧ connack.connectReturnCode = code := by
  obtain ⟨h1, h2, h3⟩ := processPacket_connect_reject userValidator uuid d packet client
    htype hnew
  refine ⟨h1, h2, h3, fun hlevel hid hval => ⟨fun hwill => ?_, fun d2 h => ?_⟩,
    fun code => ⟨rfl, rfl, hnew, _, rfl, rfl, rfl⟩⟩
  · rw [processPacket_connect_accept userValidator uuid d packet client htype hnew hlevel hid
      hval]
    exact acceptConnect_isSome userValidator d packet client _ _ hkeys hwill
  · exact processPacket_connect_written userValidator uuid d d2 packet client hkeys htype hnew
      hlevel hid hval h

theorem connack_return_code_witness :
    ((brokerOf [(1, sessionOf "A" [])] []).clientList.map Prod.fst).Nodup ∧
      ({ connectOf "" false with protocolLevel := 3 } : MqttPacket).type =
        PacketType.TypeConnect ∧
      (brokerOf [(1, sessionOf "A" [])] []).clientList.lookup 2 = none ∧
      processPacket none [] (brokerOf [(1, sessionOf "A" [])] [])
          { connectOf "" false with protocolLevel := 3 } 2 =
        some (rejectedConnect (brokerOf [(1, sessionOf "A" [])] [])
          { connectOf "" false with protocolLevel := 3 } 2
          ConnectReturnCode.ConnectReturnCodeUnacceptableProtocolVersion) :=
  ⟨by decide, by decide, by decide,
    (connack_return_code none [] (brokerOf [(1, sessionOf "A" [])] [])
      { connectOf "" false with protocolLevel := 3 } 2 (by decide) (by decide)
      (by decide)).1 (by decide)⟩

/-- C12: when an accepted CONNECT with clean-session=0 names a client id that already has
a session, the CONNECT completes; the new transport holds that session's context with its
subscriptions, unackedPackets and unackedPacketList unchanged; the old transport is no
longer in the client table; only clientConnected is emitted (no clientDisconnected), the
only packets written are the CONNACK, with SessionPresent set and return code Accepted,
and the stored in-flight packets (no will PUBLISH), and the retained store is unchanged. -/
theorem session_takeover (userValidator : Option MqttUserValidator) (uuid : QString)
    (d : MqttServerPrivate) (packet : MqttPacket) (client existingClient : Nat)
    (existingCtx : ClientContext)
    (huniq : UniqueClients d)
    (htype : packet.type = PacketType.TypeConnect)
    (hnew : d.clientList.lookup client = none)
    (hlevel : packet.protocolLevel = Protocol311)
    (hid : packet.clientId = [] → packet.cleanSession = true)
    (hval : ValidatorAccepts userValidator uuid packet client)
    (hclean : packet.connectFlags.ConnectFlagCleanSession = false)
    (hmem : (existingClient, existingCtx) ∈ d.clientList)
    (hname : existingCtx.clientId = connectClientId uuid packet) :
    ∃ (d2 : MqttServerPrivate) (ctx1 : ClientContext),
      processPacket userValidator uuid d packet client = some d2 ∧
      d2.clientList.lookup client = some ctx1 ∧
      ctx1 = connectContext packet existingCtx ∧
      ctx1.clientId = existingCtx.clientId ∧
      ctx1.subscriptions = existingCtx.subscriptions ∧
      ctx1.unackedPackets = existingCtx.unackedPackets ∧
      ctx1.unackedPacketList = existingCtx.unackedPacketList ∧
      d2.clientList.lookup existingClient = none ∧
      (∀ k, k ≠ client → k ≠ existingClient → d2.clientList.lookup k = d.clientList.lookup k) ∧
      d2.emitted = d.emitted ++ [Signal.clientConnected ctx1.clientId ctx1.username] ∧
      d2.written = d.written ++
        [(client, { connackOf packet with
          connackFlags := true,
          connectReturnCode := ConnectReturnCode.ConnectReturnCodeAccepted })] ++
        resendUnacked client ctx1 ∧
      d2.retainedMessages = d.retainedMessages := by
  have hfind := find_of_unique d.clientList (existingClient, existingCtx)
    (connectClientId uuid packet) hmem hname huniq.2
  have hnotd : client ∉ d.clientList.map Prod.fst :=
    (lookup_eq_none_iff_keys d.clientList client).1 hnew
  have hne : existingClient ≠ client := by
    rintro rfl
    exact hnotd (List.mem_map_of_mem Prod.fst hmem)
  have hnot1 : client ∉ (hashRemove d.clientList existingClient).map Prod.fst := by
    rw [keys_hashRemove]
    intro hc
    exact hnotd (List.mem_filter.1 hc).1
  have hrun : processPacket userValidator uuid d packet client =
      some { d with
        clientList := hashInsert (hashRemove d.clientList existingClient) client
          (connectContext packet existingCtx),
        closed := d.closed ++ [existingClient],
        written := d.written ++
          [(client, { connackOf packet with
            connackFlags := true,
            connectReturnCode := ConnectReturnCode.ConnectReturnCodeAccepted })] ++
          resendUnacked client (connectContext packet existingCtx),
        emitted := d.emitted ++
          [Signal.clientConnected (connectContext packet existingCtx).clientId
            (connectContext packet existingCtx).username] } := by
    rw [processPacket_connect_accept userValidator uuid d packet client htype hnew hlevel hid
      hval]
    unfold acceptConnect
    rw [hfind]
    simp only [hclean, Bool.not_false, if_true]
    rfl
  obtain ⟨hs, hp, hl⟩ := connectContext_inflight packet existingCtx
  refine ⟨_, connectContext packet existingCtx, hrun, ?_, rfl,
    connectContext_clientId packet existingCtx, hs, hp, hl, ?_, fun k hk1 hk2 => ?_, rfl, rfl,
    rfl⟩
  · show (hashInsert (hashRemove d.clientList existingClient) client _).lookup client = _
    rw [hashInsert_of_not_mem _ _ _ hnot1]
    exact lookup_append_new _ _ _ hnot1
  · show (hashInsert (hashRemove d.clientList existingClient) client _).lookup existingClient
      = _
    rw [hashInsert_of_not_mem _ _ _ hnot1, lookup_append_old _ _ _ _ hne]
    exact lookup_filter_ne_self _ _
  · show (hashInsert (hashRemove d.clientList existingClient) client _).lookup k = _
    rw [hashInsert_of_not_mem _ _ _ hnot1, lookup_append_old _ _ _ _ hk1]
    exact lookup_filter_ne_of_ne _ _ _ hk2

theorem session_takeover_witness :
    ∃ (d2 : MqttServerPrivate) (ctx1 : ClientContext),
      processPacket none []
          (brokerOf [(1, { sessionOf "A" [("t", QoS.QoS1)] with
            willTopic := "w".toList, willMessage := "gone".toList,
            unackedPacketList := [5],
            unackedPackets := [(5, publishOf 5 QoS.QoS1 false false "t" "x")] }),
            (3, sessionOf "S" [("w", QoS.QoS0)])] [])
          (connectOf "A" false) 2 = some d2 ∧
      d2.clientList.lookup 2 = some ctx1 ∧
      ctx1.subscriptions = [⟨"t".toList, QoS.QoS1⟩] ∧
      ctx1.unackedPacketList = [5] ∧
      d2.clientList.lookup 1 = none ∧
      d2.emitted = [Signal.clientConnected "A".toList []] ∧
      d2.written.map (fun w => (w.1, w.2.type, w.2.connackFlags, w.2.dup)) =
        [(2, PacketType.TypeConnack, true, false), (2, PacketType.TypePublish, false, true)] := by
  obtain ⟨d2, ctx1, h, hl, hc, hi, hs, -, hu, ho, -, he, hw, -⟩ :=
    session_takeover none [] (brokerOf [(1, { sessionOf "A" [("t", QoS.QoS1)] with
        willTopic := "w".toList, willMessage := "gone".toList,
        unackedPacketList := [5],
        unackedPackets := [(5, publishOf 5 QoS.QoS1 false false "t" "x")] }),
        (3, sessionOf "S" [("w", QoS.QoS0)])] [])
      (connectOf "A" false) 2 1 _ ⟨by decide, by decide⟩ (by decide) (by decide) (by decide)
      (by decide) (by intro v hv; cases hv) rfl
      (List.mem_cons_self _ _) (by decide)
  refine ⟨d2, ctx1, h, hl, hs, hu, ho, ?_, ?_⟩
  · rw [he, hc]; rfl
  · rw [hw, hc]; rfl

/-- C13 (counterexample): the session "A" on socket 1 has the will topic "w" with
will_retain set, and socket 3 is subscribed to "w". A CONNECT for "A" with clean-session=1
on socket 2 is accepted, and the will of the old session is written to socket 3 as a
PUBLISH before the CONNACK and stored as retained. -/
theorem clean_session_publishes_will :
    (processPacket none []
        (brokerOf [(1, { sessionOf "A" [] with
            willTopic := "w".toList, willMessage := "gone".toList, willRetain := true }),
          (3, sessionOf "S" [("w", QoS.QoS0)])] [])
        (connectOf "A" true) 2).map
      (fun d2 =>
        (d2.written.map (fun w => (w.1, w.2.type, w.2.topic, w.2.payload)),
          d2.retainedMessages.map (fun e => (e.1, e.2.map (fun p => p.payload))),
          d2.clientList.map (fun e => (e.1, e.2.clientId)))) =
      some ([(3, PacketType.TypePublish, "w".toList, "gone".toList),
          (2, PacketType.TypeConnack, [], [])],
        [("w".toList, ["gone".toList])],
        [(3, "S".toList), (2, "A".toList)]) := by
  rfl

/-- C13 (amended): when an accepted CONNECT with clean-session=1 names a client id that
already has a session, the old session is removed from the client table by `cleanupClient`
and clientDisconnected is emitted for it, and the new transport gets a new context. If the
will_topic of the old session is empty, nothing is routed or stored: the CONNACK is the
only packet written. If it is non-empty, the will is first handled as a PUBLISH of the old
session: every session with a matching subscription is written a copy, and the retained
store is updated by the retain rules. -/
theorem clean_session_will (userValidator : Option MqttUserValidator) (uuid : QString)
    (d : MqttServerPrivate) (packet : MqttPacket) (client existingClient : Nat)
    (existingCtx : ClientContext)
    (huniq : UniqueClients d)
    (htype : packet.type = PacketType.TypeConnect)
    (hnew : d.clientList.lookup client = none)
    (hlevel : packet.protocolLevel = Protocol311)
    (hid : packet.clientId = [] → packet.cleanSession = true)
    (hval : ValidatorAccepts userValidator uuid packet client)
    (hclean : packet.connectFlags.ConnectFlagCleanSession = true)
    (hmem : (existingClient, existingCtx) ∈ d.clientList)
    (hname : existingCtx.clientId = connectClientId uuid packet) :
    (existingCtx.willTopic = [] →
      ∃ d2, processPacket userValidator uuid d packet client = some d2) ∧
    ∀ d2, processPacket userValidator uuid d packet client = some d2 →
      d2.clientList.lookup existingClient = none ∧
      d2.clientList.lookup client =
        some (connectContext packet (ClientContext.new (connectClientId uuid packet))) ∧
      (existingCtx.willTopic = [] →
        d2.written = d.written ++
          [(client, { connackOf packet with
            connectReturnCode := ConnectReturnCode.ConnectReturnCodeAccepted })] ∧
        d2.retainedMessages = d.retainedMessages ∧
        d2.emitted = d.emitted ++
          [Signal.clientDisconnected existingCtx.clientId,
            Signal.clientConnected (connectClientId uuid packet)
              (connectContext packet
                (ClientContext.new (connectClientId uuid packet))).username]) ∧
      (existingCtx.willTopic ≠ [] →
        ∃ (packetId : Nat) (acks copies : List (Nat × MqttPacket)),
          d2.written = d.written ++ acks ++ copies ++
            [(client, { connackOf packet with
              connectReturnCode := ConnectReturnCode.ConnectReturnCodeAccepted })] ∧
          (∀ w ∈ acks, w.1 = existingClient ∧
            (w.2.type = PacketType.TypePuback ∨ w.2.type = PacketType.TypePubrec)) ∧
          (∀ w ∈ copies, IsCopy existingCtx.willTopic existingCtx.willMessage w w.1 w.2.qos ∧
            ∃ rctx, (w.1, rctx) ∈ d.clientList ∧
              IsBestQoS existingCtx.willTopic rctx.subscriptions w.2.qos) ∧
          (∀ e ∈ d.clientList, hasMatch existingCtx.willTopic e.2 = true →
            ∃ w ∈ copies, w.1 = e.1) ∧
          d2.retainedMessages =
            storeRetained d.retainedMessages (willPacketOf existingCtx packetId) ∧
          d2.emitted = d.emitted ++
            [Signal.clientAlive existingCtx.clientId,
              Signal.publishReceived existingCtx.clientId packetId existingCtx.willTopic
                existingCtx.willMessage false,
              Signal.clientDisconnected existingCtx.clientId,
              Signal.clientConnected (connectClientId uuid packet)
                (connectContext packet
                  (ClientContext.new (connectClientId uuid packet))).username]) := by
  have hlook : d.clientList.lookup existingClient = some existingCtx :=
    lookup_of_mem_nodup d.clientList existingClient existingCtx huniq.1 hmem
  constructor
  · intro hwill
    rw [processPacket_connect_accept userValidator uuid d packet client htype hnew hlevel hid
      hval]
    refine acceptConnect_isSome userValidator d packet client _ _ huniq.1 ?_
    intro e he hide _
    have hfe := find_of_unique d.clientList e (connectClientId uuid packet) he hide huniq.2
    have hfx := find_of_unique d.clientList (existingClient, existingCtx)
      (connectClientId uuid packet) hmem hname huniq.2
    rw [hfe] at hfx
    cases hfx
    exact hwill
  · intro d2 h
    obtain ⟨d1, hcl, hd2, hnot1, hnot2, hne⟩ :=
      processPacket_connect_clean userValidator uuid d d2 packet client existingClient
        existingCtx huniq htype hnew hlevel hid hval hclean hmem hname h
    refine ⟨?_, ?_, fun hwill => ?_, fun hwill => ?_⟩
    · rw [hd2]
      show (d1.clientList ++ _).lookup existingClient = none
      rw [lookup_append_old _ _ _ _ hne]
      exact (lookup_eq_none_iff_keys _ _).2 hnot2
    · rw [hd2]
      exact lookup_append_new _ _ _ hnot1
    · rw [cleanupClient_of_no_will userValidator d existingClient existingCtx hlook hwill] at hcl
      cases hcl
      rw [hd2]
      exact ⟨rfl, rfl, by simp⟩
    · obtain ⟨packetId, acks, copies, hw, hacks, hcopies, hall, hret, -, hem, -⟩ :=
        cleanupClient_will userValidator d d1 existingClient existingCtx huniq.1 hlook hwill hcl
      refine ⟨packetId, acks, copies, ?_, hacks, hcopies, hall, ?_, ?_⟩
      · rw [hd2]
        show d1.written ++ _ = _
        rw [hw]
      · rw [hd2]
        exact hret
      · rw [hd2]
        show d1.emitted ++ _ = _
        rw [hem]
        simp

theorem clean_session_will_witness :
    ∃ (d2 : MqttServerPrivate) (packetId : Nat) (acks copies : List (Nat × MqttPacket)),
      processPacket none []
          (brokerOf [(1, { sessionOf "A" [] with
              willTopic := "w".toList, willMessage := "gone".toList, willRetain := true }),
            (3, sessionOf "S" [("w", QoS.QoS0)])] [])
          (connectOf "A" true) 2 = some d2 ∧
      d2.clientList.lookup 1 = none ∧
      d2.written = acks ++ copies ++
        [(2, { connackOf (connectOf "A" true) with
          connectReturnCode := ConnectReturnCode.ConnectReturnCodeAccepted })] ∧
      (∃ w ∈ copies, w.1 = 3) ∧
      d2.retainedMessages =
        storeRetained [] (willPacketOf { sessionOf "A" [] with
          willTopic := "w".toList, willMessage := "gone".toList, willRetain := true }
          packetId) := by
  obtain ⟨d2, h⟩ := Option.isSome_iff_exists.1 (show (processPacket none []
      (brokerOf [(1, { sessionOf "A" [] with
          willTopic := "w".toList, willMessage := "gone".toList, willRetain := true }),
        (3, sessionOf "S" [("w", QoS.QoS0)])] [])
      (connectOf "A" true) 2).isSome = true by rfl)
  obtain ⟨hl, -, -, hw⟩ := (clean_session_will none []
    (brokerOf [(1, { sessionOf "A" [] with
        willTopic := "w".toList, willMessage := "gone".toList, willRetain := true }),
      (3, sessionOf "S" [("w", QoS.QoS0)])] [])
    (connectOf "A" true) 2 1 _ ⟨by decide, by decide⟩ (by decide) (by decide) (by decide)
    (by decide) (by intro v hv; cases hv) rfl (List.mem_cons_self _ _) (by decide)).2 d2 h
  obtain ⟨packetId, acks, copies, hwr, -, -, hall, hret, -⟩ := hw (by decide)
  refine ⟨d2, packetId, acks, copies, h, hl, ?_, ?_, hret⟩
  · rw [hwr]; rfl
  · exact hall (3, sessionOf "S" [("w", QoS.QoS0)]) (by simp [brokerOf]) (by decide)

/-- C14: in every reachable broker state no two entries of the client table have the same
client id (and no socket has two entries), and every packet that is processed in such a
state, a CONNECT whose client id is in use with either clean-session value included, leads
to a state with the same property. No assumption on the ids synthesised for empty client
ids is needed. -/
theorem unique_client_ids (d : MqttServerPrivate) (hreach : Reachable d) :
    (d.clientList.map (fun e => e.2.clientId)).Nodup ∧
    (d.clientList.map Prod.fst).Nodup ∧
    ∀ (userValidator : Option MqttUserValidator) (uuid : QString) (packet : MqttPacket)
      (client : Nat) (d1 : MqttServerPrivate),
      processPacket userValidator uuid d packet client = some d1 →
        (d1.clientList.map (fun e => e.2.clientId)).Nodup ∧
        (d1.clientList.map Prod.fst).Nodup := by
  have hu := reachable_unique d hreach
  refine ⟨hu.2, hu.1, fun userValidator uuid packet client d1 h => ?_⟩
  have hu1 := processPacket_unique userValidator uuid d d1 packet client hu h
  exact ⟨hu1.2, hu1.1⟩

theorem unique_client_ids_witness :
    ∃ d1 d2 d3 : MqttServerPrivate,
      processPacket none [] (brokerOf [] []) (connectOf "A" true) 1 = some d1 ∧
      processPacket none [] d1 (connectOf "B" true) 2 = some d2 ∧
      processPacket none [] d2 (connectOf "A" false) 3 = some d3 ∧
      Reachable d2 ∧
      d3.clientList.map (fun e => (e.1, e.2.clientId)) = [(2, "B".toList), (3, "A".toList)] ∧
      (d3.clientList.map (fun e => e.2.clientId)).Nodup := by
  have h2 :=
    Reachable.packet none [] (connectOf "B" true) 2
      (Reachable.packet none [] (connectOf "A" true) 1 (Reachable.init QoS.QoS2) rfl) rfl
  exact ⟨_, _, _, rfl, rfl, rfl, h2, rfl,
    ((unique_client_ids _ h2).2.2 none [] (connectOf "A" false) 3 _ rfl).1⟩

/-- C15 (failing input): the session "D" on socket 1 has the will topic "a"; socket 2 is
subscribed to "a" and socket 3 to "a/b". `cleanupClient` for socket 1 should route the will
to socket 2 and remove "D" from the client table; instead the routing compares the filter
"a/b" with the topic "a", `matchTopic` reads `topicParts.at(1)` out of range, and
`cleanupClient` does not complete. -/
theorem will_routing_aborts :
    ({ sessionOf "D" [] with willTopic := "a".toList, willMessage := "bye".toList }
        : ClientContext).willTopic ≠ [] ∧
      hasMatch "a".toList (sessionOf "A" [("a", QoS.QoS0)]) = true ∧
      matchTopic "a/b".toList "a".toList = none ∧
      cleanupClient none
        (brokerOf [(1, { sessionOf "D" [] with
            willTopic := "a".toList, willMessage := "bye".toList }),
          (2, sessionOf "A" [("a", QoS.QoS0)]),
          (3, sessionOf "B" [("a/b", QoS.QoS0)])] []) 1 = none := by
  exact ⟨by decide, by decide, by decide, rfl⟩

/-- C16: the broker processes a DISCONNECT from an active session by clearing the
will_topic and will_message of the session, whatever will the CONNECT had registered, and
writes nothing; the `cleanupClient` that follows for that transport completes, writes no
packet (no will PUBLISH), leaves the retained store unchanged, emits clientDisconnected and
removes the session. -/
theorem disconnect_clears_will (userValidator : Option MqttUserValidator) (uuid : QString)
    (d : MqttServerPrivate) (packet : MqttPacket) (client : Nat) (ctx : ClientContext)
    (htype : packet.type = PacketType.TypeDisconnect)
    (hctx : d.clientList.lookup client = some ctx) :
    ∃ d1 d2 : MqttServerPrivate,
      processPacket userValidator uuid d packet client = some d1 ∧
      d1.clientList.lookup client = some { ctx with willMessage := [], willTopic := [] } ∧
      d1.written = d.written ∧
      d1.retainedMessages = d.retainedMessages ∧
      cleanupClient userValidator d1 client = some d2 ∧
      d2.written = d.written ∧
      d2.retainedMessages = d.retainedMessages ∧
      d2.clientList.lookup client = none ∧
      d2.emitted = d.emitted ++
        [Signal.clientAlive ctx.clientId, Signal.clientDisconnected ctx.clientId] := by
  have hrun : processPacket userValidator uuid d packet client =
      some ((d.emit (Signal.clientAlive ctx.clientId)).setContext client
        { ctx with willMessage := [], willTopic := [] }) := by
    unfold processPacket
    rw [if_neg (by rw [htype]; simp)]
    unfold processPacketConnected
    simp only [hctx, htype]
  have hlook : ((d.emit (Signal.clientAlive ctx.clientId)).setContext client
      { ctx with willMessage := [], willTopic := [] }).clientList.lookup client =
      some { ctx with willMessage := [], willTopic := [] } := by
    show (d.clientList.map _).lookup client = _
    rw [lookup_setContext_self, hctx]
    rfl
  refine ⟨_, _, hrun, hlook, rfl, rfl,
    cleanupClient_of_no_will userValidator _ client _ hlook rfl, rfl, rfl, ?_, ?_⟩
  · exact lookup_filter_ne_self _ _
  · show d.emitted ++ _ ++ _ = _
    simp

theorem disconnect_clears_will_witness :
    ∃ d1 d2 : MqttServerPrivate,
      processPacket none []
          (brokerOf [(1, { sessionOf "D" [] with
              willTopic := "a".toList, willMessage := "bye".toList, willRetain := true }),
            (2, sessionOf "A" [("a", QoS.QoS0)])] [])
          (MqttPacket.new PacketType.TypeDisconnect 0 QoS.QoS0 false false) 1 = some d1 ∧
      cleanupClient none d1 1 = some d2 ∧
      d2.written = [] ∧ d2.retainedMessages = [] ∧ d2.clientList.lookup 1 = none := by
  obtain ⟨d1, d2, h1, -, -, -, h2, hw, hr, hl, -⟩ :=
    disconnect_clears_will none []
      (brokerOf [(1, { sessionOf "D" [] with
          willTopic := "a".toList, willMessage := "bye".toList, willRetain := true }),
        (2, sessionOf "A" [("a", QoS.QoS0)])] [])
      (MqttPacket.new PacketType.TypeDisconnect 0 QoS.QoS0 false false) 1 _ rfl rfl
  exact ⟨d1, d2, h1, h2, hw, hr, hl⟩

/-- C17: after an accepted CONNECT the broker writes, right after the CONNACK, exactly the
stored in-flight packets of the session the transport is attached to (a new one, or the
one adopted with clean-session=0): one packet per entry of unackedPacketList in list
order, each to the new transport and each the stored packet with DUP set; the session
stored for the transport keeps the list and the stored packets unchanged. After a CONNACK
with code Accepted the client writes exactly its stored in-flight packets in the same way
and keeps them unchanged. -/
theorem resend_in_flight (userValidator : Option MqttUserValidator) (uuid : QString)
    (d : MqttServerPrivate) (packet : MqttPacket) (client : Nat)
    (c : MqttClientPrivate) (connack : MqttPacket)
    (hkeys : (d.clientList.map Prod.fst).Nodup)
    (htype : packet.type = PacketType.TypeConnect)
    (hnew : d.clientList.lookup client = none)
    (hlevel : packet.protocolLevel = Protocol311)
    (hid : packet.clientId = [] → packet.cleanSession = true)
    (hval : ValidatorAccepts userValidator uuid packet client)
    (hctype : connack.type = PacketType.TypeConnack)
    (hcode : connack.connectReturnCode = ConnectReturnCode.ConnectReturnCodeAccepted) :
    ((∀ e ∈ d.clientList, e.2.clientId = connectClientId uuid packet →
        packet.connectFlags.ConnectFlagCleanSession = true → e.2.willTopic = []) →
      ∃ d2, processPacket userValidator uuid d packet client = some d2) ∧
    (∀ d2, processPacket userValidator uuid d packet client = some d2 →
      ∃ (pre : List (Nat × MqttPacket)) (response : MqttPacket) (ctx0 ctx1 : ClientContext)
        (resent : List MqttPacket),
        d2.written =
          d.written ++ pre ++ [(client, response)] ++ resent.map (fun p => (client, p)) ∧
        response.type = PacketType.TypeConnack ∧
        response.connectReturnCode = ConnectReturnCode.ConnectReturnCodeAccepted ∧
        (ctx0 = ClientContext.new (connectClientId uuid packet) ∨
          (packet.connectFlags.ConnectFlagCleanSession = false ∧
            ∃ existingClient,
              d.clientList.find? (fun e => connectClientId uuid packet = e.2.clientId) =
                some (existingClient, ctx0))) ∧
        resent.length = ctx0.unackedPacketList.length ∧
        (∀ (i id : Nat), ctx0.unackedPacketList[i]? = some id →
          resent[i]? = some { packetValue ctx0.unackedPackets id with dup := true }) ∧
        d2.clientList.lookup client = some ctx1 ∧
        ctx1.unackedPacketList = ctx0.unackedPacketList ∧
        ctx1.unackedPackets = ctx0.unackedPackets) ∧
    ∃ resent : List MqttPacket,
      (c.onReadyRead connack).written = c.written ++ resent ∧
      resent.length = c.unackedPacketList.length ∧
      (∀ (i id : Nat), c.unackedPacketList[i]? = some id →
        resent[i]? = some { packetValue c.unackedPackets id with dup := true }) ∧
      (c.onReadyRead connack).unackedPacketList = c.unackedPacketList ∧
      (c.onReadyRead connack).unackedPackets = c.unackedPackets := by
  refine ⟨fun hwill => ?_, fun d2 h => ?_, ?_⟩
  · rw [processPacket_connect_accept userValidator uuid d packet client htype hnew hlevel hid
      hval]
    exact acceptConnect_isSome userValidator d packet client _ _ hkeys hwill
  · obtain ⟨pre, response, ctx0, hw, ht, hc, hctx0, hl⟩ :=
      processPacket_connect_resend userValidator uuid d d2 packet client hkeys htype hnew
        hlevel hid hval h
    refine ⟨pre, response, ctx0, connectContext packet ctx0,
      ctx0.unackedPacketList.map
        (fun retryPacketId => { packetValue ctx0.unackedPackets retryPacketId with dup := true }),
      ?_, ht, hc, hctx0, by rw [List.length_map],
      fun i id hi => resend_getElem ctx0.unackedPackets ctx0.unackedPacketList i id hi, hl,
      (connectContext_inflight packet ctx0).2.2, (connectContext_inflight packet ctx0).2.1⟩
    rw [hw, List.map_map]
    rfl
  · refine ⟨c.unackedPacketList.map
        (fun retryPacketId => { packetValue c.unackedPackets retryPacketId with dup := true }),
      ?_, by rw [List.length_map],
      fun i id hi => resend_getElem c.unackedPackets c.unackedPacketList i id hi, ?_, ?_⟩ <;>
    · unfold MqttClientPrivate.onReadyRead
      simp only [hctype, hcode, ne_eq, not_true_eq_false, if_false]
      rfl

theorem resend_in_flight_witness :
    ∃ d2 : MqttServerPrivate,
      processPacket none []
          (brokerOf [(1, { sessionOf "A" [] with
            unackedPacketList := [7, 5],
            unackedPackets := [(5, publishOf 5 QoS.QoS1 false false "t" "x"),
              (7, publishOf 7 QoS.QoS2 false false "u" "y")] })] [])
          (connectOf "A" false) 2 = some d2 ∧
      d2.written.map (fun w => (w.1, w.2.type, w.2.packetId, w.2.dup)) =
        [(2, PacketType.TypeConnack, 0, false), (2, PacketType.TypePublish, 7, true),
          (2, PacketType.TypePublish, 5, true)] ∧
      ∃ resent : List MqttPacket,
        ({ clientOf with
            unackedPacketList := [7, 5],
            unackedPackets := [(5, publishOf 5 QoS.QoS1 false false "t" "x"),
              (7, publishOf 7 QoS.QoS2 false false "u" "y")] }.onReadyRead
          { connackOf (connectOf "A" false) with
            connectReturnCode := ConnectReturnCode.ConnectReturnCodeAccepted }).written =
          [] ++ resent ∧
        resent[0]? = some (publishOf 7 QoS.QoS2 false true "u" "y") := by
  obtain ⟨htotal, -, resent, hw, -, hget, -⟩ := resend_in_flight none []
    (brokerOf [(1, { sessionOf "A" [] with
      unackedPacketList := [7, 5],
      unackedPackets := [(5, publishOf 5 QoS.QoS1 false false "t" "x"),
        (7, publishOf 7 QoS.QoS2 false false "u" "y")] })] [])
    (connectOf "A" false) 2
    { clientOf with
      unackedPacketList := [7, 5],
      unackedPackets := [(5, publishOf 5 QoS.QoS1 false false "t" "x"),
        (7, publishOf 7 QoS.QoS2 false false "u" "y")] }
    { connackOf (connectOf "A" false) with
      connectReturnCode := ConnectReturnCode.ConnectReturnCodeAccepted }
    (by decide) (by decide) (by decide) (by decide) (by decide)
    (by intro v hv; cases hv) rfl rfl
  obtain ⟨d2, h⟩ := htotal (by intro e _ _ hc; cases hc)
  refine ⟨d2, h, ?_, resent, hw, hget 0 7 rfl⟩
  have hd := h
  rw [show processPacket none []
      (brokerOf [(1, { sessionOf "A" [] with
        unackedPacketList := [7, 5],
        unackedPackets := [(5, publishOf 5 QoS.QoS1 false false "t" "x"),
          (7, publishOf 7 QoS.QoS2 false false "u" "y")] })] [])
      (connectOf "A" false) 2 = some _ from rfl] at hd
  rw [← Option.some.inj hd]
  rfl

/-- C18 (counterexample): the session "P" sends a QoS 2 PUBLISH with packet id 42 and then
the same PUBLISH with DUP set while the id is still in its in-flight list. The broker emits
publishReceived for both: once with dup = false and once more with dup = true. -/
theorem publish_received_twice :
    ((processPacket none [] (brokerOf [(1, sessionOf "P" [])] [])
        (publishOf 42 QoS.QoS2 false false "t" "x") 1).bind
      (fun d1 => processPacket none [] d1 (publishOf 42 QoS.QoS2 false true "t" "x") 1)).map
      (fun d2 => (d2.emitted, d2.clientList.map (fun e => (e.1, e.2.unackedPacketList)))) =
      some ([Signal.clientAlive "P".toList,
          Signal.publishReceived "P".toList 42 "t".toList "x".toList false,
          Signal.clientAlive "P".toList,
          Signal.publishReceived "P".toList 42 "t".toList "x".toList true],
        [(1, [42])]) := by
  rfl

/-- C18 (amended): in the broker publishReceived is emitted for every inbound QoS 2
PUBLISH, retransmissions included, with the DUP flag of the packet as its last argument. A
PUBLISH whose packet id is not in the in-flight list of the session emits it once. A DUP=1
PUBLISH whose packet id is still in the in-flight list emits it once more, with dup =
true; that packet is not stored as retained and not routed: the one packet written goes
back to the sender. -/
theorem publish_received_per_packet (userValidator : Option MqttUserValidator)
    (uuid : QString) (d : MqttServerPrivate) (packet : MqttPacket) (client : Nat)
    (ctx : ClientContext)
    (hkeys : (d.clientList.map Prod.fst).Nodup)
    (htype : packet.type = PacketType.TypePublish)
    (hctx : d.clientList.lookup client = some ctx)
    (hqos : packet.qos = QoS.QoS2) :
    (packet.packetId ∉ ctx.unackedPacketList →
      ∀ d2, processPacket userValidator uuid d packet client = some d2 →
        d2.emitted = d.emitted ++
          [Signal.clientAlive ctx.clientId,
            Signal.publishReceived ctx.clientId packet.packetId packet.topic packet.payload
              packet.dup]) ∧
    (packet.dup = true → packet.packetId ∈ ctx.unackedPacketList →
      ∃ (d2 : MqttServerPrivate) (response : MqttPacket),
        processPacket userValidator uuid d packet client = some d2 ∧
        d2.emitted = d.emitted ++
          [Signal.clientAlive ctx.clientId,
            Signal.publishReceived ctx.clientId packet.packetId packet.topic packet.payload
              true] ∧
        d2.written = d.written ++ [(client, response)] ∧
        d2.retainedMessages = d.retainedMessages ∧
        d2.clientList = d.clientList) := by
  refine ⟨fun hfresh d2 h => ?_, fun hdup hheld => ?_⟩
  · obtain ⟨acks, copies, -, -, -, -, -, -, hem, -⟩ :=
      processPacket_publish_routes userValidator uuid d d2 packet client ctx hkeys htype hctx
        (fun _ => hfresh) h
    exact hem
  · exact ⟨_, _, processPacket_publish_dup userValidator uuid d packet client ctx htype hctx
      hqos hdup hheld, rfl, rfl, rfl, rfl⟩

theorem publish_received_per_packet_witness :
    ∃ (d2 : MqttServerPrivate) (response : MqttPacket),
      processPacket none []
          (brokerOf [(1, { sessionOf "P" [] with
            unackedPacketList := [42],
            unackedPackets :=
              [(42, MqttPacket.new PacketType.TypePubrec 42 QoS.QoS0 false false)] })] [])
          (publishOf 42 QoS.QoS2 false true "t" "x") 1 = some d2 ∧
      d2.emitted = [] ++
        [Signal.clientAlive "P".toList,
          Signal.publishReceived "P".toList 42 "t".toList "x".toList true] ∧
      d2.written = [] ++ [(1, response)] := by
  obtain ⟨d2, response, h, he, hw, -⟩ :=
    (publish_received_per_packet none []
      (brokerOf [(1, { sessionOf "P" [] with
        unackedPacketList := [42],
        unackedPackets :=
          [(42, MqttPacket.new PacketType.TypePubrec 42 QoS.QoS0 false false)] })] [])
      (publishOf 42 QoS.QoS2 false true "t" "x") 1 _ (by decide) rfl rfl rfl).2 rfl
      (by decide)
  exact ⟨d2, response, h, he, hw⟩

/-- C20 (failing input): socket 1 is subscribed to "t" at QoS 1. A PUBLISH on "t" from
socket 2 is forwarded to socket 1 with packet id 1, which the session of socket 1 holds in
its in-flight list until the PUBACK. Socket 1 then sends its own QoS 2 PUBLISH on "u" with
packet id 1 and DUP set. The packet the broker writes back is not a PUBREC: it is the
stored outbound PUBLISH on "t". -/
theorem duplicate_answer_is_stored_packet :
    ((processPacket none []
        (brokerOf [(1, sessionOf "S" [("t", QoS.QoS1)]), (2, sessionOf "P" [])] [])
        (publishOf 0 QoS.QoS0 false false "t" "x") 2).bind
      (fun d1 => (processPacket none [] d1 (publishOf 1 QoS.QoS2 false true "u" "y") 1).map
        (fun d2 =>
          (d1.clientList.map (fun e => (e.1, e.2.unackedPacketList)),
            (d2.written.drop d1.written.length).map
              (fun w => (w.1, w.2.type, w.2.packetId, w.2.topic)))))) =
      some ([(1, [1]), (2, [])], [(1, PacketType.TypePublish, 1, "t".toList)]) := by
  rfl

/-- C21 (failing input): the client receives a QoS 2 PUBLISH with packet id 42, then the
PUBREL for 42, which it answers with a PUBCOMP; the id 42 is still in its in-flight list,
and the map holds the PUBCOMP under it. A later QoS 2 PUBLISH with DUP clear that reuses
the id 42 is not delivered: the client calls `disconnectFromHost` and emits and writes
nothing. -/
theorem client_pubrel_keeps_id :
    (((clientOf.onReadyRead (publishOf 42 QoS.QoS2 false false "t" "x")).onReadyRead
        (MqttPacket.new PacketType.TypePubrel 42 QoS.QoS0 false false)).unackedPacketList,
      ((clientOf.onReadyRead (publishOf 42 QoS.QoS2 false false "t" "x")).onReadyRead
        (MqttPacket.new PacketType.TypePubrel 42 QoS.QoS0 false false)).unackedPackets.map
          (fun e => (e.1, e.2.type)),
      ((clientOf.onReadyRead (publishOf 42 QoS.QoS2 false false "t" "x")).onReadyRead
        (MqttPacket.new PacketType.TypePubrel 42 QoS.QoS0 false false)).written.map
          (fun p => (p.type, p.packetId))) =
      ([42], [(42, PacketType.TypePubcomp)],
        [(PacketType.TypePubrec, 42), (PacketType.TypePubcomp, 42)]) ∧
    ((((clientOf.onReadyRead (publishOf 42 QoS.QoS2 false false "t" "x")).onReadyRead
        (MqttPacket.new PacketType.TypePubrel 42 QoS.QoS0 false false)).onReadyRead
        (publishOf 42 QoS.QoS2 false false "u" "y")).socketCalls,
      (((clientOf.onReadyRead (publishOf 42 QoS.QoS2 false false "t" "x")).onReadyRead
        (MqttPacket.new PacketType.TypePubrel 42 QoS.QoS0 false false)).onReadyRead
        (publishOf 42 QoS.QoS2 false false "u" "y")).emitted,
      (((clientOf.onReadyRead (publishOf 42 QoS.QoS2 false false "t" "x")).onReadyRead
        (MqttPacket.new PacketType.TypePubrel 42 QoS.QoS0 false false)).onReadyRead
        (publishOf 42 QoS.QoS2 false false "u" "y")).written.length) =
      ([SocketCall.disconnectFromHost],
        [ClientSignal.publishReceived "t".toList "x".toList false], 2) := by
  exact ⟨by decide, by decide⟩

/-- C22: in every reachable broker state the subscriptions of every session contain at
most one entry per topic filter, and every packet processed in such a state leads to a
state with the same property. A SUBSCRIBE leaves the session with the subscriptions of the
first loop of the SUBSCRIBE branch, whose replacement step, for a filter that is already
subscribed, keeps all filters in place and makes the entry of that filter the new
subscription; an UNSUBSCRIBE always completes and leaves the subscriptions whose filter
was not requested, in their order. -/
theorem unique_subscription_filters (d : MqttServerPrivate) (hreach : Reachable d)
    (client : Nat) (ctx : ClientContext) (hctx : d.clientList.lookup client = some ctx) :
    (ctx.subscriptions.map (fun s => s.topicFilter)).Nodup ∧
    (∀ (userValidator : Option MqttUserValidator) (uuid : QString) (packet : MqttPacket)
      (sender : Nat) (d1 : MqttServerPrivate),
      processPacket userValidator uuid d packet sender = some d1 →
        ∀ e ∈ d1.clientList, (e.2.subscriptions.map (fun s => s.topicFilter)).Nodup) ∧
    (∀ (userValidator : Option MqttUserValidator) (uuid : QString) (packet : MqttPacket)
      (d1 : MqttServerPrivate), packet.type = PacketType.TypeSubscribe →
      processPacket userValidator uuid d packet client = some d1 →
        d1.clientList.lookup client =
          some { ctx with
            subscriptions :=
              (subscribeLoop userValidator d.maximumSubscriptionQoS ctx.clientId ctx.username
                packet.subscriptions ctx.subscriptions [] []).1 }) ∧
    (∀ (s : MqttSubscription), s.topicFilter ∈ ctx.subscriptions.map (fun x => x.topicFilter) →
      (replaceSubscription s ctx.subscriptions).2 = true ∧
      (replaceSubscription s ctx.subscriptions).1.map (fun x => x.topicFilter) =
        ctx.subscriptions.map (fun x => x.topicFilter) ∧
      ∀ x ∈ (replaceSubscription s ctx.subscriptions).1, x.topicFilter = s.topicFilter → x = s) ∧
    (∀ (userValidator : Option MqttUserValidator) (uuid : QString) (packet : MqttPacket),
      packet.type = PacketType.TypeUnsubscribe →
      ∃ d1 : MqttServerPrivate,
        processPacket userValidator uuid d packet client = some d1 ∧
        d1.clientList.lookup client =
          some { ctx with
            subscriptions := ctx.subscriptions.filter (fun existing =>
              !packet.subscriptions.any (fun unsub =>
                existing.topicFilter = unsub.topicFilter)) }) := by
  have hall := reachable_all _ sessionInvariant_wellFormed d hreach
  refine ⟨(hall (client, ctx) (mem_of_lookup _ _ _ hctx)).1,
    fun userValidator uuid packet sender d1 h e he => ?_,
    fun userValidator uuid packet d1 htype h =>
      processPacket_subscribe_context userValidator uuid d d1 packet client ctx htype hctx h,
    fun s hs => ?_, fun userValidator uuid packet htype => ?_⟩
  · exact (reachable_all _ sessionInvariant_wellFormed d1
      (Reachable.packet userValidator uuid packet sender hreach h) e he).1
  · obtain ⟨h1, h2, h3⟩ := replaceSubscription_spec s ctx.subscriptions
    exact ⟨h2.2 hs, h1, h3⟩
  · obtain ⟨d1, h1, h2⟩ :=
      processPacket_unsubscribe userValidator uuid d packet client ctx htype hctx
    rw [unsubscribeLoop_eq_filter] at h2
    exact ⟨d1, h1, h2⟩

theorem unique_subscription_filters_witness :
    ∃ d1 d2 d3 : MqttServerPrivate,
      processPacket none [] (brokerOf [] []) (connectOf "A" true) 1 = some d1 ∧
      processPacket none [] d1
        (subscribeOf 1 [("a", QoS.QoS0), ("b", QoS.QoS0), ("a", QoS.QoS1)]) 1 = some d2 ∧
      processPacket none [] d2 (subscribeOf 2 [("b", QoS.QoS2), ("c", QoS.QoS1)]) 1 = some d3 ∧
      d3.clientList.map (fun e => e.2.subscriptions.map (fun s => (s.topicFilter, s.qoS))) =
        [[("a".toList, QoS.QoS1), ("b".toList, QoS.QoS2), ("c".toList, QoS.QoS1)]] ∧
      ∀ e ∈ d3.clientList, (e.2.subscriptions.map (fun s => s.topicFilter)).Nodup := by
  have h2 :=
    Reachable.packet none [] (subscribeOf 1 [("a", QoS.QoS0), ("b", QoS.QoS0), ("a", QoS.QoS1)])
      1 (Reachable.packet none [] (connectOf "A" true) 1 (Reachable.init QoS.QoS2) rfl) rfl
  exact ⟨_, _, _, rfl, rfl, rfl, rfl,
    (unique_subscription_filters _ h2 1 _ rfl).2.1 none []
      (subscribeOf 2 [("b", QoS.QoS2), ("c", QoS.QoS1)]) 1 _ rfl⟩

/-- C23 (failing input): with the allocation counter at 65535 and an in-flight list that
does not contain 0, `newPacketId` of the broker and of the client increment the 16-bit
counter to 0 and return the packet id 0. -/
theorem newPacketId_returns_zero :
    (newPacketId { brokerOf [(1, sessionOf "S" [])] [] with packetId := 65535 }
        (sessionOf "S" [])).map Prod.fst = some 0 ∧
      (newPacketId { brokerOf [(1, sessionOf "S" [])] [] with packetId := 65534 }
        { sessionOf "S" [] with unackedPacketList := [65535] }).map Prod.fst = some 0 ∧
      (MqttClientPrivate.newPacketId { clientOf with packetId := 65535 }).map Prod.fst =
        some 0 := by
  exact ⟨by decide, by decide, by decide⟩

/-- C24: whenever `newPacketId` of the broker or of the client returns, the returned id is
not in the in-flight list of the session, the counter is left at the returned id, and the
id is the first value after the previous counter value, counting upwards modulo 2^16, that
is not in the list: it is the counter plus `k` modulo 2^16 for some `k` from 1 to 65536,
and the counter plus `j` modulo 2^16 is in the list for every `j` from 1 below `k`. -/
theorem newPacketId_first_free (d d1 : MqttServerPrivate) (ctx : ClientContext)
    (c c1 : MqttClientPrivate) (id cid : Nat)
    (h : newPacketId d ctx = some (id, d1))
    (hc : c.newPacketId = some (cid, c1)) :
    (id ∉ ctx.unackedPacketList ∧ d1 = { d with packetId := id } ∧
      ∃ k, 1 ≤ k ∧ k ≤ 65536 ∧ id = (d.packetId + k) % 65536 ∧
        ∀ j, 1 ≤ j → j < k → (d.packetId + j) % 65536 ∈ ctx.unackedPacketList) ∧
    (cid ∉ c.unackedPacketList ∧ c1 = { c with packetId := cid } ∧
      ∃ k, 1 ≤ k ∧ k ≤ 65536 ∧ cid = (c.packetId + k) % 65536 ∧
        ∀ j, 1 ≤ j → j < k → (c.packetId + j) % 65536 ∈ c.unackedPacketList) := by
  constructor
  · unfold newPacketId at h
    cases hl : newPacketIdLoop ctx.unackedPacketList 65536 d.packetId with
    | none => rw [hl] at h; exact Option.noConfusion h
    | some x =>
      rw [hl] at h
      simp only [Option.some.injEq, Prod.mk.injEq] at h
      obtain ⟨rfl, rfl⟩ := h
      obtain ⟨h1, h2⟩ := newPacketIdLoop_spec _ _ _ _ hl
      exact ⟨h1, rfl, h2⟩
  · unfold MqttClientPrivate.newPacketId at hc
    cases hl : newPacketIdLoop c.unackedPacketList 65536 c.packetId with
    | none => rw [hl] at hc; exact Option.noConfusion hc
    | some x =>
      rw [hl] at hc
      simp only [Option.some.injEq, Prod.mk.injEq] at hc
      obtain ⟨rfl, rfl⟩ := hc
      obtain ⟨h1, h2⟩ := newPacketIdLoop_spec _ _ _ _ hl
      exact ⟨h1, rfl, h2⟩

theorem newPacketId_first_free_witness :
    (4 ∉ ({ sessionOf "S" [] with unackedPacketList := [2, 3, 7] } : ClientContext).unackedPacketList ∧
      ∃ k, 1 ≤ k ∧ k ≤ 65536 ∧ 4 = (1 + k) % 65536) ∧
    (1 ∉ ({ clientOf with packetId := 65534, unackedPacketList := [65535, 0] }
        : MqttClientPrivate).unackedPacketList ∧
      ∃ k, 1 ≤ k ∧ k ≤ 65536 ∧ 1 = (65534 + k) % 65536) := by
  obtain ⟨⟨h1, -, k, hk1, hk2, hk3, -⟩, h2, -, k2, hk4, hk5, hk6, -⟩ :=
    newPacketId_first_free { brokerOf [] [] with packetId := 1 }
      { brokerOf [] [] with packetId := 4 }
      { sessionOf "S" [] with unackedPacketList := [2, 3, 7] }
      { clientOf with packetId := 65534, unackedPacketList := [65535, 0] }
      { clientOf with packetId := 1, unackedPacketList := [65535, 0] } 4 1
      (by decide) (by decide)
  exact ⟨⟨h1, k, hk1, hk2, hk3⟩, h2, k2, hk4, hk5, hk6⟩

/-- C25 (failing input): the session "S" on socket 1 is subscribed to "t" at QoS 0. The
PUBLISH that `publish` writes to it has QoS 0 and carries the packet id 1, `publish`
reports the id 1 for "S", the queued published signal carries the id 1, and the allocation
counter has advanced to 1: the condition `qos >= Mqtt::QoS0` holds for every QoS. -/
theorem qos0_publish_allocates_id :
    (publish (brokerOf [(1, sessionOf "S" [("t", QoS.QoS0)])] []) "t".toList "x".toList).map
      (fun r => (r.1.written.map (fun w => (w.1, w.2.type, w.2.qos, w.2.packetId)), r.2,
        r.1.deferred, r.1.packetId)) =
      some ([(1, PacketType.TypePublish, QoS.QoS0, 1)], [("S".toList, 1)],
        [Signal.published "S".toList 1 "t".toList "x".toList], 1) := by
  rfl

/-- C26: when a PUBREC arrives for a packet id that is in the in-flight list, the broker
(always completing) and the client store a PUBREL with that id under the id, keep the
entries of all other ids, leave unackedPacketList unchanged, so the id keeps its position,
and write exactly one packet, the PUBREL with that id. A later resumption of the session
therefore retransmits, at the position of the id, the PUBREL (with DUP set) and not the
PUBLISH. -/
theorem pubrec_stores_pubrel (userValidator : Option MqttUserValidator) (uuid : QString)
    (d : MqttServerPrivate) (packet : MqttPacket) (client : Nat) (ctx : ClientContext)
    (c : MqttClientPrivate)
    (htype : packet.type = PacketType.TypePubrec)
    (hctx : d.clientList.lookup client = some ctx)
    (hheld : packet.packetId ∈ ctx.unackedPacketList)
    (hcheld : packet.packetId ∈ c.unackedPacketList) :
    (∃ (d2 : MqttServerPrivate) (ctx1 : ClientContext),
      processPacket userValidator uuid d packet client = some d2 ∧
      d2.clientList.lookup client = some ctx1 ∧
      ctx1.unackedPacketList = ctx.unackedPacketList ∧
      ctx1.unackedPackets.lookup packet.packetId =
        some (MqttPacket.new PacketType.TypePubrel packet.packetId QoS.QoS0 false false) ∧
      (∀ id, id ≠ packet.packetId →
        ctx1.unackedPackets.lookup id = ctx.unackedPackets.lookup id) ∧
      d2.written = d.written ++
        [(client, MqttPacket.new PacketType.TypePubrel packet.packetId QoS.QoS0 false false)] ∧
      (∃ i : Nat, ctx1.unackedPacketList[i]? = some packet.packetId) ∧
      ∀ i : Nat, ctx1.unackedPacketList[i]? = some packet.packetId →
        (resendUnacked client ctx1)[i]? =
          some (client, MqttPacket.new PacketType.TypePubrel packet.packetId QoS.QoS0 false
            true)) ∧
    (c.onReadyRead packet).unackedPacketList = c.unackedPacketList ∧
    (c.onReadyRead packet).unackedPackets.lookup packet.packetId =
      some (MqttPacket.new PacketType.TypePubrel packet.packetId QoS.QoS0 false false) ∧
    (∀ id, id ≠ packet.packetId →
      (c.onReadyRead packet).unackedPackets.lookup id = c.unackedPackets.lookup id) ∧
    (c.onReadyRead packet).written = c.written ++
      [MqttPacket.new PacketType.TypePubrel packet.packetId QoS.QoS0 false false] ∧
    (∃ i : Nat, (c.onReadyRead packet).unackedPacketList[i]? = some packet.packetId) ∧
    ∀ i : Nat, (c.onReadyRead packet).unackedPacketList[i]? = some packet.packetId →
      (c.onReadyRead packet).resendUnacked[i]? =
        some (MqttPacket.new PacketType.TypePubrel packet.packetId QoS.QoS0 false true) := by
  constructor
  · refine ⟨_, _, processPacket_pubrec userValidator uuid d packet client ctx htype hctx,
      lookup_setContext _ client ctx _ hctx, rfl, lookup_hashInsert_self _ _ _,
      fun id hne => ?_, rfl, List.getElem?_of_mem hheld, fun i hi => ?_⟩
    · show (hashInsert (hashRemove ctx.unackedPackets packet.packetId) _ _).lookup id = _
      rw [lookup_hashInsert_ne _ _ _ _ hne]
      exact lookup_filter_ne_of_ne _ _ _ hne
    · rw [resendUnacked_getElem client _ i packet.packetId hi]
      show some (client, { packetValue (hashInsert _ _ _) packet.packetId with dup := true }) = _
      unfold packetValue
      rw [lookup_hashInsert_self]
      rfl
  · rw [onReadyRead_pubrec c packet htype]
    refine ⟨rfl, lookup_hashInsert_self _ _ _, fun id hne => lookup_hashInsert_ne _ _ _ _ hne,
      rfl, List.getElem?_of_mem hcheld, fun i hi => ?_⟩
    unfold MqttClientPrivate.resendUnacked
    rw [List.getElem?_map]
    simp only at hi
    rw [hi]
    show some ({ packetValue (hashInsert _ _ _) packet.packetId with dup := true }
      : MqttPacket) = _
    unfold packetValue
    rw [lookup_hashInsert_self]
    rfl

theorem pubrec_stores_pubrel_witness :
    ∃ (d2 : MqttServerPrivate) (ctx1 : ClientContext),
      processPacket none []
          (brokerOf [(1, { sessionOf "S" [("t", QoS.QoS2)] with
            unackedPacketList := [3, 5],
            unackedPackets := [(3, publishOf 3 QoS.QoS1 false false "t" "x"),
              (5, publishOf 5 QoS.QoS2 false false "t" "y")] })] [])
          (MqttPacket.new PacketType.TypePubrec 5 QoS.QoS0 false false) 1 = some d2 ∧
      d2.clientList.lookup 1 = some ctx1 ∧
      ctx1.unackedPacketList = [3, 5] ∧
      (resendUnacked 1 ctx1)[1]? =
        some (1, MqttPacket.new PacketType.TypePubrel 5 QoS.QoS0 false true) := by
  obtain ⟨⟨d2, ctx1, h, hl, hlist, -, -, -, -, hre⟩, -⟩ :=
    pubrec_stores_pubrel none []
      (brokerOf [(1, { sessionOf "S" [("t", QoS.QoS2)] with
        unackedPacketList := [3, 5],
        unackedPackets := [(3, publishOf 3 QoS.QoS1 false false "t" "x"),
          (5, publishOf 5 QoS.QoS2 false false "t" "y")] })] [])
      (MqttPacket.new PacketType.TypePubrec 5 QoS.QoS0 false false) 1 _
      { clientOf with unackedPacketList := [5] } rfl rfl (by decide) (by decide)
  exact ⟨d2, ctx1, h, hl, hlist, hre 1 (by rw [hlist]; rfl)⟩

/-- C27 (counterexample): the session "S" on socket 1 is subscribed to "t" at QoS 2; the
broker publishes "x" on "t", which goes out with packet id 1. When the PUBREC for id 1
arrives the broker emits published; when the PUBCOMP arrives it emits clientAlive only. -/
theorem published_at_pubrec :
    ((publish (brokerOf [(1, sessionOf "S" [("t", QoS.QoS2)])] []) "t".toList "x".toList).bind
      (fun r => (processPacket none [] r.1
          (MqttPacket.new PacketType.TypePubrec 1 QoS.QoS0 false false) 1).bind
        (fun d1 => (processPacket none [] d1
            (MqttPacket.new PacketType.TypePubcomp 1 QoS.QoS0 false false) 1).map
          (fun d2 => (r.1.written.map (fun w => (w.1, w.2.type, w.2.qos, w.2.packetId)),
            d1.emitted, d2.emitted.drop d1.emitted.length))))) =
      some ([(1, PacketType.TypePublish, QoS.QoS2, 1)],
        [Signal.clientAlive "S".toList,
          Signal.published "S".toList 1 "t".toList "x".toList],
        [Signal.clientAlive "S".toList]) := by
  rfl

/-- C27 (amended): in the broker the published event of an outbound QoS 2 PUBLISH is
emitted when the PUBREC for its packet id is received, with the topic and payload of the
packet stored under the id, and the PUBREL is the one packet written. When the PUBCOMP is
received the id is removed from the in-flight list and map, nothing is written, and no
published event is emitted: the only signal is clientAlive. -/
theorem published_on_pubrec (userValidator : Option MqttUserValidator) (uuid : QString)
    (d : MqttServerPrivate) (pubrec pubcomp : MqttPacket) (client : Nat)
    (ctx : ClientContext)
    (hrec : pubrec.type = PacketType.TypePubrec)
    (hcomp : pubcomp.type = PacketType.TypePubcomp)
    (hctx : d.clientList.lookup client = some ctx) :
    (∃ d2 : MqttServerPrivate,
      processPacket userValidator uuid d pubrec client = some d2 ∧
      d2.emitted = d.emitted ++
        [Signal.clientAlive ctx.clientId,
          Signal.published ctx.clientId pubrec.packetId
            (packetValue ctx.unackedPackets pubrec.packetId).topic
            (packetValue ctx.unackedPackets pubrec.packetId).payload] ∧
      d2.written = d.written ++
        [(client, MqttPacket.new PacketType.TypePubrel pubrec.packetId QoS.QoS0 false false)]) ∧
    (∃ (d2 : MqttServerPrivate) (ctx1 : ClientContext),
      processPacket userValidator uuid d pubcomp client = some d2 ∧
      d2.emitted = d.emitted ++ [Signal.clientAlive ctx.clientId] ∧
      d2.written = d.written ∧
      d2.clientList.lookup client = some ctx1 ∧
      ctx1.unackedPacketList = removeAll ctx.unackedPacketList pubcomp.packetId ∧
      ctx1.unackedPackets = hashRemove ctx.unackedPackets pubcomp.packetId ∧
      pubcomp.packetId ∉ ctx1.unackedPacketList ∧
      ctx1.unackedPackets.lookup pubcomp.packetId = none) := by
  constructor
  · refine ⟨_, processPacket_pubrec userValidator uuid d pubrec client ctx hrec hctx, ?_, rfl⟩
    show d.emitted ++ _ ++ _ = _
    simp
  · refine ⟨_, _, processPacket_pubcomp userValidator uuid d pubcomp client ctx hcomp hctx,
      rfl, rfl, lookup_setContext _ client ctx _ hctx, rfl, rfl, ?_,
      lookup_filter_ne_self _ _⟩
    show pubcomp.packetId ∉ removeAll ctx.unackedPacketList pubcomp.packetId
    simp [removeAll]

theorem published_on_pubrec_witness :
    ∃ d2 : MqttServerPrivate,
      processPacket none []
          (brokerOf [(1, { sessionOf "S" [("t", QoS.QoS2)] with
            unackedPacketList := [5],
            unackedPackets := [(5, publishOf 5 QoS.QoS2 false false "t" "y")] })] [])
          (MqttPacket.new PacketType.TypePubrec 5 QoS.QoS0 false false) 1 = some d2 ∧
      d2.emitted = [] ++
        [Signal.clientAlive "S".toList, Signal.published "S".toList 5 "t".toList "y".toList] := by
  obtain ⟨⟨d2, h, he, -⟩, -⟩ :=
    published_on_pubrec none []
      (brokerOf [(1, { sessionOf "S" [("t", QoS.QoS2)] with
        unackedPacketList := [5],
        unackedPackets := [(5, publishOf 5 QoS.QoS2 false false "t" "y")] })] [])
      (MqttPacket.new PacketType.TypePubrec 5 QoS.QoS0 false false)
      (MqttPacket.new PacketType.TypePubcomp 5 QoS.QoS0 false false) 1 _ rfl rfl rfl
  exact ⟨d2, h, he⟩

/-- C28 (failing input): the session "S" on socket 1 is subscribed to "t" at QoS 1 and
never acknowledges; the broker calls `publish` on "t" 65536 times. The state reached has
an in-flight list of 65536 entries, one more than 2^16 - 1: no id occurs twice, and the
last id allocated is 0. -/
theorem in_flight_list_reaches_65536 :
    ∃ (d : MqttServerPrivate) (ctx : ClientContext),
      Reachable d ∧ d.clientList = [(1, ctx)] ∧
      ctx.unackedPacketList.length = 65536 ∧ ctx.unackedPacketList.Nodup ∧
      ctx.unackedPacketList.getLast? = some 0 := by
  obtain ⟨d, ctx, hreach, -, hcl, -, hlist⟩ := publish_flood 65536 (le_refl _)
  refine ⟨d, ctx, hreach, hcl, ?_, ?_, ?_⟩
  · rw [hlist, List.length_map, List.length_range]
  · exact (reachable_in_flight d hreach (1, ctx) (by rw [hcl]; exact List.mem_singleton_self _)).1
  · rw [hlist, show (65536 : Nat) = 65535 + 1 from rfl, List.range_succ, List.map_append]
    simp

/-- C29 (failing input): the filter "a/b" is valid and the topic "a" has one segment. The
guard `topicParts.count() < filterParts.count() - 1` is `1 < 1`, so the loop runs and calls
`topicParts.at(i)` at the indices 0 and 1; the index 1 is not below the segment count. -/
theorem matchTopic_reads_out_of_range :
    validateTopicFilter "a/b".toList = true ∧
      (split '/' "a".toList).length = 1 ∧
      matchTopicReads "a/b".toList "a".toList = [0, 1] ∧
      matchTopic "a/b".toList "a".toList = none := by
  decide

/-- C30 (failing input): a broker session right after its CONNECT and a client with
nothing in flight. A PUBREC with packet id 7 makes the broker store a PUBREL under the key
7 and write it, while unackedPacketList stays empty; the client does the same for a PUBREC
with id 7 and, with a PUBCOMP stored, for a PUBREL with id 9. The keys of unackedPackets
are then not the ids of unackedPacketList. -/
theorem stray_ack_breaks_in_flight_map :
    ((processPacket none [] (brokerOf [] []) (connectOf "S" true) 1).bind
      (fun d1 => processPacket none [] d1
        (MqttPacket.new PacketType.TypePubrec 7 QoS.QoS0 false false) 1)).map
      (fun d2 => d2.clientList.map
        (fun e => (e.2.unackedPacketList, e.2.unackedPackets.map (fun x => (x.1, x.2.type))))) =
      some [([], [(7, PacketType.TypePubrel)])] ∧
    ((clientOf.onReadyRead
        (MqttPacket.new PacketType.TypePubrec 7 QoS.QoS0 false false)).unackedPacketList,
      (clientOf.onReadyRead
        (MqttPacket.new PacketType.TypePubrec 7 QoS.QoS0 false false)).unackedPackets.map
          (fun x => (x.1, x.2.type))) = ([], [(7, PacketType.TypePubrel)]) ∧
    ((clientOf.onReadyRead
        (MqttPacket.new PacketType.TypePubrel 9 QoS.QoS0 false false)).unackedPacketList,
      (clientOf.onReadyRead
        (MqttPacket.new PacketType.TypePubrel 9 QoS.QoS0 false false)).unackedPackets.map
          (fun x => (x.1, x.2.type))) = ([], [(9, PacketType.TypePubcomp)]) := by
  exact ⟨rfl, by decide, by decide⟩


/-- C31: `newPacketId` of the broker and of the client ends for every counter value when
some 16-bit value is absent from the in-flight list: it returns an id after `k` increments
of the counter for some `k` from 1 to 65536 (the loop bounded to `k` increments returns
the id, bounded to fewer it has not ended). When the list contains all 65536 values it
does not end: the loop has no result within any number of increments. -/
theorem newPacketId_termination (d : MqttServerPrivate) (ctx : ClientContext)
    (c : MqttClientPrivate) :
    ((∃ v, v < 65536 ∧ v ∉ ctx.unackedPacketList) →
      ∃ (id : Nat) (d1 : MqttServerPrivate) (k : Nat),
        newPacketId d ctx = some (id, d1) ∧ 1 ≤ k ∧ k ≤ 65536 ∧
        newPacketIdLoop ctx.unackedPacketList k d.packetId = some id ∧
        ∀ fuel, fuel < k → newPacketIdLoop ctx.unackedPacketList fuel d.packetId = none) ∧
    ((∀ v, v < 65536 → v ∈ ctx.unackedPacketList) →
      newPacketId d ctx = none ∧
      ∀ fuel, newPacketIdLoop ctx.unackedPacketList fuel d.packetId = none) ∧
    ((∃ v, v < 65536 ∧ v ∉ c.unackedPacketList) →
      ∃ (id : Nat) (c1 : MqttClientPrivate) (k : Nat),
        c.newPacketId = some (id, c1) ∧ 1 ≤ k ∧ k ≤ 65536 ∧
        newPacketIdLoop c.unackedPacketList k c.packetId = some id ∧
        ∀ fuel, fuel < k → newPacketIdLoop c.unackedPacketList fuel c.packetId = none) ∧
    ((∀ v, v < 65536 → v ∈ c.unackedPacketList) →
      c.newPacketId = none ∧
      ∀ fuel, newPacketIdLoop c.unackedPacketList fuel c.packetId = none) := by
  refine ⟨?_, fun hall => ⟨?_, fun fuel => newPacketIdLoop_full _ hall fuel _⟩, ?_,
    fun hall => ⟨?_, fun fuel => newPacketIdLoop_full _ hall fuel _⟩⟩
  · rintro ⟨v, hv, hnot⟩
    obtain ⟨id, hid⟩ := newPacketIdLoop_isSome ctx.unackedPacketList d.packetId v hv hnot
    obtain ⟨k, hk1, hk2, hk3, hk4⟩ := newPacketIdLoop_steps _ _ _ _ hid
    refine ⟨id, { d with packetId := id }, k, ?_, hk1, hk2, hk3, hk4⟩
    unfold newPacketId
    rw [hid]
  · unfold newPacketId
    rw [newPacketIdLoop_full _ hall]
  · rintro ⟨v, hv, hnot⟩
    obtain ⟨id, hid⟩ := newPacketIdLoop_isSome c.unackedPacketList c.packetId v hv hnot
    obtain ⟨k, hk1, hk2, hk3, hk4⟩ := newPacketIdLoop_steps _ _ _ _ hid
    refine ⟨id, { c with packetId := id }, k, ?_, hk1, hk2, hk3, hk4⟩
    unfold MqttClientPrivate.newPacketId
    rw [hid]
  · unfold MqttClientPrivate.newPacketId
    rw [newPacketIdLoop_full _ hall]

theorem newPacketId_termination_witness :
    (∃ (id : Nat) (d1 : MqttServerPrivate) (k : Nat),
      newPacketId { brokerOf [] [] with packetId := 65534 }
        { sessionOf "S" [] with unackedPacketList := [65535, 0, 1] } = some (id, d1) ∧
      1 ≤ k ∧ k ≤ 65536 ∧
      newPacketIdLoop [65535, 0, 1] k 65534 = some id ∧
      ∀ fuel, fuel < k → newPacketIdLoop [65535, 0, 1] fuel 65534 = none) ∧
    newPacketId (brokerOf [] [])
      { sessionOf "S" [] with unackedPacketList := List.range 65536 } = none ∧
    MqttClientPrivate.newPacketId { clientOf with unackedPacketList := List.range 65536 } =
      none := by
  refine ⟨(newPacketId_termination { brokerOf [] [] with packetId := 65534 }
      { sessionOf "S" [] with unackedPacketList := [65535, 0, 1] } clientOf).1
      ⟨2, by norm_num, by decide⟩,
    ((newPacketId_termination (brokerOf [] [])
      { sessionOf "S" [] with unackedPacketList := List.range 65536 }
      { clientOf with unackedPacketList := List.range 65536 }).2.1 ?_).1,
    ((newPacketId_termination (brokerOf [] [])
      { sessionOf "S" [] with unackedPacketList := List.range 65536 }
      { clientOf with unackedPacketList := List.range 65536 }).2.2.2 ?_).1⟩
  · intro v hv
    dsimp only
    exact List.mem_range.2 hv
  · intro v hv
    dsimp only
    exact List.mem_range.2 hv

end NymeaMqtt
